import Mathlib

/-! A document store with hash and B-tree indexes.

A shallow embedding of the storage engine of `no_sql_dbms`
(`vector.hpp`, `hash_map.hpp`, `btree_index.cpp`, `query_evaluator.cpp`,
`collection.cpp`) and theorems about it.

Conventions of the embedding.

* `Vector<T>` is the list of its live elements `data_[0 .. size_)`.
* `double` is `Double`: the two infinities and the finite values, which are
  taken to be integers; only the order and the equality of numbers are used.
* `std::shared_ptr<BTreeNode>` is the node itself: every mutation of a node in
  place is a new node value put back where the pointer was held.
* `gen_id()` is random; the identifier it returns is an argument of `insert`.
* A member function that can throw returns an `Option` (`none`: it threw).
-/

namespace Dbms

/-! ## JSON values (`nlohmann::json`) -/

/-- Modelled from the spec: `parcer/json.hpp` (the vendored `nlohmann::json`)
is not among the sources. A value is null, a boolean, a number (one kind of
number, compared by value), a string, an array, or a mapping from string keys
to values; an object lists its entries in the iteration order of the map. -/
inductive Json where
  | null
  | bool (b : Bool)
  | num (v : Int)
  | str (s : String)
  | arr (xs : List Json)
  | obj (kvs : List (String × Json))

mutual
/-- Structural equality of values, `operator==` of `json`. -/
def Json.beq : Json → Json → Bool
  | .null, .null => true
  | .bool a, .bool b => a == b
  | .num a, .num b => a == b
  | .str a, .str b => a == b
  | .arr a, .arr b => Json.beqList a b
  | .obj a, .obj b => Json.beqKvs a b
  | _, _ => false
/-- Equality of arrays, element by element. -/
def Json.beqList : List Json → List Json → Bool
  | [], [] => true
  | x :: xs, y :: ys => Json.beq x y && Json.beqList xs ys
  | _, _ => false
/-- Equality of objects, entry by entry. -/
def Json.beqKvs : List (String × Json) → List (String × Json) → Bool
  | [], [] => true
  | (k, x) :: xs, (l, y) :: ys => k == l && Json.beq x y && Json.beqKvs xs ys
  | _, _ => false
end

mutual
theorem Json.beq_iff : ∀ (a b : Json), Json.beq a b = true ↔ a = b
  | .null, b => by cases b <;> simp [Json.beq]
  | .bool a, b => by cases b <;> simp [Json.beq]
  | .num a, b => by cases b <;> simp [Json.beq]
  | .str a, b => by cases b <;> simp [Json.beq]
  | .arr a, b => by cases b <;> simp [Json.beq, Json.beqList_iff a]
  | .obj a, b => by cases b <;> simp [Json.beq, Json.beqKvs_iff a]
theorem Json.beqList_iff : ∀ (a b : List Json), Json.beqList a b = true ↔ a = b
  | [], b => by cases b <;> simp [Json.beqList]
  | x :: xs, b => by
    cases b <;> simp [Json.beqList, Json.beq_iff x, Json.beqList_iff xs]
theorem Json.beqKvs_iff :
    ∀ (a b : List (String × Json)), Json.beqKvs a b = true ↔ a = b
  | [], b => by cases b <;> simp [Json.beqKvs]
  | (k, x) :: xs, b => by
    cases b with
    | nil => simp [Json.beqKvs]
    | cons p ys =>
      obtain ⟨l, y⟩ := p
      simp [Json.beqKvs, Json.beq_iff x, Json.beqKvs_iff xs, and_assoc]
end

instance : DecidableEq Json := fun a b =>
  if h : Json.beq a b = true then isTrue ((Json.beq_iff a b).1 h)
  else isFalse (fun e => h ((Json.beq_iff a b).2 e))

instance : Inhabited Json := ⟨Json.null⟩

namespace Json

def is_object : Json → Bool
  | .obj _ => true
  | _ => false

def is_array : Json → Bool
  | .arr _ => true
  | _ => false

def is_number : Json → Bool
  | .num _ => true
  | _ => false

def is_string : Json → Bool
  | .str _ => true
  | _ => false

def is_boolean : Json → Bool
  | .bool _ => true
  | _ => false

/-- The entries of an object (none for any other value). -/
def entries : Json → List (String × Json)
  | .obj kvs => kvs
  | _ => []

/-- The first entry under `key` in a list of entries. -/
def lookup (key : String) : List (String × Json) → Option Json
  | [] => none
  | (k, v) :: rest => if k = key then some v else lookup key rest

/-- `j.contains(key)`: false for a value that is not an object. -/
def contains (j : Json) (key : String) : Bool :=
  (lookup key j.entries).isSome

/-- `j[key]` on a key that `contains` found (null stands for the absent
entry, which a const `operator[]` must not be asked for). -/
def get (j : Json) (key : String) : Json :=
  (lookup key j.entries).getD Json.null

/-- `j.size()`: the number of entries or elements; 0 for null and 1 for any
other value that is not a container. -/
def size : Json → Nat
  | .null => 0
  | .arr xs => xs.length
  | .obj kvs => kvs.length
  | _ => 1

/-- The values a range-for over `j` visits: the elements of an array, the
values of an object, nothing for null, the value itself otherwise. -/
def iter_values : Json → List Json
  | .null => []
  | .arr xs => xs
  | .obj kvs => kvs.map Prod.snd
  | v => [v]

/-- Lexicographic order of two strings by code point, the order of the keys
of `std::map<std::string, json>`. -/
def keyLt : List Char → List Char → Bool
  | [], [] => false
  | [], _ :: _ => true
  | _ :: _, [] => false
  | a :: as, b :: bs =>
    if a.toNat < b.toNat then true
    else if b.toNat < a.toNat then false
    else keyLt as bs

/-- Entry assignment in a key-ordered map: the value under an existing key is
replaced, a new key is put before the first greater key. -/
def setEntry (key : String) (v : Json) :
    List (String × Json) → List (String × Json)
  | [] => [(key, v)]
  | (k, w) :: rest =>
    if k = key then (key, v) :: rest
    else if keyLt key.data k.data then (key, v) :: (k, w) :: rest
    else (k, w) :: setEntry key v rest

/-- `j[key] = v` on a non-const value: an object gets the entry, null becomes
an object with that one entry. (On any other value the library throws; the
sources only assign into objects and into a default-constructed value.) -/
def set (j : Json) (key : String) (v : Json) : Json :=
  .obj (setEntry key v j.entries)

/-- `j.get<std::string>()`: throws unless `j` is a string. -/
def get_string : Json → Option String
  | .str s => some s
  | _ => none

/-- `j.get<bool>()` and the implicit conversion to `bool`. -/
def get_bool : Json → Option Bool
  | .bool b => some b
  | _ => none

end Json

/-! ## Numbers (`double`) -/

/-- A `double` that is not a NaN: an infinity or a finite value. -/
inductive Double where
  | negInf
  | fin (v : Int)
  | posInf
  deriving DecidableEq, Repr

instance : Inhabited Double := ⟨Double.fin 0⟩

namespace Double

/-- `a < b` on doubles. -/
def lt : Double → Double → Bool
  | .negInf, .negInf => false
  | .negInf, _ => true
  | .fin _, .negInf => false
  | .fin a, .fin b => decide (a < b)
  | .fin _, .posInf => true
  | .posInf, _ => false

end Double

/-- `j.get<double>()`: the value of a number; throws for any other value. -/
def Json.get_double : Json → Option Double
  | .num v => some (Double.fin v)
  | _ => none

/-! ## `Vector<T>` (`vector.hpp`) -/

namespace Vector

/-- `v[i]`: `operator[]` returns `data_[index]` without a check; the default
value stands for what a read past the live elements finds. -/
def index {α : Type} [Inhabited α] (v : List α) (i : Nat) : α :=
  v.getD i default

/-- `v.push_back(x)`. -/
def push_back {α : Type} (v : List α) (x : α) : List α :=
  v ++ [x]

/-- `v.insert(pos, x)`: nothing happens when `pos > size_`. -/
def insert {α : Type} (v : List α) (pos : Nat) (x : α) : List α :=
  if pos > v.length then v else v.take pos ++ x :: v.drop pos

/-- `v.resize(n)`: the first `n` elements stay; when `n > size_` the new
elements are value-initialised. -/
def resize {α : Type} [Inhabited α] (v : List α) (n : Nat) : List α :=
  v.take n ++ List.replicate (n - v.length) default

/-- What `~T()` leaves in a cell of the buffer. -/
class Destroy (α : Type) where
  /-- The state of the object after its destructor ran. -/
  destroyed : α → α

/-- A `double` has no destructor: the cell keeps its value. -/
instance : Destroy Double := ⟨fun x => x⟩

/-- `~Vector()` is `clear(); free(data_);` and `clear()` sets `size_ = 0`: the
cell holds a vector without elements. -/
instance {β : Type} : Destroy (List β) := ⟨fun _ => []⟩

/-- The cells `data_[0 ..]` of the buffer right after a shrinking
`resize(n)`: `resize` runs `data_[i].~T()` on the cells from `n` on, lowers
`size_` and keeps the buffer, so those cells still hold what the destructor
left. -/
def cells_after_resize {α : Type} [Destroy α] (v : List α) (n : Nat) : List α :=
  v.take n ++ (v.drop n).map Destroy.destroyed

end Vector

/-! ## `custom_remove_if` (`algorithms.hpp`) -/

/-- `custom_remove_if(first, last, pred)`: the elements that fail `pred` are
moved to the front in order and the number of elements that satisfy it is
returned; the pair is (the range afterwards, the count). The tail of the range
keeps its old elements. -/
def custom_remove_if {α : Type} (v : List α) (pred : α → Bool) : List α × Nat :=
  let kept := v.filter (fun x => !pred x)
  (kept ++ v.drop kept.length, (v.filter pred).length)

/-! ## The query evaluator (`query_evaluator.cpp`) -/

/-- The UTF-8 bytes of a character. -/
def utf8_bytes (c : Char) : List Nat :=
  let n := c.toNat
  if n < 128 then [n]
  else if n < 2048 then [192 + n / 64, 128 + n % 64]
  else if n < 65536 then [224 + n / 4096, 128 + n / 64 % 64, 128 + n % 64]
  else [240 + n / 262144, 128 + n / 4096 % 64, 128 + n / 64 % 64, 128 + n % 64]

/-- The bytes of a `std::string`. -/
def bytes (s : String) : List Nat :=
  s.data.flatMap utf8_bytes

/-- `tolower` of the C locale on one byte. -/
def lower_byte (b : Nat) : Nat :=
  if 65 ≤ b ∧ b ≤ 90 then b + 32 else b

/-- What `.` of an ECMAScript `std::regex` matches: any byte but a line
terminator. -/
def dot_matches (b : Nat) : Bool :=
  b != 10 && b != 13

/-- `.*` followed by the rest of the expression `k`: some run of bytes that
`.` matches, then `k`. -/
def like_star (k : List Nat → Bool) : List Nat → Bool
  | [] => k []
  | b :: bs => k (b :: bs) || (dot_matches b && like_star k bs)

/-- The anchored regular expression that `match_like` builds from the
pattern, run on the bytes of the value: `%` is `.*`, `_` is `.`, every other
byte stands for itself (the metacharacters are escaped), without regard to
case. -/
def like_bytes : List Nat → List Nat → Bool
  | [], v => v.isEmpty
  | p :: ps, v =>
    if p = 37 then like_star (like_bytes ps) v
    else
      match v with
      | [] => false
      | b :: bs =>
        if p = 95 then dot_matches b && like_bytes ps bs
        else lower_byte p == lower_byte b && like_bytes ps bs

/-- `match_like(value, pattern)`. -/
def match_like (value pattern : String) : Bool :=
  like_bytes (bytes pattern) (bytes value)

/-- `value_eq(a, b)`: two numbers are compared as doubles, any other pair
with `==`. -/
def value_eq (a b : Json) : Bool :=
  match a, b with
  | .num x, .num y => Double.fin x == Double.fin y
  | _, _ => a == b

/-- One turn of the loop of `evaluate_condition_on_field` over the entries of
the condition: `true` means the loop goes on, `false` is `return false`. -/
def condition_holds (val : Json) (op : String) (arg : Json) : Bool :=
  if op = "$eq" then value_eq val arg
  else if op = "$gt" then
    match val, arg with
    | .num x, .num y => (Double.fin y).lt (Double.fin x)
    | _, _ => false
  else if op = "$lt" then
    match val, arg with
    | .num x, .num y => (Double.fin x).lt (Double.fin y)
    | _, _ => false
  else if op = "$like" then
    match val, arg with
    | .str s, .str p => match_like s p
    | _, _ => false
  else if op = "$in" then
    match arg with
    | .arr xs => xs.any (fun x => value_eq val x)
    | _ => false
  else false

/-- `evaluate_condition_on_field(doc, field, cond)`. -/
def evaluate_condition_on_field (doc : Json) (field : String) (cond : Json) : Bool :=
  if !doc.contains field then false
  else
    let val := doc.get field
    if !cond.is_object then value_eq val cond
    else cond.entries.all (fun e => condition_holds val e.1 e.2)

mutual
/-- `evaluate_query(doc, query)`. -/
def evaluate_query (doc : Json) : Json → Bool
  | .obj kvs =>
    if (Json.lookup "$or" kvs).isSome then eval_or doc kvs
    else if (Json.lookup "$and" kvs).isSome then eval_and doc kvs
    else kvs.all (fun e => evaluate_condition_on_field doc e.1 e.2)
  | _ => false
/-- The branch of `evaluate_query` on `query["$or"]`, found in the entries. -/
def eval_or (doc : Json) : List (String × Json) → Bool
  | [] => false
  | (k, v) :: rest =>
    if k = "$or" then
      match v with
      | .arr subs => eval_some doc subs
      | _ => false
    else eval_or doc rest
/-- The branch of `evaluate_query` on `query["$and"]`, found in the entries. -/
def eval_and (doc : Json) : List (String × Json) → Bool
  | [] => false
  | (k, v) :: rest =>
    if k = "$and" then
      match v with
      | .arr subs => eval_every doc subs
      | _ => false
    else eval_and doc rest
/-- The loop over the sub-queries of `$or`. -/
def eval_some (doc : Json) : List Json → Bool
  | [] => false
  | sub :: subs => if evaluate_query doc sub then true else eval_some doc subs
/-- The loop over the sub-queries of `$and`. -/
def eval_every (doc : Json) : List Json → Bool
  | [] => true
  | sub :: subs => if !evaluate_query doc sub then false else eval_every doc subs
end

/-! ## `HashMap<V>` (`hash_map.hpp`) -/

/-- `HashMap<V>::str_hash`, the arithmetic on `uint64_t` written modulo
`2^64`. -/
def str_hash (s : String) : Nat :=
  (bytes s).foldl
    (fun h c =>
      let h1 := h ^^^ c
      let h2 := h1 * 1099511628211 % 2 ^ 64
      let h3 := h2 ^^^ (h2 >>> 33)
      let h4 := h3 * 18397679294719823053 % 2 ^ 64
      h4 ^^^ (h4 >>> 33))
    1469598103934665603

/-- A `HashMap<V>`: the chains and the entry count. `max_load_factor` is the
0.75 of the constructor, which nothing changes. -/
structure HashMap (V : Type) where
  buckets : List (List (String × V))
  size_ : Nat

namespace HashMap

variable {V : Type}

/-- `HashMap()`: 16 empty chains. -/
def empty : HashMap V :=
  ⟨List.replicate 16 [], 0⟩

instance : Inhabited (HashMap V) := ⟨empty⟩

/-- `bucket_index(key)`. -/
def bucket_index (m : HashMap V) (key : String) : Nat :=
  if m.buckets.length = 0 then 0 else str_hash key % m.buckets.length

/-- `new_table[idx].push_back(p)`. -/
def chain_push (table : List (List (String × V))) (idx : Nat) (p : String × V) :
    List (List (String × V)) :=
  table.modify (fun chain => chain ++ [p]) idx

/-- `rehash(new_buckets)`. -/
def rehash (m : HashMap V) (new_buckets : Nat) : HashMap V :=
  let new_table :=
    m.buckets.flatten.foldl
      (fun table p => chain_push table (str_hash p.1 % new_buckets) p)
      (List.replicate new_buckets [])
  ⟨new_table, m.size_⟩

/-- The loop of `put` over one chain: the value of the first entry under
`key` is overwritten; `none` when no entry has the key. -/
def chain_update (key : String) (value : V) :
    List (String × V) → Option (List (String × V))
  | [] => none
  | (k, v) :: rest =>
    if k = key then some ((k, value) :: rest)
    else (chain_update key value rest).map (fun r => (k, v) :: r)

/-- `put(key, value)`. The load test `(double)(size_ + 1) / buckets.size() >
0.75` is `4 * (size_ + 1) > 3 * buckets.size()`. -/
def put (m : HashMap V) (key : String) (value : V) : HashMap V :=
  let m1 :=
    if m.buckets.length = 0 ∨ 4 * (m.size_ + 1) > 3 * m.buckets.length then
      rehash m (if m.buckets.length = 0 then 16 else m.buckets.length * 2)
    else m
  let idx := bucket_index m1 key
  match chain_update key value (m1.buckets.getD idx []) with
  | some chain => ⟨m1.buckets.set idx chain, m1.size_⟩
  | none => ⟨chain_push m1.buckets idx (key, value), m1.size_ + 1⟩

/-- The first value under `key` in a chain. -/
def chain_get (key : String) : List (String × V) → Option V
  | [] => none
  | (k, v) :: rest => if k = key then some v else chain_get key rest

/-- `get(key, out)`: `some v` is `true` with `out = v`, `none` is `false`
(and `out` untouched). -/
def get (m : HashMap V) (key : String) : Option V :=
  if m.buckets.length = 0 then none
  else chain_get key (m.buckets.getD (bucket_index m key) [])

/-- The loop of `remove` over one chain: the first entry under `key` is
taken out; `none` when no entry has the key. -/
def chain_erase (key : String) : List (String × V) → Option (List (String × V))
  | [] => none
  | (k, v) :: rest =>
    if k = key then some rest
    else (chain_erase key rest).map (fun r => (k, v) :: r)

/-- `remove(key)`: the map afterwards and the returned flag. -/
def remove (m : HashMap V) (key : String) : HashMap V × Bool :=
  if m.buckets.length = 0 then (m, false)
  else
    let idx := bucket_index m key
    match chain_erase key (m.buckets.getD idx []) with
    | some chain => (⟨m.buckets.set idx chain, m.size_ - 1⟩, true)
    | none => (m, false)

/-- `items()`: the entries chain after chain. -/
def items (m : HashMap V) : List (String × V) :=
  m.buckets.flatten

/-- `size()`. -/
def size (m : HashMap V) : Nat :=
  m.size_

end HashMap

/-! ## The B-tree index (`btree_index.cpp`) -/

/-- A `BTreeNode`. -/
inductive BTreeNode where
  | mk (leaf : Bool) (keys : List Double) (ids : List (List String))
      (children : List BTreeNode)

namespace BTreeNode

def leaf : BTreeNode → Bool
  | mk l _ _ _ => l

def keys : BTreeNode → List Double
  | mk _ k _ _ => k

def ids : BTreeNode → List (List String)
  | mk _ _ i _ => i

def children : BTreeNode → List BTreeNode
  | mk _ _ _ c => c

instance : Inhabited BTreeNode := ⟨mk true [] [] []⟩

mutual
/-- The number of levels below and including the node. -/
def height : BTreeNode → Nat
  | mk _ _ _ cs => heightList cs + 1
/-- The largest height in a list of nodes. -/
def heightList : List BTreeNode → Nat
  | [] => 0
  | c :: cs => max (height c) (heightList cs)
end

end BTreeNode

/-- A `BTreeIndex`: the minimum degree and the root. -/
structure BTreeIndex where
  t : Nat
  root : BTreeNode

namespace BTreeIndex

/-- `BTreeIndex(int t = 3)`: an empty leaf as root. -/
def new : BTreeIndex :=
  ⟨3, BTreeNode.mk true [] [] []⟩

instance : Inhabited BTreeIndex := ⟨new⟩

/-- `splitChild(x, i, y)` with `y` the node held at `x->children[i]`: the
node `x` afterwards (its child `i` is the shrunk `y`, its child `i + 1` the
new node `z`). The key and the id list that go up into `x` are read from the
cells `y->keys[t - 1]` and `y->ids[t - 1]` after `resize(t - 1)` has destroyed
them. -/
def splitChild (t : Nat) (x : BTreeNode) (i : Nat) (y : BTreeNode) : BTreeNode :=
  let zkeys := (List.range (t - 1)).map (fun j => Vector.index y.keys (j + t))
  let zids := (List.range (t - 1)).map (fun j => Vector.index y.ids (j + t))
  let zchildren :=
    if !y.leaf then (List.range t).map (fun j => Vector.index y.children (j + t))
    else []
  let z := BTreeNode.mk y.leaf zkeys zids zchildren
  let ykeys := Vector.resize y.keys (t - 1)
  let yids := Vector.resize y.ids (t - 1)
  let ychildren := if !y.leaf then Vector.resize y.children t else y.children
  let y1 := BTreeNode.mk y.leaf ykeys yids ychildren
  let xchildren := Vector.insert (x.children.set i y1) (i + 1) z
  let xkeys :=
    Vector.insert x.keys i (Vector.index (Vector.cells_after_resize y.keys (t - 1)) (t - 1))
  let xids :=
    Vector.insert x.ids i (Vector.index (Vector.cells_after_resize y.ids (t - 1)) (t - 1))
  BTreeNode.mk x.leaf xkeys xids xchildren

/-- The loop `while (i >= 0 && k < x->keys[i]) i--` from `i = size - 1`: the
value of `i + 1` when it stops. -/
def scan_down (keys : List Double) (k : Double) : Nat :=
  (keys.reverse.dropWhile (fun key => k.lt key)).length

/-- `insertNonFull(x, k, id)`: the node `x` afterwards. The first argument
bounds the depth of the recursion; `insert` passes the height of the tree. -/
def insertNonFull (t : Nat) : Nat → BTreeNode → Double → String → BTreeNode
  | 0, x, _, _ => x
  | fuel + 1, x, k, id =>
    let i1 := scan_down x.keys k
    if x.leaf then
      if i1 ≥ 1 ∧ Vector.index x.keys (i1 - 1) = k then
        BTreeNode.mk x.leaf x.keys
          (x.ids.modify (fun l => Vector.push_back l id) (i1 - 1)) x.children
      else
        BTreeNode.mk x.leaf (Vector.insert x.keys i1 k) (Vector.insert x.ids i1 [id])
          x.children
    else
      let i := i1
      if (Vector.index x.children i).keys.length = 2 * t - 1 then
        let x1 := splitChild t x i (Vector.index x.children i)
        let i2 := if (Vector.index x1.keys i).lt k then i + 1 else i
        BTreeNode.mk x1.leaf x1.keys x1.ids
          (x1.children.modify (fun c => insertNonFull t fuel c k id) i2)
      else
        BTreeNode.mk x.leaf x.keys x.ids
          (x.children.modify (fun c => insertNonFull t fuel c k id) i)

/-- `insert(key, id)`. -/
def insert (bt : BTreeIndex) (key : Double) (id : String) : BTreeIndex :=
  let root1 :=
    if bt.root.keys.length = 2 * bt.t - 1 then
      splitChild bt.t (BTreeNode.mk false [] [] [bt.root]) 0 bt.root
    else bt.root
  ⟨bt.t, insertNonFull bt.t root1.height root1 key id⟩

mutual
/-- `searchNode(x, k)`. -/
def searchNode : BTreeNode → Double → List String
  | BTreeNode.mk leaf keys ids children, k =>
    let i := (keys.takeWhile (fun key => key.lt k)).length
    if i < keys.length ∧ k = Vector.index keys i then Vector.index ids i
    else if leaf then []
    else searchChild children i k
/-- The call `searchNode(x->children[i], k)`. -/
def searchChild : List BTreeNode → Nat → Double → List String
  | [], _, _ => []
  | c :: _, 0, k => searchNode c k
  | _ :: cs, i + 1, k => searchChild cs i k
end

/-- `search(key)`. -/
def search (bt : BTreeIndex) (key : Double) : List String :=
  searchNode bt.root key

/-- The test `inRange` of `rangeSearchNode`. -/
def inRange (k low high : Double) (includeLow includeHigh : Bool) : Bool :=
  (low.lt k || (includeLow && k == low)) && (k.lt high || (includeHigh && k == high))

/-- The loop of `rangeSearchNode` over the keys of a leaf, from the key and
id list it has reached. -/
def rangeKeys (low high : Double) (includeLow includeHigh : Bool) :
    List Double → List (List String) → List String → List String
  | [], _, result => result
  | k :: ks, ids, result =>
    rangeKeys low high includeLow includeHigh ks ids.tail
      (if inRange k low high includeLow includeHigh then result ++ ids.headD [] else result)

mutual
/-- `rangeSearchNode(x, low, high, includeLow, includeHigh, result)`: the
vector `result` afterwards. -/
def rangeSearchNode (low high : Double) (includeLow includeHigh : Bool) :
    BTreeNode → List String → List String
  | BTreeNode.mk leaf keys ids children, result =>
    if leaf then rangeKeys low high includeLow includeHigh keys ids result
    else rangeLoop low high includeLow includeHigh children keys ids result
/-- The loop of `rangeSearchNode` in a node that is not a leaf, from the
child, key and id list it has reached, and the call on the last child after
it. -/
def rangeLoop (low high : Double) (includeLow includeHigh : Bool) :
    List BTreeNode → List Double → List (List String) → List String → List String
  | [], keys, ids, result => rangeKeys low high includeLow includeHigh keys ids result
  | c :: _, [], _, result => rangeSearchNode low high includeLow includeHigh c result
  | c :: cs, k :: ks, ids, result =>
    let r1 := rangeSearchNode low high includeLow includeHigh c result
    let r2 := if inRange k low high includeLow includeHigh then r1 ++ ids.headD [] else r1
    rangeLoop low high includeLow includeHigh cs ks ids.tail r2
end

/-- `rangeSearch(low, high, includeLow, includeHigh)`. -/
def rangeSearch (bt : BTreeIndex) (low high : Double) (includeLow includeHigh : Bool) :
    List String :=
  rangeSearchNode low high includeLow includeHigh bt.root []

end BTreeIndex

/-- A loop that converts every element and throws as soon as one conversion
throws. -/
def convert_all {α β : Type} (f : α → Option β) : List α → Option (List β)
  | [] => some []
  | x :: xs =>
    match f x, convert_all f xs with
    | some y, some ys => some (y :: ys)
    | _, _ => none

/-- `json_to_vector<double>(j)`. -/
def json_to_vector_double (j : Json) : Option (List Double) :=
  convert_all Json.get_double j.iter_values

/-- `json_to_vector<std::string>(j)` and `json_to_string_vector(j)`. -/
def json_to_string_vector (j : Json) : Option (List String) :=
  convert_all Json.get_string j.iter_values

/-- The `json` made from a `Vector<std::string>`. -/
def json_of_strings (v : List String) : Json :=
  .arr (v.map Json.str)

/-- The `json` made from a `double` key (a key of the tree comes from a JSON
number, which is finite; an infinity is written as null). -/
def json_of_double : Double → Json
  | .fin v => .num v
  | _ => .null

namespace BTreeIndex

mutual
/-- `to_json(node)`. -/
def to_json_node : BTreeNode → Json
  | BTreeNode.mk leaf keys ids children =>
    let j0 := Json.null.set "leaf" (.bool leaf)
    let j1 := j0.set "keys" (.arr (keys.map json_of_double))
    let j2 := j1.set "ids" (.arr (ids.map json_of_strings))
    if !leaf then j2.set "children" (.arr (to_json_nodes children)) else j2
/-- The loop of `to_json` over the children. -/
def to_json_nodes : List BTreeNode → List Json
  | [] => []
  | c :: cs => to_json_node c :: to_json_nodes cs
end

/-- `to_json()` of the index: the root. -/
def to_json (bt : BTreeIndex) : Json :=
  to_json_node bt.root

mutual
/-- `load_node(j)`; `none` when a conversion throws. -/
def load_node : Json → Option BTreeNode
  | .obj kvs =>
    match (Json.lookup "leaf" kvs).bind Json.get_bool,
        (Json.lookup "keys" kvs).bind json_to_vector_double,
        (Json.lookup "ids" kvs).bind
          (fun a => convert_all json_to_string_vector a.iter_values) with
    | some leaf, some keys, some ids =>
      if leaf then some (BTreeNode.mk leaf keys ids [])
      else
        match load_children kvs with
        | some children => some (BTreeNode.mk leaf keys ids children)
        | none => none
    | _, _, _ => none
  | _ => none
/-- The loop of `load_node` over `j["children"]`, found in the entries. -/
def load_children : List (String × Json) → Option (List BTreeNode)
  | [] => none
  | (k, v) :: rest =>
    if k = "children" then
      match v with
      | .arr xs => load_nodes xs
      | .obj es => load_values es
      | .null => some []
      | _ => none
    else load_children rest
/-- The loop over the elements of an array of nodes. -/
def load_nodes : List Json → Option (List BTreeNode)
  | [] => some []
  | x :: xs =>
    match load_node x, load_nodes xs with
    | some n, some ns => some (n :: ns)
    | _, _ => none
/-- The loop over the values of an object of nodes. -/
def load_values : List (String × Json) → Option (List BTreeNode)
  | [] => some []
  | (_, x) :: xs =>
    match load_node x, load_values xs with
    | some n, some ns => some (n :: ns)
    | _, _ => none
end

/-- `from_json(j)` on a `BTreeIndex()`. -/
def from_json (j : Json) : Option BTreeIndex :=
  (load_node j).map (fun r => ⟨3, r⟩)

end BTreeIndex

/-! ## Serialization and value-keys (`collection.cpp`) -/

/-- The four bits `n` as a lower-case hexadecimal digit. -/
def hex_digit (n : Nat) : Char :=
  if n < 10 then Char.ofNat (48 + n) else Char.ofNat (87 + n)

/-- One character of a string inside `dump()`. -/
def dump_char (c : Char) : List Char :=
  if c = Char.ofNat 34 then [Char.ofNat 92, Char.ofNat 34]
  else if c = Char.ofNat 92 then [Char.ofNat 92, Char.ofNat 92]
  else if c = Char.ofNat 8 then [Char.ofNat 92, 'b']
  else if c = Char.ofNat 12 then [Char.ofNat 92, 'f']
  else if c = Char.ofNat 10 then [Char.ofNat 92, 'n']
  else if c = Char.ofNat 13 then [Char.ofNat 92, 'r']
  else if c = Char.ofNat 9 then [Char.ofNat 92, 't']
  else if c.toNat < 32 then
    [Char.ofNat 92, 'u', '0', '0', hex_digit (c.toNat / 16), hex_digit (c.toNat % 16)]
  else [c]

/-- A string inside `dump()`: quoted, with the escapes of JSON. -/
def dump_string (s : String) : String :=
  String.mk (Char.ofNat 34 :: s.data.flatMap dump_char ++ [Char.ofNat 34])

/-- The items of a list joined by commas. -/
def comma_join : List String → String
  | [] => ""
  | [x] => x
  | x :: y :: rest => x ++ "," ++ comma_join (y :: rest)

mutual
/-- Modelled from the spec: `v.dump()` of the vendored library, the canonical
serialization of a value on one line. -/
def dump : Json → String
  | .null => "null"
  | .bool b => if b then "true" else "false"
  | .num v => toString v
  | .str s => dump_string s
  | .arr xs => "[" ++ comma_join (dump_elems xs) ++ "]"
  | .obj kvs => "\x7b" ++ comma_join (dump_entries kvs) ++ "\x7d"
/-- The serialized elements of an array. -/
def dump_elems : List Json → List String
  | [] => []
  | x :: xs => dump x :: dump_elems xs
/-- The serialized entries of an object. -/
def dump_entries : List (String × Json) → List String
  | [] => []
  | (k, v) :: rest => (dump_string k ++ ":" ++ dump v) :: dump_entries rest
end

/-- The text `oss << d` writes for a `double` with an integer value: the
format `%g` with six significant digits. Below `10^6` the digits of the
integer; from there on the value rounded to six digits (ties to even) as
`d.ddddde+XX` without trailing zeros. -/
def render_double (v : Int) : String :=
  let n := v.natAbs
  let sign := if v < 0 then "-" else ""
  let len := (Nat.toDigits 10 n).length
  if n < 10 ^ 6 then sign ++ toString n
  else
    let unit := 10 ^ (len - 6)
    let q := n / unit
    let r := n % unit
    let up := decide (2 * r > unit) || (decide (2 * r = unit) && decide (q % 2 = 1))
    let m := if up then q + 1 else q
    let carry := decide (m = 10 ^ 6)
    let m1 := if carry then 10 ^ 5 else m
    let e := if carry then len else len - 1
    let digits := (Nat.toDigits 10 m1).reverse.dropWhile (fun c => c = '0') |>.reverse
    let mantissa :=
      match digits with
      | [] => "0"
      | [d] => String.mk [d]
      | d :: ds => String.mk (d :: '.' :: ds)
    sign ++ mantissa ++ "e+" ++ (if e < 10 then "0" else "") ++ toString e

/-- `Collection::index_key_for_value(v)`. -/
def index_key_for_value : Json → String
  | .str s => "s:" ++ s
  | .num v => "n:" ++ render_double v
  | .bool b => "b:" ++ (if b then "1" else "0")
  | v => "j:" ++ dump v

/-! ## The collection (`collection.cpp`) -/

/-- The files of one collection in its database directory. The index files
are listed by field: the entry `(f, j)` of `index_files` is the file
`indexes/<collname>.<f>.index.json`, the entry `(f, j)` of `btree_files` the
file `indexes/<collname>.<f>.btree.json`. -/
structure Files where
  collfile : Option Json
  index_files : List (String × Json)
  btree_files : List (String × Json)

/-- Opening a file for output and writing `content` to it: the file is
created or overwritten. -/
def write_file (files : List (String × Json)) (name : String) (content : Json) :
    List (String × Json) :=
  if files.any (fun f => f.1 = name) then
    files.map (fun f => if f.1 = name then (name, content) else f)
  else files ++ [(name, content)]

/-- A `Collection`: the store, the hash indexes and the B-tree indexes in
memory, and the files of the collection. -/
structure Collection where
  store : HashMap Json
  indexes : HashMap (HashMap (List String))
  btree_indexes : HashMap BTreeIndex
  files : Files

namespace Collection

/-- The members of a `Collection` before `load()` runs, on the files
`files`. -/
def init (files : Files) : Collection :=
  ⟨HashMap.empty, HashMap.empty, HashMap.empty, files⟩

/-- The update of one hash index by `insert`: the body of the first loop for
an index on `field` that the document has a value for. -/
def index_add (field_index : HashMap (List String)) (key id : String) :
    HashMap (List String) :=
  let ids := (field_index.get key).getD []
  field_index.put key (Vector.push_back ids id)

/-- The first loop of `insert`, over `indexes.items()`. -/
def insert_indexes (doc : Json) (id : String) (indexes : HashMap (HashMap (List String))) :
    HashMap (HashMap (List String)) :=
  indexes.items.foldl
    (fun acc item =>
      if doc.contains item.1 then
        acc.put item.1 (index_add item.2 (index_key_for_value (doc.get item.1)) id)
      else acc)
    indexes

/-- The second loop of `insert`, over `btree_indexes.items()`. -/
def insert_btrees (doc : Json) (id : String) (btree_indexes : HashMap BTreeIndex) :
    HashMap BTreeIndex :=
  btree_indexes.items.foldl
    (fun acc item =>
      match doc.contains item.1, (doc.get item.1).get_double with
      | true, some key => acc.put item.1 (item.2.insert key id)
      | _, _ => acc)
    btree_indexes

/-- `insert(doc)` when `gen_id()` returns `id`: the collection afterwards and
the returned identifier; `none` when it throws, the collection untouched. -/
def insert (c : Collection) (doc : Json) (id : String) : Collection × Option String :=
  if !doc.is_object then (c, none)
  else
    let doc1 := doc.set "_id" (.str id)
    let store1 := c.store.put id doc1
    (⟨store1, insert_indexes doc1 id c.indexes, insert_btrees doc1 id c.btree_indexes,
      c.files⟩, some id)

/-- The loop `for (auto &id : ids) { json d; if (store.get(id, d))
res.push_back(d); }`. -/
def fetch (store : HashMap Json) (ids : List String) (res : List Json) : List Json :=
  ids.foldl
    (fun r id =>
      match store.get id with
      | some d => Vector.push_back r d
      | none => r)
    res

/-- The id list the B-tree branch of `find` computes from the condition;
`none` when a `get<double>()` throws. -/
def btree_ids (bt : BTreeIndex) (cond : Json) : Option (List String) :=
  if cond.contains "$eq" then
    (cond.get "$eq").get_double.map (fun v => bt.search v)
  else if cond.contains "$gt" && cond.contains "$lt" then
    match (cond.get "$gt").get_double, (cond.get "$lt").get_double with
    | some lo, some hi => some (bt.rangeSearch lo hi false false)
    | _, _ => none
  else if cond.contains "$gt" then
    (cond.get "$gt").get_double.map
      (fun lo => bt.rangeSearch lo (Double.fin (10 ^ 18)) false false)
  else if cond.contains "$lt" then
    (cond.get "$lt").get_double.map
      (fun hi => bt.rangeSearch (Double.fin (-(10 ^ 18))) hi false false)
  else some []

/-- The hash branch of `find` once `indexes.get(field, field_index)`
succeeded: the vector `res` and the flag `usedIndex` afterwards. -/
def hash_lookup (store : HashMap Json) (field_index : HashMap (List String))
    (cond : Json) : List Json × Bool :=
  if !cond.is_object then
    match field_index.get (index_key_for_value cond) with
    | some ids => (fetch store ids [], true)
    | none => ([], false)
  else if cond.contains "$eq" then
    match field_index.get (index_key_for_value (cond.get "$eq")) with
    | some ids => (fetch store ids [], true)
    | none => ([], false)
  else if cond.contains "$in" then
    ((cond.get "$in").iter_values.foldl
      (fun res v =>
        match field_index.get (index_key_for_value v) with
        | some ids => fetch store ids res
        | none => res)
      [], true)
  else ([], false)

/-- The full scan at the end of `find`. -/
def scan (store : HashMap Json) (query : Json) (res : List Json) : List Json :=
  store.items.foldl
    (fun r p => if evaluate_query p.2 query then Vector.push_back r p.2 else r)
    res

/-- The second and third part of `find`: the hash index, then the scan when
no index was used. -/
def find_hash_or_scan (c : Collection) (query : Json) : List Json :=
  let looked :=
    match query with
    | .obj [(field, cond)] =>
      if field = "$or" then ([], false)
      else
        match c.indexes.get field with
        | some field_index => hash_lookup c.store field_index cond
        | none => ([], false)
    | _ => ([], false)
  if !looked.2 then scan c.store query looked.1 else looked.1

/-- `find(query)`; `none` when it throws. -/
def find (c : Collection) (query : Json) : Option (List Json) :=
  let from_btree : Option (List String) :=
    match query with
    | .obj [(field, cond)] =>
      if field = "$or" then some []
      else
        match c.btree_indexes.get field with
        | some bt => if cond.is_object then btree_ids bt cond else some []
        | none => some []
    | _ => some []
  match from_btree with
  | none => none
  | some ids =>
    if !ids.isEmpty then some (fetch c.store ids [])
    else some (find_hash_or_scan c query)

/-- `save_index(field)`: the index file is written when the index exists. -/
def save_index (c : Collection) (field : String) : Collection :=
  match c.indexes.get field with
  | none => c
  | some field_index =>
    let ji := field_index.items.foldl
      (fun j p => j.set p.1 (json_of_strings p.2)) Json.null
    { c with files := { c.files with
        index_files := write_file c.files.index_files field ji } }

/-- `HashMap<json>::to_json()` of the store. -/
def store_to_json (store : HashMap Json) : Json :=
  store.items.foldl (fun j p => j.set p.1 p.2) (Json.obj [])

/-- `save()`. -/
def save (c : Collection) : Collection :=
  let c1 : Collection :=
    { c with files := { c.files with collfile := some (store_to_json c.store) } }
  c.indexes.items.foldl (fun acc item => save_index acc item.1) c1

/-- The update of the hash indexes for one removed document `d` with
identifier `id`: the loop of `remove` over `indexes.items()`. -/
def remove_indexes (d : Json) (id : String) (indexes : HashMap (HashMap (List String))) :
    HashMap (HashMap (List String)) :=
  indexes.items.foldl
    (fun acc item =>
      if d.contains item.1 then
        let key := index_key_for_value (d.get item.1)
        match item.2.get key with
        | some ids =>
          let moved := custom_remove_if ids (fun current_id => current_id == id)
          if moved.2 > 0 then
            let ids1 := Vector.resize moved.1 (ids.length - moved.2)
            if ids1.isEmpty then acc.put item.1 (item.2.remove key).1
            else acc.put item.1 (item.2.put key ids1)
          else acc
        | none => acc
      else acc)
    indexes

/-- The loop of `remove` over the found documents: the collection and the
count afterwards; the count is `none` when `get<std::string>()` throws, which
leaves the collection as the loop had it. -/
def remove_loop : Collection → List Json → Nat → Collection × Option Nat
  | c, [], cnt => (c, some cnt)
  | c, d :: rest, cnt =>
    match (d.get "_id").get_string with
    | none => (c, none)
    | some id =>
      let removed := c.store.remove id
      if removed.2 then
        remove_loop
          { c with store := removed.1, indexes := remove_indexes d id c.indexes }
          rest (cnt + 1)
      else remove_loop c rest cnt

/-- `remove(query)`: the collection afterwards and the returned count
(`none` when it throws). -/
def remove (c : Collection) (query : Json) : Collection × Option Nat :=
  match find c query with
  | none => (c, none)
  | some found =>
    match remove_loop c found 0 with
    | (c1, some cnt) => (if cnt > 0 then save c1 else c1, some cnt)
    | (c1, none) => (c1, none)

/-- The hash index `create_index` builds from the items of the store. -/
def build_hash_index (field : String) (all_items : List (String × Json)) :
    HashMap (List String) :=
  all_items.foldl
    (fun mapidx p =>
      if p.2.contains field then
        index_add mapidx (index_key_for_value (p.2.get field)) p.1
      else mapidx)
    HashMap.empty

/-- The B-tree `create_index` builds from the items of the store. -/
def build_btree (field : String) (all_items : List (String × Json)) : BTreeIndex :=
  all_items.foldl
    (fun btree p =>
      match p.2.contains field, (p.2.get field).get_double with
      | true, some key => btree.insert key p.1
      | _, _ => btree)
    BTreeIndex.new

/-- `create_index(field)`. -/
def create_index (c : Collection) (field : String) : Collection :=
  let all_items := c.store.items
  let numericField :=
    all_items.any (fun p => p.2.contains field && (p.2.get field).is_number)
  if numericField then
    let btree := build_btree field all_items
    { c with
      btree_indexes := c.btree_indexes.put field btree
      files := { c.files with
        btree_files := write_file c.files.btree_files field btree.to_json } }
  else
    save_index { c with indexes := c.indexes.put field (build_hash_index field all_items) }
      field

/-- The hash index `load()` makes from the content of an index file; `none`
when it throws. -/
def load_hash_index (ji : Json) : Option (HashMap (List String)) :=
  match ji with
  | .obj kvs =>
    kvs.foldl
      (fun acc kv =>
        match acc, json_to_string_vector kv.2 with
        | some mapidx, some ids => some (mapidx.put kv.1 ids)
        | _, _ => none)
      (some HashMap.empty)
  | .null => some HashMap.empty
  | _ => none

/-- `HashMap<json>::from_json(j)` of the store. -/
def store_from_json (j : Json) : HashMap Json :=
  j.entries.foldl (fun m kv => m.put kv.1 kv.2) HashMap.empty

/-- `Collection(db_path, name)` on a directory with the files `files`: the
members are initialised and `load()` runs; `none` when it throws. -/
def load (files : Files) : Option Collection :=
  match files.collfile with
  | none => some (init files)
  | some j =>
    let c0 : Collection := { init files with store := store_from_json j }
    let c1 : Option Collection :=
      files.index_files.foldl
        (fun acc f =>
          match acc, load_hash_index f.2 with
          | some c, some mapidx => some { c with indexes := c.indexes.put f.1 mapidx }
          | _, _ => none)
        (some c0)
    files.btree_files.foldl
      (fun acc f =>
        match acc, BTreeIndex.from_json f.2 with
        | some c, some bt => some { c with btree_indexes := c.btree_indexes.put f.1 bt }
        | _, _ => none)
      c1

end Collection

/-! ## Runs of the operations

The collections and trees the theorems below evaluate the code on. -/

/-- A database directory without any file of the collection. -/
def no_files : Files :=
  ⟨none, [], []⟩

/-- A fresh tree after the calls `insert(k, id)` of the list, in order. -/
def BTreeIndex.build (calls : List (Int × String)) : BTreeIndex :=
  calls.foldl (fun bt p => bt.insert (Double.fin p.1) p.2) BTreeIndex.new

/-- Six inserts with the keys 1 to 6: the sixth finds the root full and
splits it. -/
def six_inserts : List (Int × String) :=
  [(1, "a"), (2, "b"), (3, "c"), (4, "d"), (5, "e"), (6, "f")]

/-- The six inserts followed by a second id under the key 3. -/
def seven_inserts : List (Int × String) :=
  six_inserts ++ [(3, "g")]

/-- The collection after `insert({"v": 1})` returned the id `a` and
`create_index("v")` built a B-tree. -/
def numeric_indexed : Collection :=
  ((Collection.init no_files).insert (.obj [("v", .num 1)]) "a").1.create_index "v"

/-- The collection after `insert({"f": "a"})` returned the id `a` and
`create_index("f")` built a hash index. -/
def string_indexed : Collection :=
  ((Collection.init no_files).insert (.obj [("f", .str "a")]) "a").1.create_index "f"

/-- The collection `numeric_indexed` after a second `insert({"v": 2})` that
returned the id `b`. -/
def two_numbers : Collection :=
  (numeric_indexed.insert (.obj [("v", .num 2)]) "b").1

/-- The collection after `insert({"$and": [{}]})` returned `a`,
`insert({"x": 1})` returned `b` and `create_index("$and")` built a hash
index. -/
def and_indexed : Collection :=
  (((Collection.init no_files).insert (.obj [("$and", .arr [.obj []])]) "a").1.insert
    (.obj [("x", .num 1)]) "b").1.create_index "$and"

/-- The full scan of the store: every stored document that satisfies the
query. -/
def full_scan (c : Collection) (query : Json) : List Json :=
  (c.store.items.map Prod.snd).filter (fun d => evaluate_query d query)

/-- The collection after six calls of `insert`, on `{"v": 1}` to `{"v": 6}`,
returned the ids `a` to `f`. -/
def six_numbers : Collection :=
  [(1, "a"), (2, "b"), (3, "c"), (4, "d"), (5, "e"), (6, "f")].foldl
    (fun c (p : Int × String) => (c.insert (.obj [("v", .num p.1)]) p.2).1)
    (Collection.init no_files)

/-- The four kinds of value that `index_key_for_value` tells apart: a string
(0), a number (1), a boolean (2), any other value (3). -/
def value_kind : Json → Nat
  | .str _ => 0
  | .num _ => 1
  | .bool _ => 2
  | _ => 3

/-- The first character of the value-key of a kind of value. -/
def kind_tag : Nat → Char
  | 0 => 's'
  | 1 => 'n'
  | 2 => 'b'
  | _ => 'j'

namespace HashMap

variable {V : Type}

/-- The first half of `put`: the table after the load test and the `rehash`
it may call. -/
def grow (m : HashMap V) : HashMap V :=
  if m.buckets.length = 0 ∨ 4 * (m.size_ + 1) > 3 * m.buckets.length then
    rehash m (if m.buckets.length = 0 then 16 else m.buckets.length * 2)
  else m

/-- The second half of `put`: the update of the chain of the key. -/
def put_at (m1 : HashMap V) (key : String) (value : V) : HashMap V :=
  let idx := bucket_index m1 key
  match chain_update key value (m1.buckets.getD idx []) with
  | some chain => ⟨m1.buckets.set idx chain, m1.size_⟩
  | none => ⟨chain_push m1.buckets idx (key, value), m1.size_ + 1⟩

/-- The representation invariant of a `HashMap`: there is a bucket, every key
is in the chain of its hash, and no chain holds a key twice. -/
structure WF (m : HashMap V) : Prop where
  pos : 0 < m.buckets.length
  placed : ∀ i, ∀ k ∈ (m.buckets.getD i []).map Prod.fst,
    str_hash k % m.buckets.length = i
  uniq : ∀ i, ((m.buckets.getD i []).map Prod.fst).Nodup

end HashMap

/-- A call that changes a `HashMap<V>`. -/
inductive MapCall (V : Type) where
  | put (key : String) (value : V)
  | remove (key : String)

namespace MapCall

variable {V : Type}

/-- The key a call names. -/
def key : MapCall V → String
  | put k _ => k
  | remove k => k

/-- The map after one call. -/
def apply (m : HashMap V) : MapCall V → HashMap V
  | put k v => m.put k v
  | remove k => (m.remove k).1

/-- The map after the calls of the list, in order, on a default-constructed
`HashMap`. -/
def run (calls : List (MapCall V)) : HashMap V :=
  calls.foldl apply HashMap.empty

/-- What a finite map holds under `k` after one more call, when it held `held`
before: a `put(k, v)` sets the value, a `remove(k)` clears it, a call on
another key changes nothing. -/
def track (k : String) (held : Option V) : MapCall V → Option V
  | put k' v => if k' = k then some v else held
  | remove k' => if k' = k then none else held

/-- The value of the most recent `put(k, v)` of the list that no `remove(k)`
follows, if there is one. -/
def last_put (k : String) (calls : List (MapCall V)) : Option V :=
  calls.foldl (track k) none

/-- The number of present keys after the calls: the keys that some call names
and that have a most recent `put` not followed by a `remove`. -/
def present_count (calls : List (MapCall V)) : Nat :=
  (((calls.map key).toFinset).filter (fun k => (last_put k calls).isSome = true)).card

end MapCall

/-- `gen_id()` when the generator returns `a`: the 64-bit value written in
hexadecimal. -/
def gen_id (a : Nat) : String :=
  String.mk (Nat.toDigits 16 (a % 2 ^ 64))

namespace Collection

/-- The collection states reached from an empty collection by calls of
`insert`, `remove` and `create_index`; the identifier of an `insert` is what
`gen_id()` makes of the value `a` of the generator. -/
inductive Reached : Collection → Prop
  | init (files : Files) : Reached (init files)
  | insert (c : Collection) (doc : Json) (a : Nat) :
      Reached c → Reached (c.insert doc (gen_id a)).1
  | remove (c : Collection) (query : Json) : Reached c → Reached (c.remove query).1
  | create_index (c : Collection) (field : String) :
      Reached c → Reached (c.create_index field)

/-- The invariant of the store: the table is well formed, and every stored
document has under `_id` the string it is stored under, which satisfies
`P`. -/
def StoreInv (P : String → Prop) (c : Collection) : Prop :=
  c.store.WF ∧ ∀ id d, c.store.get id = some d → d.get "_id" = .str id ∧ P id

end Collection

/-- One turn of a loop over the items of a map that puts a new value under
the key of the item when `g` gives one. -/
def HashMap.put_entry {V : Type} (g : String × V → Option V) (acc : HashMap V)
    (item : String × V) : HashMap V :=
  match g item with
  | some y => acc.put item.1 y
  | none => acc

namespace Collection

/-- What one turn of the first loop of `insert` puts under the field of the
item, if it puts anything. -/
def insert_index_entry (doc : Json) (id : String)
    (item : String × HashMap (List String)) : Option (HashMap (List String)) :=
  if doc.contains item.1 then
    some (index_add item.2 (index_key_for_value (doc.get item.1)) id)
  else none

end Collection

namespace Collection

/-- Fidelity of a hash index on `field` to the documents `S` (`S id d`: the
document `d` is held under `id`): every value-key of the index has a list of
ids that is not empty, holds no id twice and holds only ids of documents that
contain the field with that value-key, and every document that contains the
field has its id in the list of its value-key. -/
def IndexFaithful (S : String → Json → Prop) (field : String)
    (idx : HashMap (List String)) : Prop :=
  (∀ K ids, idx.get K = some ids →
      ids ≠ [] ∧ ids.Nodup ∧
        ∀ id ∈ ids, ∃ d, S id d ∧ d.contains field = true
          ∧ index_key_for_value (d.get field) = K)
    ∧ (∀ id d, S id d → d.contains field = true →
        ∃ ids, idx.get (index_key_for_value (d.get field)) = some ids ∧ id ∈ ids)

/-- What one turn of the loop of `remove` over the hash indexes puts under
the field of the item, if it puts anything. -/
def remove_index_entry (d : Json) (id : String)
    (item : String × HashMap (List String)) : Option (HashMap (List String)) :=
  if d.contains item.1 then
    let key := index_key_for_value (d.get item.1)
    match item.2.get key with
    | some ids =>
      let moved := custom_remove_if ids (fun current_id => current_id == id)
      if moved.2 > 0 then
        let ids1 := Vector.resize moved.1 (ids.length - moved.2)
        if ids1.isEmpty then some (item.2.remove key).1
        else some (item.2.put key ids1)
      else none
    | none => none
  else none

end Collection

namespace Collection

/-- The invariant of the hash indexes: the table of the indexes and every
index are well formed, and every index is faithful to the store. -/
def IndexInv (c : Collection) : Prop :=
  c.indexes.WF ∧ ∀ F idx, c.indexes.get F = some idx →
    idx.WF ∧ IndexFaithful (fun id d => c.store.get id = some d) F idx

/-- The collection states reached from an empty collection by calls of
`insert`, `remove` and `create_index` when no `insert` generates an identifier
that the store holds. -/
inductive ReachedFresh : Collection → Prop
  | init (files : Files) : ReachedFresh (init files)
  | insert (c : Collection) (doc : Json) (id : String) :
      ReachedFresh c → c.store.get id = none → ReachedFresh (c.insert doc id).1
  | remove (c : Collection) (query : Json) :
      ReachedFresh c → ReachedFresh (c.remove query).1
  | create_index (c : Collection) (field : String) :
      ReachedFresh c → ReachedFresh (c.create_index field)

end Collection

/-- The collection `numeric_indexed` after a second `insert`, of
`{"v": 2000000000000000000}`, that returned the id `b`. -/
def large_number : Collection :=
  (numeric_indexed.insert (.obj [("v", .num (2 * 10 ^ 18))]) "b").1

/-! ## The request dispatcher (`db_server.cpp`) -/

/-- The map after the object behind the pointer held under `key` has become
`value`: a `HashMap<T*>` holds the pointer, so a change of the object moves
nothing in the table. -/
def HashMap.assign {V : Type} (m : HashMap V) (key : String) (value : V) : HashMap V :=
  let idx := m.bucket_index key
  match HashMap.chain_update key value (m.buckets.getD idx []) with
  | some chain => ⟨m.buckets.set idx chain, m.size_⟩
  | none => m

/-- A `DBServer`, as far as `process_request` uses it: the files of every
collection of the database directory and the collections opened so far (the
objects behind the pointers of `collections`). -/
structure DBServer where
  directory : String → Files
  collections : HashMap Collection

namespace DBServer

/-- The response `{{"status", "error"}, {"message", text}}`. -/
def error_response (text : String) : Json :=
  .obj [("message", .str text), ("status", .str "error")]

/-- `get_collection(db_name)`: the collection registered under the name, or a
new `Collection(db_dir, db_name)`, which is registered; `none` when the
constructor throws while it loads the files. -/
def get_collection (s : DBServer) (db_name : String) : Option (DBServer × Collection) :=
  match s.collections.get db_name with
  | some coll => some (s, coll)
  | none =>
    match Collection.load (s.directory db_name) with
    | some coll => some ({ s with collections := s.collections.put db_name coll }, coll)
    | none => none

/-- The loop of the insert branch of `execute_write_operation` over
`request["data"]`, from the collection and the vector `inserted_ids` it has
reached; `gen n` is what the call number `n` of `gen_id()` returns. The result
is the collection afterwards and either the message of the error response
that leaves the loop or the ids. -/
def insert_loop (gen : Nat → String) :
    Collection → List Json → List String → Collection × Except String (List String)
  | coll, [], inserted => (coll, .ok inserted)
  | coll, doc :: rest, inserted =>
    if !doc.is_object then (coll, .error "Document must be a JSON object")
    else
      match coll.insert doc (gen inserted.length) with
      | (coll1, some id) => insert_loop gen coll1 rest (Vector.push_back inserted id)
      | (coll1, none) => (coll1, .error "Insert failed: Document must be an object")

/-- `execute_write_operation(coll, request, operation)`: the collection
afterwards and the response. `what` is the text `e.what()` of an exception
that leaves the storage engine. -/
def execute_write_operation (coll : Collection) (gen : Nat → String) (what : String)
    (request : Json) (operation : String) : Collection × Json :=
  if operation = "insert" then
    if !request.contains "data" || !(request.get "data").is_array then
      (coll, error_response "Insert operation requires data array")
    else
      match insert_loop gen coll (request.get "data").iter_values [] with
      | (coll1, .error text) => (coll1, error_response text)
      | (coll1, .ok inserted_ids) =>
        (coll1.save,
          .obj [("count", .num inserted_ids.length),
            ("data", .arr (inserted_ids.map Json.str)),
            ("message", .str ("Inserted " ++ toString inserted_ids.length ++ " documents")),
            ("status", .str "success")])
  else if operation = "delete" then
    if !request.contains "query" then
      (coll, error_response "Delete operation requires query")
    else
      match coll.remove (request.get "query") with
      | (coll1, some deleted_count) =>
        (if deleted_count > 0 then coll1.save else coll1,
          .obj [("count", .num deleted_count),
            ("message", .str ("Deleted " ++ toString deleted_count ++ " documents")),
            ("status", .str "success")])
      | (coll1, none) => (coll1, error_response ("Delete failed: " ++ what))
  else (coll, error_response "Unknown write operation")

/-- `execute_read_operation(coll, request)`. -/
def execute_read_operation (coll : Collection) (what : String) (request : Json) : Json :=
  if !request.contains "query" then error_response "Find operation requires query"
  else
    match coll.find (request.get "query") with
    | some results =>
      .obj [("count", .num results.length),
        ("data", .arr results),
        ("message", .str ("Found " ++ toString results.length ++ " documents")),
        ("status", .str "success")]
    | none => error_response ("Find failed: " ++ what)

/-- `process_request(request)`: the server afterwards and the response;
`none` when an exception leaves the function (the conversion of `database` or
`operation` to `std::string`, the constructor of the collection). `locked`
tells whether the loop of `try_lock` got the write side of the gate within
five seconds. The pointers that `get_collection` and `get_db_mutex` return are
never null. -/
def process_request (s : DBServer) (gen : Nat → String) (locked : Bool) (what : String)
    (request : Json) : Option (DBServer × Json) :=
  if !request.contains "database" || !request.contains "operation" then
    some (s, error_response "Invalid request format")
  else
    match (request.get "database").get_string, (request.get "operation").get_string with
    | some db_name, some operation =>
      if db_name = "" then some (s, error_response "Database name cannot be empty")
      else
        match get_collection s db_name with
        | none => none
        | some (s1, coll) =>
          if operation = "insert" ∨ operation = "delete" then
            if !locked then some (s1, error_response "Database lock timeout")
            else
              let r := execute_write_operation coll gen what request operation
              some ({ s1 with collections := s1.collections.assign db_name r.1 }, r.2)
          else if operation = "find" then
            some (s1, execute_read_operation coll what request)
          else some (s1, error_response ("Unknown operation: " ++ operation))
    | _, _ => none

/-- A server that has opened no collection, on an empty directory. -/
def fresh : DBServer :=
  ⟨fun _ => no_files, HashMap.empty⟩

end DBServer

/-- The requests that the specification names as bad requests: `database` or
`operation` is missing, the database name is empty, the operation is none of
insert, find and delete, an insert has no `data`, or `data` is no array or
holds an element that is no object, a find or a delete has no `query`. -/
def bad_request (request : Json) : Bool :=
  !request.contains "database" || !request.contains "operation"
    || request.get "database" == .str ""
    || (request.get "operation" != .str "insert" && request.get "operation" != .str "find"
        && request.get "operation" != .str "delete")
    || (request.get "operation" == .str "insert"
        && (!request.contains "data" || !(request.get "data").is_array
          || (request.get "data").iter_values.any (fun d => !d.is_object)))
    || ((request.get "operation" == .str "find" || request.get "operation" == .str "delete")
        && !request.contains "query")

/-! ## The invariant of the B-tree -/

/-- `a <= b` on doubles. -/
def Double.le (a b : Double) : Bool :=
  !b.lt a

/-- A finite double. -/
def Double.is_fin : Double → Bool
  | .fin _ => true
  | _ => false

namespace BTreeNode

mutual
/-- The keys of the node and of every node below it. -/
def all_keys : BTreeNode → List Double
  | mk _ keys _ children => keys ++ all_keys_list children
/-- The keys of the nodes of a list and of every node below them. -/
def all_keys_list : List BTreeNode → List Double
  | [] => []
  | c :: cs => all_keys c ++ all_keys_list cs
end

mutual
/-- The ids of the node and of every node below it. -/
def all_ids : BTreeNode → List String
  | mk _ _ ids children => ids.flatten ++ all_ids_list children
/-- The ids of the nodes of a list and of every node below them. -/
def all_ids_list : List BTreeNode → List String
  | [] => []
  | c :: cs => all_ids c ++ all_ids_list cs
end

mutual
/-- The node and every node below it. -/
def nodes : BTreeNode → List BTreeNode
  | mk leaf keys ids children => mk leaf keys ids children :: nodes_list children
/-- The nodes of a list and every node below them. -/
def nodes_list : List BTreeNode → List BTreeNode
  | [] => []
  | c :: cs => nodes c ++ nodes_list cs
end

/-- The keys are finite and ascend from `lo` to `hi`:
`lo <= k0 <= k1 <= … <= hi`. -/
def Between : Double → Double → List Double → Prop
  | lo, hi, [] => lo.le hi = true
  | lo, hi, k :: ks => lo.le k = true ∧ k.is_fin = true ∧ Between k hi ks

/-- The lower bound of the child `i` of a node with the keys `keys` and the
lower bound `lo`: `lo` for the first child, the key `i - 1` for the others. -/
def lob : Double → List Double → Nat → Double
  | lo, _, 0 => lo
  | lo, [], _ + 1 => lo
  | _, k :: ks, i + 1 => lob k ks i

/-- The upper bound of the child `i` of a node with the keys `keys` and the
upper bound `hi`: the key `i`, or `hi` for the last child. -/
def hib : Double → List Double → Nat → Double
  | hi, [], _ => hi
  | _, k :: _, 0 => k
  | hi, _ :: ks, i + 1 => hib hi ks i

mutual
/-- The invariant of a node with at least `m` keys whose keys lie between `lo`
and `hi`, for the minimum degree 3: between `m` and 5 keys, as many id lists
as keys, the keys finite and ascending; a leaf has no children, another node
has one child more than keys, and the child `i` is a node with at least 2 keys
between the key `i - 1` and the key `i`. -/
def Ok (m : Nat) (lo hi : Double) : BTreeNode → Prop
  | mk leaf keys ids children =>
    m ≤ keys.length ∧ keys.length ≤ 5 ∧ ids.length = keys.length ∧ Between lo hi keys
      ∧ (leaf = true → children = [])
      ∧ (leaf = false → OkCh lo hi keys children)
/-- The invariant of the children of a node with the keys `keys` between `lo`
and `hi`. -/
def OkCh (lo hi : Double) : List Double → List BTreeNode → Prop
  | [], [c] => Ok 2 lo hi c
  | k :: ks, c :: cs => Ok 2 lo k c ∧ OkCh k hi ks cs
  | _, _ => False
end

end BTreeNode

/-- The shape of one node of a B-tree of minimum degree `t`: at most `2t - 1`
keys, as many id lists as keys, one child more than keys unless it is a leaf,
and each key at most the next. -/
def BTreeNode.well_shaped (t : Nat) (n : BTreeNode) : Prop :=
  n.keys.length ≤ 2 * t - 1 ∧ n.ids.length = n.keys.length
    ∧ (n.leaf = false → n.children.length = n.keys.length + 1)
    ∧ List.Chain' (fun a b => Double.le a b = true) n.keys

namespace BTreeNode

mutual
/-- The keys of the subtree in the order in which `rangeSearchNode` walks it:
in a leaf the keys of the node, otherwise child 0, key 0, child 1, key 1, …,
last child. -/
def inorder_keys : BTreeNode → List Double
  | mk leaf keys _ children => if leaf then keys else inorder_loop children keys
/-- The walk over the children and keys of a node that is not a leaf, from the
child and key it has reached. -/
def inorder_loop : List BTreeNode → List Double → List Double
  | [], keys => keys
  | c :: _, [] => inorder_keys c
  | c :: cs, k :: ks => inorder_keys c ++ k :: inorder_loop cs ks
end

end BTreeNode

/-! ## Checked element access in `splitChild` -/

/-- `v[i]` for an index below `size_`; `none` marks an access outside the live
elements of the vector. -/
def Vector.index_checked {α : Type} (v : List α) (i : Nat) : Option α :=
  v[i]?

namespace BTreeIndex

/-- `splitChild(x, i, y)` with every `operator[]` of the function replaced by
the checked access, statement by statement: `none` as soon as one index is not
below the size the vector has at that moment. -/
def splitChild_checked (t : Nat) (x : BTreeNode) (i : Nat) (y : BTreeNode) :
    Option BTreeNode :=
  match convert_all (fun j => Vector.index_checked y.keys (j + t)) (List.range (t - 1)),
      convert_all (fun j => Vector.index_checked y.ids (j + t)) (List.range (t - 1)),
      (if !y.leaf then
        convert_all (fun j => Vector.index_checked y.children (j + t)) (List.range t)
      else some []) with
  | some zkeys, some zids, some zchildren =>
    let z := BTreeNode.mk y.leaf zkeys zids zchildren
    let ykeys := Vector.resize y.keys (t - 1)
    let yids := Vector.resize y.ids (t - 1)
    let ychildren := if !y.leaf then Vector.resize y.children t else y.children
    let y1 := BTreeNode.mk y.leaf ykeys yids ychildren
    let xchildren := Vector.insert (x.children.set i y1) (i + 1) z
    match Vector.index_checked ykeys (t - 1), Vector.index_checked yids (t - 1) with
    | some up_key, some up_ids =>
      some (BTreeNode.mk x.leaf (Vector.insert x.keys i up_key)
        (Vector.insert x.ids i up_ids) xchildren)
    | _, _ => none
  | _, _, _ => none

/-- `insert(key, id)` with the accesses of the split of a full root checked:
`none` when that split reaches outside a vector. -/
def insert_checked (bt : BTreeIndex) (key : Double) (id : String) : Option BTreeIndex :=
  if bt.root.keys.length = 2 * bt.t - 1 then
    (splitChild_checked bt.t (BTreeNode.mk false [] [] [bt.root]) 0 bt.root).map
      (fun root1 => ⟨bt.t, insertNonFull bt.t root1.height root1 key id⟩)
  else some (bt.insert key id)

end BTreeIndex

/-- The first five of the six inserts: the root is a full leaf. -/
def five_inserts : List (Int × String) :=
  six_inserts.take 5

/-! ## The gate of a database (`get_db_mutex` and the locks of `process_request`)

The clients run in one thread each. The statements of `process_request` from
`get_db_mutex` on are cut into the steps below; a schedule names the thread
that takes the next step. -/

/-- A `std::shared_mutex`: whether a thread holds it exclusively and how many
hold it shared. -/
structure SharedMutex where
  writer : Bool
  readers : Nat
  deriving DecidableEq, Repr

instance : Inhabited SharedMutex := ⟨⟨false, 0⟩⟩

/-- Where a client thread stands in `process_request`. -/
inductive Pc where
  /-- Before `db_mutexes.get(db_name, mutex)` in `get_db_mutex`. -/
  | start
  /-- The `get` returned false: before `new std::shared_mutex()` and `put`. -/
  | missed
  /-- The thread has the pointer `m` from `get_db_mutex`: before `try_lock()` of
  a writer or the `shared_lock` of a reader. -/
  | holds (m : Nat)
  /-- The thread has locked the mutex `m` and is inside
  `execute_write_operation` or `execute_read_operation`. -/
  | inside (m : Nat)
  /-- The thread has left the operation and released the lock. -/
  | finished
  deriving DecidableEq, Repr

/-- A client thread: `write` for insert and delete, and where it stands. -/
structure Client where
  write : Bool
  pc : Pc
  deriving DecidableEq, Repr

/-- The registry `db_mutexes` (a pointer is the position of the mutex in
`heap`), the mutexes allocated so far and the client threads. -/
structure Gate where
  db_mutexes : HashMap Nat
  heap : List SharedMutex
  clients : List Client

namespace Gate

/-- One step of the thread `tid`, whose request names the database `db_name`.
`get_db_mutex` takes no lock, so its `get` and its `new` with `put` are two
steps. A `try_lock()` that fails and a `shared_lock` that has to wait leave
the thread where it is. -/
def step (db_name : String) (g : Gate) (tid : Nat) : Gate :=
  match g.clients[tid]? with
  | none => g
  | some c =>
    match c.pc with
    | .start =>
      match g.db_mutexes.get db_name with
      | some m => { g with clients := g.clients.set tid ⟨c.write, .holds m⟩ }
      | none => { g with clients := g.clients.set tid ⟨c.write, .missed⟩ }
    | .missed =>
      let m := g.heap.length
      { db_mutexes := g.db_mutexes.put db_name m
        heap := g.heap ++ [⟨false, 0⟩]
        clients := g.clients.set tid ⟨c.write, .holds m⟩ }
    | .holds m =>
      let mu := g.heap.getD m default
      if c.write then
        if !mu.writer && mu.readers == 0 then
          { g with heap := g.heap.set m ⟨true, 0⟩
                   clients := g.clients.set tid ⟨c.write, .inside m⟩ }
        else g
      else
        if !mu.writer then
          { g with heap := g.heap.set m ⟨false, mu.readers + 1⟩
                   clients := g.clients.set tid ⟨c.write, .inside m⟩ }
        else g
    | .inside m =>
      let mu := g.heap.getD m default
      { g with heap := g.heap.set m
                 (if c.write then ⟨false, mu.readers⟩ else ⟨mu.writer, mu.readers - 1⟩)
               clients := g.clients.set tid ⟨c.write, .finished⟩ }
    | .finished => g

/-- The steps of a schedule, in order. -/
def run (db_name : String) (g : Gate) (schedule : List Nat) : Gate :=
  schedule.foldl (step db_name) g

/-- The number of writers and the number of readers that are inside the
storage engine. -/
def inside_count (g : Gate) : Nat × Nat :=
  ((g.clients.filter
      (fun c => c.write && match c.pc with | .inside _ => true | _ => false)).length,
    (g.clients.filter
      (fun c => !c.write && match c.pc with | .inside _ => true | _ => false)).length)

/-- A server that has handed out no gate yet, with two clients about to
insert into the same database. -/
def two_writers : Gate :=
  ⟨HashMap.empty, [], [⟨true, .start⟩, ⟨true, .start⟩]⟩

/-- A server that has handed out no gate yet, with a client about to insert
into a database and a client about to read it. -/
def writer_and_reader : Gate :=
  ⟨HashMap.empty, [], [⟨true, .start⟩, ⟨false, .start⟩]⟩

end Gate

/-! ## Theorems -/

/-- C1, refuted at an input. With a B-tree on `v` and the one stored document
`{"_id": "a", "v": 1}`, the query `{"v": {"$eq": 1, "$lt": 0}}` has exactly one
key, which is indexed; `find` answers from the `$eq` operator alone and returns
the document, while the full scan keeps no document. -/
theorem c1_find_differs_from_full_scan :
    numeric_indexed.find (.obj [("v", .obj [("$eq", .num 1), ("$lt", .num 0)])])
        = some [.obj [("_id", .str "a"), ("v", .num 1)]]
      ∧ full_scan numeric_indexed (.obj [("v", .obj [("$eq", .num 1), ("$lt", .num 0)])])
        = [] := by
  decide

/-- C2, refuted at an input. After the seven inserts `(1, a) … (6, f), (3, g)`
the ids `c` and `g` were inserted under the key 3, and `search(3)` returns
no id. -/
theorem c2_search_misses_inserted_ids :
    (BTreeIndex.build seven_inserts).search (Double.fin 3) = []
      ∧ (seven_inserts.filter (fun p => p.1 = 3)).map Prod.snd = ["c", "g"] := by
  decide

/-- C3, refuted at an input. After the six inserts `(1, a) … (6, f)` every key
lies between 1 and 6, and `rangeSearch(1, 6, true, true)` returns five ids: the
id `c` of the key 3, which the split of the root moved up, is not among
them. -/
theorem c3_rangeSearch_misses_median_id :
    (BTreeIndex.build six_inserts).rangeSearch (Double.fin 1) (Double.fin 6) true true
      = ["a", "b", "d", "e", "f"] := by
  decide

/-- C5, refuted at an input. With a B-tree on `v` and the one stored document
`{"_id": "a", "v": 1}`, `remove({"v": 1})` returns 1 and empties the store,
and the B-tree on `v` still holds the id `a` under the key 1. -/
theorem c5_remove_leaves_id_in_btree :
    (numeric_indexed.remove (.obj [("v", .num 1)])).2 = some 1
      ∧ (numeric_indexed.remove (.obj [("v", .num 1)])).1.store.items = []
      ∧ ((numeric_indexed.remove (.obj [("v", .num 1)])).1.btree_indexes.get "v").map
          (fun bt => bt.search (Double.fin 1)) = some ["a"] := by
  decide

/-- C6, refuted at an input. A B-tree on `v` is created when `{"v": 1}` is
stored, then `{"v": 2}` is inserted. Before `save()` the query
`{"v": {"$gt": 0}}` finds both documents; a collection loaded from the files
that `save()` left finds only the first, because the file of the B-tree is the
one `create_index` wrote. -/
theorem c6_load_after_save_finds_less :
    two_numbers.find (.obj [("v", .obj [("$gt", .num 0)])])
        = some [.obj [("_id", .str "a"), ("v", .num 1)],
            .obj [("_id", .str "b"), ("v", .num 2)]]
      ∧ (Collection.load two_numbers.save.files).bind
          (fun c => c.find (.obj [("v", .obj [("$gt", .num 0)])]))
        = some [.obj [("_id", .str "a"), ("v", .num 1)]] := by
  decide

/-- C7, refuted at an input. After the seven inserts `(1, a) … (6, f), (3, g)`
and for `v = 3`, the concatenation of `rangeSearch(-inf, 3, false, false)`,
`search(3)` and `rangeSearch(3, +inf, false, false)` is `a b d e f`, while
`rangeSearch(-inf, +inf, true, true)` is `a b g d e f`. -/
theorem c7_order_law_fails :
    (BTreeIndex.build seven_inserts).rangeSearch Double.negInf (Double.fin 3) false false
        ++ (BTreeIndex.build seven_inserts).search (Double.fin 3)
        ++ (BTreeIndex.build seven_inserts).rangeSearch (Double.fin 3) Double.posInf false false
        = ["a", "b", "d", "e", "f"]
      ∧ (BTreeIndex.build seven_inserts).rangeSearch Double.negInf Double.posInf true true
        = ["a", "b", "g", "d", "e", "f"] := by
  decide

/-- C8, refuted at an input. With a hash index on `f` and the one stored
document `d = {"_id": "a", "f": "a"}`, the query
`q = {"f": {"$eq": "a", "$gt": 0}}` is false on `d`, and `remove(q)` returns 1
and leaves the store empty. -/
theorem c8_remove_deletes_unmatched_document :
    evaluate_query (.obj [("_id", .str "a"), ("f", .str "a")])
        (.obj [("f", .obj [("$eq", .str "a"), ("$gt", .num 0)])]) = false
      ∧ string_indexed.store.items = [("a", .obj [("_id", .str "a"), ("f", .str "a")])]
      ∧ (string_indexed.remove (.obj [("f", .obj [("$eq", .str "a"), ("$gt", .num 0)])])).2
        = some 1
      ∧ (string_indexed.remove
          (.obj [("f", .obj [("$eq", .str "a"), ("$gt", .num 0)])])).1.store.items = [] := by
  decide

/-- C9, refuted at an input. With a hash index on the field `$and` and the
stored documents `{"$and": [{}], "_id": "a"}` and `{"_id": "b", "x": 1}`,
`remove({"$and": [{}]})` removes one document, and the `find` of the same
query that follows returns the other one. -/
theorem c9_find_after_remove_returns_document :
    (and_indexed.remove (.obj [("$and", .arr [.obj []])])).2 = some 1
      ∧ (and_indexed.remove (.obj [("$and", .arr [.obj []])])).1.find
          (.obj [("$and", .arr [.obj []])])
        = some [.obj [("_id", .str "b"), ("x", .num 1)]] := by
  decide

/-! ### Value-keys -/

theorem index_key_head (v : Json) :
    (index_key_for_value v).data.head? = some (kind_tag (value_kind v)) := by
  cases v <;> simp [index_key_for_value, value_kind, kind_tag, String.data_append]

theorem kind_tag_injective (m n : Nat) (hm : m ≤ 3) (hn : n ≤ 3)
    (h : kind_tag m = kind_tag n) : m = n := by
  interval_cases m <;> interval_cases n <;> first | rfl | (exfalso; revert h; decide)

theorem value_kind_le (v : Json) : value_kind v ≤ 3 := by
  cases v <;> simp [value_kind]

/-- C13, refuted at an input. The numbers 1234567 and 1234568 are two
different values of the same type, and `index_key_for_value` gives both the
value-key `n:1.23457e+06`: the stream writes a `double` with six significant
digits. -/
theorem c13_two_numbers_share_a_value_key :
    index_key_for_value (.num 1234567) = "n:1.23457e+06"
      ∧ index_key_for_value (.num 1234568) = "n:1.23457e+06"
      ∧ Json.num 1234567 ≠ Json.num 1234568 := by
  decide

/-- C14. `index_key_for_value` writes a string `s` as `s:` followed by `s`, a
number as `n:` followed by its rendering, a boolean as `b:1` or `b:0`, any
other value as `j:` followed by its serialization; two values of different
kinds never get the same value-key, and the string `"1"` and the number 1 get
`s:1` and `n:1`. -/
theorem c14_value_key_type_tagging :
    (∀ s : String, index_key_for_value (.str s) = "s:" ++ s)
      ∧ (∀ v : Int, index_key_for_value (.num v) = "n:" ++ render_double v)
      ∧ index_key_for_value (.bool true) = "b:1"
      ∧ index_key_for_value (.bool false) = "b:0"
      ∧ (∀ v : Json, value_kind v = 3 → index_key_for_value v = "j:" ++ dump v)
      ∧ (∀ a b : Json, value_kind a ≠ value_kind b →
          index_key_for_value a ≠ index_key_for_value b)
      ∧ index_key_for_value (.str "1") = "s:1"
      ∧ index_key_for_value (.num 1) = "n:1" := by
  refine ⟨fun _ => rfl, fun _ => rfl, rfl, rfl, ?_, ?_, by decide, by decide⟩
  · intro v hv
    cases v <;> simp [value_kind] at hv <;> rfl
  · intro a b hab heq
    apply hab
    apply kind_tag_injective _ _ (value_kind_le a) (value_kind_le b)
    have ha := index_key_head a
    have hb := index_key_head b
    rw [heq, hb] at ha
    exact (Option.some.inj ha).symm

/-- C15, refuted at an input. With the six stored documents `{"v": 1}` to
`{"v": 6}` under the ids `a` to `f`, `create_index("v")` builds a B-tree and no
hash index, and the B-tree holds five ids: the id `c` of the document with
`v = 3` is under no key. -/
theorem c15_btree_misses_a_numeric_document :
    ((six_numbers.create_index "v").btree_indexes.get "v").map
        (fun bt => bt.rangeSearch Double.negInf Double.posInf true true)
        = some ["a", "b", "d", "e", "f"]
      ∧ ((six_numbers.create_index "v").btree_indexes.get "v").map
        (fun bt => bt.search (Double.fin 3)) = some []
      ∧ six_numbers.store.get "c" = some (.obj [("_id", .str "c"), ("v", .num 3)])
      ∧ ((six_numbers.create_index "v").indexes.get "v").isSome = false := by
  decide

/-! ### The evaluator -/

/-- C16. A document that does not contain the field fails every condition on
it, a literal as well as an object of operators. -/
theorem c16_absent_field_fails (doc : Json) (field : String) (cond : Json)
    (h : doc.contains field = false) :
    evaluate_condition_on_field doc field cond = false := by
  simp [evaluate_condition_on_field, h]

theorem c16_absent_field_fails_witness :
    (Json.obj [("a", .num 1)]).contains "b" = false
      ∧ evaluate_condition_on_field (.obj [("a", .num 1)]) "b"
          (.obj [("$in", .arr [.null])]) = false :=
  ⟨by decide, c16_absent_field_fails _ _ _ (by decide)⟩

/-- C17, refuted at an input. With a B-tree on `v`, `find` of
`{"v": {"$gt": "x"}}` throws: the B-tree branch asks the string operand for a
`double`. -/
theorem c17_gt_string_operand_throws :
    numeric_indexed.find (.obj [("v", .obj [("$gt", .str "x")])]) = none := by
  decide

/-- C18, refuted at an input. With a hash index on `f` and the stored
document `{"_id": "a", "f": "a"}`, `find` of `{"f": {"$in": "a"}}`, whose
operand is a string, returns the document; without the index it returns
none. -/
theorem c18_in_string_operand_finds_document :
    string_indexed.find (.obj [("f", .obj [("$in", .str "a")])])
        = some [.obj [("_id", .str "a"), ("f", .str "a")]]
      ∧ ((Collection.init no_files).insert (.obj [("f", .str "a")]) "a").1.find
          (.obj [("f", .obj [("$in", .str "a")])]) = some [] := by
  decide

/-- C19, refuted at an input. The value `a`, line feed, `b` starts with `a`
and ends with `b`, and `match_like` rejects it for the pattern `a%b` and for
the pattern `a_b`: the `.` of the regular expression does not match a line
feed. The two examples of the specification come out as stated. -/
theorem c19_like_stops_at_line_feed :
    match_like "a\nb" "a%b" = false
      ∧ match_like "a\nb" "a_b" = false
      ∧ match_like "abc" "A%" = true
      ∧ match_like "abc" "b" = false := by
  decide

theorem eval_some_eq_any (doc : Json) (qs : List Json) :
    eval_some doc qs = qs.any (fun q => evaluate_query doc q) := by
  induction qs with
  | nil => simp [eval_some]
  | cons q qs ih => simp [eval_some, ih]

theorem eval_every_eq_all (doc : Json) (qs : List Json) :
    eval_every doc qs = qs.all (fun q => evaluate_query doc q) := by
  induction qs with
  | nil => simp [eval_every]
  | cons q qs ih => simp [eval_every, ih]

/-- C20. A query `{"$or": [q1, …, qn]}` holds on a document exactly when some
`qi` holds on it, a query `{"$and": [q1, …, qn]}` exactly when every `qi`
holds; the empty `$or` holds on no document and the empty `$and` on every
one. -/
theorem c20_boolean_composition (doc : Json) (qs : List Json) :
    (evaluate_query doc (.obj [("$or", .arr qs)]) = true
        ↔ ∃ q ∈ qs, evaluate_query doc q = true)
      ∧ (evaluate_query doc (.obj [("$and", .arr qs)]) = true
        ↔ ∀ q ∈ qs, evaluate_query doc q = true)
      ∧ evaluate_query doc (.obj [("$or", .arr [])]) = false
      ∧ evaluate_query doc (.obj [("$and", .arr [])]) = true := by
  refine ⟨?_, ?_, ?_, ?_⟩
  · simp [evaluate_query, Json.lookup, eval_or, eval_some_eq_any]
  · simp [evaluate_query, Json.lookup, eval_or, eval_and, eval_every_eq_all]
  · simp [evaluate_query, Json.lookup, eval_or, eval_some]
  · simp [evaluate_query, Json.lookup, eval_and, eval_every]

/-! ### The chains of a `HashMap` -/

namespace HashMap
variable {V : Type}

theorem chain_get_eq_none {key : String} {l : List (String × V)} :
    chain_get key l = none ↔ key ∉ l.map Prod.fst := by
  induction l with
  | nil => simp [chain_get]
  | cons p l ih =>
    obtain ⟨k, v⟩ := p
    by_cases h : k = key
    · simp [chain_get, h]
    · simp [chain_get, h, ih, Ne.symm h]

theorem chain_get_eq_some {key : String} {v : V} {l : List (String × V)}
    (hn : (l.map Prod.fst).Nodup) : chain_get key l = some v ↔ (key, v) ∈ l := by
  induction l with
  | nil => simp [chain_get]
  | cons p l ih =>
    obtain ⟨k, w⟩ := p
    simp only [List.map_cons, List.nodup_cons] at hn
    by_cases h : k = key
    · subst h
      simp only [chain_get, if_true, List.mem_cons, Prod.mk.injEq, true_and, Option.some.injEq]
      constructor
      · intro e; exact Or.inl e.symm
      · rintro (e | e)
        · exact e.symm
        · exact absurd (List.mem_map_of_mem Prod.fst e) hn.1
    · simp [chain_get, h, ih hn.2, Ne.symm h]

theorem chain_get_append (key : String) (a b : List (String × V)) :
    chain_get key (a ++ b) = (chain_get key a).orElse (fun _ => chain_get key b) := by
  induction a with
  | nil => simp [chain_get]
  | cons p a ih =>
    obtain ⟨k, w⟩ := p
    by_cases h : k = key
    · simp [chain_get, h]
    · simp [chain_get, h, ih]

theorem chain_get_filter (key : String) (P : String × V → Bool) (l : List (String × V))
    (hP : ∀ p, p.1 = key → P p = true) :
    chain_get key (l.filter P) = chain_get key l := by
  induction l with
  | nil => rfl
  | cons p l ih =>
    obtain ⟨k, w⟩ := p
    by_cases h : k = key
    · subst h
      have hp := hP (k, w) rfl
      simp [List.filter_cons, hp, chain_get]
    · cases hp : P (k, w)
      · simp [List.filter_cons, hp, chain_get, h, ih]
      · simp [List.filter_cons, hp, chain_get, h, ih]

theorem chain_update_eq_none {key : String} {value : V} {l : List (String × V)} :
    chain_update key value l = none ↔ key ∉ l.map Prod.fst := by
  induction l with
  | nil => simp [chain_update]
  | cons p l ih =>
    obtain ⟨k, w⟩ := p
    by_cases h : k = key
    · simp [chain_update, h]
    · simp [chain_update, h, ih, Ne.symm h]

theorem chain_update_keys {key : String} {value : V} {l l' : List (String × V)}
    (h : chain_update key value l = some l') : l'.map Prod.fst = l.map Prod.fst := by
  induction l generalizing l' with
  | nil => simp [chain_update] at h
  | cons p l ih =>
    obtain ⟨k, w⟩ := p
    by_cases hk : k = key
    · simp [chain_update, hk] at h
      subst h; simp [hk]
    · simp only [chain_update, hk, if_false, Option.map_eq_some'] at h
      obtain ⟨r, hr, rfl⟩ := h
      simp [ih hr]

theorem chain_get_update {key : String} {value : V} {l l' : List (String × V)}
    (h : chain_update key value l = some l') (k' : String) :
    chain_get k' l' = if k' = key then some value else chain_get k' l := by
  induction l generalizing l' with
  | nil => simp [chain_update] at h
  | cons p l ih =>
    obtain ⟨k, w⟩ := p
    by_cases hk : k = key
    · simp [chain_update, hk] at h
      subst h
      by_cases hk' : k' = key
      · simp [chain_get, hk']
      · simp [chain_get, hk', hk, Ne.symm hk']
    · simp only [chain_update, hk, if_false, Option.map_eq_some'] at h
      obtain ⟨r, hr, rfl⟩ := h
      by_cases hk' : k = k'
      · have : ¬ k' = key := fun e => hk (hk'.trans e)
        simp [chain_get, hk', this]
      · simp [chain_get, hk', ih hr]

theorem chain_get_push {key : String} {value : V} {l : List (String × V)}
    (h : key ∉ l.map Prod.fst) (k' : String) :
    chain_get k' (l ++ [(key, value)]) = if k' = key then some value else chain_get k' l := by
  rw [chain_get_append]
  by_cases hk' : k' = key
  · subst hk'
    simp [chain_get_eq_none.2 h, chain_get]
  · cases hg : chain_get k' l <;> simp [chain_get, hk', Ne.symm hk']

theorem chain_erase_eq_none {key : String} {l : List (String × V)} :
    chain_erase key l = none ↔ key ∉ l.map Prod.fst := by
  induction l with
  | nil => simp [chain_erase]
  | cons p l ih =>
    obtain ⟨k, w⟩ := p
    by_cases h : k = key
    · simp [chain_erase, h]
    · simp [chain_erase, h, ih, Ne.symm h]

theorem chain_erase_sublist {key : String} {l l' : List (String × V)}
    (h : chain_erase key l = some l') : l'.Sublist l := by
  induction l generalizing l' with
  | nil => simp [chain_erase] at h
  | cons p l ih =>
    obtain ⟨k, w⟩ := p
    by_cases hk : k = key
    · simp [chain_erase, hk] at h
      subst h; exact List.sublist_cons_self _ _
    · simp only [chain_erase, hk, if_false, Option.map_eq_some'] at h
      obtain ⟨r, hr, rfl⟩ := h
      exact (ih hr).cons₂ _

theorem chain_get_erase {key : String} {l l' : List (String × V)}
    (hn : (l.map Prod.fst).Nodup) (h : chain_erase key l = some l') (k' : String) :
    chain_get k' l' = if k' = key then none else chain_get k' l := by
  induction l generalizing l' with
  | nil => simp [chain_erase] at h
  | cons p l ih =>
    obtain ⟨k, w⟩ := p
    simp only [List.map_cons, List.nodup_cons] at hn
    by_cases hk : k = key
    · simp [chain_erase, hk] at h
      subst h
      by_cases hk' : k' = key
      · subst hk'; subst hk
        simp [chain_get_eq_none.2 hn.1]
      · simp [chain_get, hk', hk, Ne.symm hk']
    · simp only [chain_erase, hk, if_false, Option.map_eq_some'] at h
      obtain ⟨r, hr, rfl⟩ := h
      by_cases hk' : k = k'
      · have : ¬ k' = key := fun e => hk (hk'.trans e)
        simp [chain_get, hk', this]
      · simp [chain_get, hk', ih hn.2 hr]

end HashMap

/-! ### The table of a `HashMap` -/

namespace HashMap

variable {V : Type}

theorem put_eq (m : HashMap V) (key : String) (value : V) :
    put m key value = put_at (grow m) key value := rfl

theorem getD_set {α : Type} (bs : List (List α)) (i j : Nat) (x : List α) :
    (bs.set i x).getD j [] = if i = j ∧ i < bs.length then x else bs.getD j [] := by
  simp only [List.getD_eq_getElem?_getD, List.getElem?_set]
  by_cases h : i = j
  · subst h
    by_cases h2 : i < bs.length
    · simp [h2]
    · simp [h2, List.getElem?_eq_none (Nat.le_of_not_lt h2)]
  · simp [h]

theorem getD_modify {α : Type} (f : List α → List α) (bs : List (List α)) (i j : Nat) :
    (List.modify f i bs).getD j []
      = if i = j ∧ i < bs.length then f (bs.getD j []) else bs.getD j [] := by
  simp only [List.getD_eq_getElem?_getD, List.getElem?_modify]
  by_cases h : i = j
  · subst h
    by_cases h2 : i < bs.length
    · simp [h2, List.getElem?_eq_getElem h2]
    · simp [h2, List.getElem?_eq_none (Nat.le_of_not_lt h2)]
  · cases hb : bs[j]? <;> simp [h]

theorem getD_replicate_nil {α : Type} (n i : Nat) :
    (List.replicate n ([] : List α)).getD i [] = [] := by
  simp only [List.getD_eq_getElem?_getD, List.getElem?_replicate]
  split <;> rfl

theorem get_eq {m : HashMap V} (h : 0 < m.buckets.length) (key : String) :
    m.get key = chain_get key (m.buckets.getD (str_hash key % m.buckets.length) []) := by
  have h0 : m.buckets.length ≠ 0 := Nat.pos_iff_ne_zero.1 h
  simp [get, bucket_index, h0]

theorem WF_empty : WF (empty : HashMap V) := by
  refine ⟨by simp [empty], ?_, ?_⟩
  · intro i k hk
    simp only [empty, getD_replicate_nil, List.map_nil, List.not_mem_nil] at hk
  · intro i
    simp only [empty, getD_replicate_nil, List.map_nil, List.nodup_nil]

theorem get_empty (key : String) : (empty : HashMap V).get key = none := by
  rw [get_eq (by simp [empty])]
  simp only [empty, getD_replicate_nil, chain_get]

theorem put_at_spec {m : HashMap V} (h : WF m) (key : String) (value : V) :
    WF (put_at m key value)
      ∧ (∀ k', (put_at m key value).get k' = if k' = key then some value else m.get k')
      ∧ (put_at m key value).size_ = if (m.get key).isSome then m.size_ else m.size_ + 1 := by
  have h0 : m.buckets.length ≠ 0 := Nat.pos_iff_ne_zero.1 h.pos
  have hidx : str_hash key % m.buckets.length < m.buckets.length := Nat.mod_lt _ h.pos
  have hget := get_eq h.pos
  cases hc : chain_update key value (m.buckets.getD (str_hash key % m.buckets.length) []) with
  | some chain =>
    have hput : put_at m key value
        = ⟨m.buckets.set (str_hash key % m.buckets.length) chain, m.size_⟩ := by
      simp only [put_at, bucket_index, if_neg h0, hc]
    have hkeys := chain_update_keys hc
    have hlen : (put_at m key value).buckets.length = m.buckets.length := by
      rw [hput]; simp
    have hb : ∀ j, ((put_at m key value).buckets.getD j []).map Prod.fst
        = (m.buckets.getD j []).map Prod.fst := by
      intro j
      rw [hput]
      simp only [getD_set]
      split
      · rename_i hj; rw [hkeys, hj.1]
      · rfl
    refine ⟨⟨by rw [hlen]; exact h.pos, ?_, ?_⟩, ?_, ?_⟩
    · intro i k hk
      rw [hlen]; rw [hb] at hk; exact h.placed i k hk
    · intro i
      rw [hb]; exact h.uniq i
    · intro k'
      rw [get_eq (by rw [hlen]; exact h.pos), hlen, hget, hput]
      simp only [getD_set]
      by_cases hj : str_hash key % m.buckets.length = str_hash k' % m.buckets.length
      · rw [if_pos ⟨hj, hidx⟩, chain_get_update hc, hj]
      · rw [if_neg (fun hh => hj hh.1)]
        have : ¬ k' = key := fun e => hj (by rw [e])
        rw [if_neg this]
    · have : (m.get key).isSome = true := by
        rw [hget]
        cases hg : chain_get key (m.buckets.getD (str_hash key % m.buckets.length) []) with
        | some _ => rfl
        | none =>
          have hu := (@chain_update_eq_none V key value _).2 (chain_get_eq_none.1 hg)
          rw [hc] at hu; cases hu
      rw [if_pos this, hput]
  | none =>
    have hput : put_at m key value
        = ⟨chain_push m.buckets (str_hash key % m.buckets.length) (key, value),
            m.size_ + 1⟩ := by
      simp only [put_at, bucket_index, if_neg h0, hc]
    have hnew := chain_update_eq_none.1 hc
    have hlen : (put_at m key value).buckets.length = m.buckets.length := by
      rw [hput]; simp [chain_push]
    have hb : ∀ j, (put_at m key value).buckets.getD j []
        = if str_hash key % m.buckets.length = j then m.buckets.getD j [] ++ [(key, value)]
          else m.buckets.getD j [] := by
      intro j
      rw [hput]
      simp only [chain_push, getD_modify]
      by_cases hj : str_hash key % m.buckets.length = j
      · rw [if_pos ⟨hj, hidx⟩, if_pos hj]
      · rw [if_neg (fun hh => hj hh.1), if_neg hj]
    refine ⟨⟨by rw [hlen]; exact h.pos, ?_, ?_⟩, ?_, ?_⟩
    · intro i k hk
      rw [hlen]
      rw [hb] at hk
      split at hk
      · rename_i hj
        simp only [List.map_append, List.mem_append, List.map_cons, List.map_nil,
          List.mem_singleton] at hk
        rcases hk with hk | hk
        · exact h.placed i k hk
        · rw [hk]; exact hj
      · exact h.placed i k hk
    · intro i
      rw [hb]
      split
      · rename_i hj
        rw [List.map_append, List.nodup_append]
        refine ⟨h.uniq i, by simp, ?_⟩
        intro a ha hb'
        simp only [List.map_cons, List.map_nil, List.mem_singleton] at hb'
        subst hb'; subst hj
        exact hnew ha
      · exact h.uniq i
    · intro k'
      rw [get_eq (by rw [hlen]; exact h.pos), hlen, hget, hb]
      by_cases hj : str_hash key % m.buckets.length = str_hash k' % m.buckets.length
      · rw [if_pos hj, ← hj, chain_get_push hnew]
      · rw [if_neg hj]
        have : ¬ k' = key := fun e => hj (by rw [e])
        rw [if_neg this]
    · have : (m.get key).isSome = false := by
        rw [hget, chain_get_eq_none.2 hnew]; rfl
      rw [this, hput]; simp

end HashMap

namespace HashMap

variable {V : Type}

theorem remove_spec {m : HashMap V} (h : WF m) (key : String) :
    WF (m.remove key).1
      ∧ (∀ k', (m.remove key).1.get k' = if k' = key then none else m.get k')
      ∧ (m.remove key).2 = (m.get key).isSome
      ∧ (m.remove key).1.size_ = if (m.get key).isSome then m.size_ - 1 else m.size_ := by
  have h0 : m.buckets.length ≠ 0 := Nat.pos_iff_ne_zero.1 h.pos
  have hidx : str_hash key % m.buckets.length < m.buckets.length := Nat.mod_lt _ h.pos
  have hget := get_eq h.pos
  cases hc : chain_erase key (m.buckets.getD (str_hash key % m.buckets.length) []) with
  | some chain =>
    have hrem : m.remove key
        = (⟨m.buckets.set (str_hash key % m.buckets.length) chain, m.size_ - 1⟩, true) := by
      simp only [remove, bucket_index, if_neg h0, hc]
    have hsub := chain_erase_sublist hc
    have hlen : (m.remove key).1.buckets.length = m.buckets.length := by
      rw [hrem]; simp
    have hb : ∀ j, ((m.remove key).1.buckets.getD j []).Sublist (m.buckets.getD j []) := by
      intro j
      rw [hrem]
      simp only [getD_set]
      split
      · rename_i hj; rw [← hj.1]; exact hsub
      · exact List.Sublist.refl _
    have hsome : (m.get key).isSome = true := by
      rw [hget]
      cases hg : chain_get key (m.buckets.getD (str_hash key % m.buckets.length) []) with
      | some _ => rfl
      | none =>
        have hu := (@chain_erase_eq_none V key _).2 (chain_get_eq_none.1 hg)
        rw [hc] at hu; cases hu
    refine ⟨⟨by rw [hlen]; exact h.pos, ?_, ?_⟩, ?_, ?_, ?_⟩
    · intro i k hk
      rw [hlen]
      exact h.placed i k (((hb i).map Prod.fst).subset hk)
    · intro i
      exact (h.uniq i).sublist ((hb i).map Prod.fst)
    · intro k'
      rw [get_eq (by rw [hlen]; exact h.pos), hlen, hget, hrem]
      simp only [getD_set]
      by_cases hj : str_hash key % m.buckets.length = str_hash k' % m.buckets.length
      · rw [if_pos ⟨hj, hidx⟩, chain_get_erase (h.uniq _) hc, hj]
      · rw [if_neg (fun hh => hj hh.1)]
        have : ¬ k' = key := fun e => hj (by rw [e])
        rw [if_neg this]
    · rw [hsome, hrem]
    · rw [hsome, hrem]; rfl
  | none =>
    have hrem : m.remove key = (m, false) := by
      simp only [remove, bucket_index, if_neg h0, hc]
    have hnone : m.get key = none := by
      rw [hget]; exact chain_get_eq_none.2 (chain_erase_eq_none.1 hc)
    rw [hrem, hnone]
    refine ⟨h, ?_, rfl, rfl⟩
    intro k'
    by_cases hk : k' = key
    · rw [if_pos hk, hk, hnone]
    · rw [if_neg hk]

theorem mem_flatten_getD {α : Type} (bs : List (List α)) (p : α) :
    p ∈ bs.flatten ↔ ∃ i, p ∈ bs.getD i [] := by
  rw [List.mem_flatten]
  constructor
  · rintro ⟨l, hl, hp⟩
    obtain ⟨n, hn⟩ := List.mem_iff_getElem?.1 hl
    exact ⟨n, by rw [List.getD_eq_getElem?_getD, hn]; exact hp⟩
  · rintro ⟨i, hi⟩
    by_cases hlt : i < bs.length
    · rw [List.getD_eq_getElem _ _ hlt] at hi
      exact ⟨bs[i], List.getElem_mem _, hi⟩
    · rw [List.getD_eq_default _ _ (Nat.le_of_not_lt hlt)] at hi
      cases hi

theorem mem_items_iff {m : HashMap V} (h : WF m) (key : String) (v : V) :
    (key, v) ∈ m.items ↔ m.get key = some v := by
  rw [get_eq h.pos, chain_get_eq_some (h.uniq _), items, mem_flatten_getD]
  constructor
  · rintro ⟨i, hi⟩
    have := h.placed i key (List.mem_map_of_mem Prod.fst hi)
    rw [this]; exact hi
  · intro hi
    exact ⟨_, hi⟩

theorem items_keys_nodup {m : HashMap V} (h : WF m) : (m.items.map Prod.fst).Nodup := by
  rw [items, List.map_flatten, List.nodup_flatten]
  constructor
  · intro l hl
    obtain ⟨c, hc, rfl⟩ := List.mem_map.1 hl
    obtain ⟨n, hn⟩ := List.mem_iff_getElem?.1 hc
    have := h.uniq n
    rw [List.getD_eq_getElem?_getD, hn] at this
    exact this
  · rw [List.pairwise_iff_getElem]
    intro i j hi hj hij
    rw [List.length_map] at hi hj
    rw [List.getElem_map, List.getElem_map]
    intro a ha hb
    have h1 := h.placed i a (by rw [List.getD_eq_getElem _ _ hi]; exact ha)
    have h2 := h.placed j a (by rw [List.getD_eq_getElem _ _ hj]; exact hb)
    omega

theorem chain_get_items {m : HashMap V} (h : WF m) (key : String) :
    chain_get key m.items = m.get key := by
  cases hg : m.get key with
  | some v =>
    exact (chain_get_eq_some (items_keys_nodup h)).2 ((mem_items_iff h key v).2 hg)
  | none =>
    cases hc : chain_get key m.items with
    | none => rfl
    | some v =>
      have := (mem_items_iff h key v).1 ((chain_get_eq_some (items_keys_nodup h)).1 hc)
      rw [hg] at this; cases this

end HashMap

namespace HashMap

variable {V : Type}

theorem foldl_chain_push_length (n : Nat) (l : List (String × V))
    (T : List (List (String × V))) :
    (l.foldl (fun table p => chain_push table (str_hash p.1 % n) p) T).length = T.length := by
  induction l generalizing T with
  | nil => rfl
  | cons p l ih => rw [List.foldl_cons, ih]; simp [chain_push]

theorem foldl_chain_push_getD (n : Nat) (hn : 0 < n) (l : List (String × V))
    (T : List (List (String × V))) (hT : T.length = n) (j : Nat) :
    (l.foldl (fun table p => chain_push table (str_hash p.1 % n) p) T).getD j []
      = T.getD j [] ++ l.filter (fun p => decide (str_hash p.1 % n = j)) := by
  induction l generalizing T with
  | nil => simp
  | cons p l ih =>
    rw [List.foldl_cons, ih _ (by simp [chain_push, hT])]
    simp only [chain_push, getD_modify, List.filter_cons]
    have hlt : str_hash p.1 % n < T.length := by rw [hT]; exact Nat.mod_lt _ hn
    by_cases hj : str_hash p.1 % n = j
    · rw [if_pos ⟨hj, hlt⟩]
      simp [hj]
    · rw [if_neg (fun hh => hj hh.1)]
      simp [hj]

theorem rehash_spec {m : HashMap V} (h : WF m) (n : Nat) (hn : 0 < n) :
    WF (rehash m n) ∧ (∀ k, (rehash m n).get k = m.get k)
      ∧ (rehash m n).size_ = m.size_ := by
  have hlen : (rehash m n).buckets.length = n := by
    simp only [rehash]
    rw [foldl_chain_push_length]; simp
  have hb : ∀ j, (rehash m n).buckets.getD j []
      = m.items.filter (fun p => decide (str_hash p.1 % n = j)) := by
    intro j
    simp only [rehash]
    rw [foldl_chain_push_getD n hn _ _ (by simp), getD_replicate_nil]
    rfl
  refine ⟨⟨by rw [hlen]; exact hn, ?_, ?_⟩, ?_, rfl⟩
  · intro i k hk
    rw [hlen]
    rw [hb] at hk
    obtain ⟨p, hp, rfl⟩ := List.mem_map.1 hk
    have := (List.mem_filter.1 hp).2
    exact of_decide_eq_true this
  · intro i
    rw [hb]
    exact (items_keys_nodup h).sublist ((List.filter_sublist _).map Prod.fst)
  · intro k
    rw [get_eq (by rw [hlen]; exact hn), hlen, hb, chain_get_filter, chain_get_items h]
    intro p hp
    rw [hp]; exact decide_eq_true rfl

theorem grow_spec {m : HashMap V} (h : WF m) :
    WF (grow m) ∧ (∀ k, (grow m).get k = m.get k) ∧ (grow m).size_ = m.size_ := by
  have h0 : m.buckets.length ≠ 0 := Nat.pos_iff_ne_zero.1 h.pos
  unfold grow
  split
  · exact rehash_spec h _ (Nat.mul_pos h.pos (by decide))
  · exact ⟨h, fun _ => rfl, rfl⟩

theorem put_spec {m : HashMap V} (h : WF m) (key : String) (value : V) :
    WF (m.put key value)
      ∧ (∀ k', (m.put key value).get k' = if k' = key then some value else m.get k')
      ∧ (m.put key value).size_ = if (m.get key).isSome then m.size_ else m.size_ + 1 := by
  obtain ⟨hw, hg, hs⟩ := grow_spec h
  obtain ⟨hw', hg', hs'⟩ := put_at_spec hw key value
  rw [put_eq]
  refine ⟨hw', ?_, ?_⟩
  · intro k'; rw [hg', hg]
  · rw [hs', hg, hs]

theorem WF_put {m : HashMap V} (h : WF m) (key : String) (value : V) :
    WF (m.put key value) :=
  (put_spec h key value).1

theorem get_put {m : HashMap V} (h : WF m) (key : String) (value : V) (k' : String) :
    (m.put key value).get k' = if k' = key then some value else m.get k' :=
  (put_spec h key value).2.1 k'

theorem WF_remove {m : HashMap V} (h : WF m) (key : String) : WF (m.remove key).1 :=
  (remove_spec h key).1

theorem get_remove {m : HashMap V} (h : WF m) (key : String) (k' : String) :
    (m.remove key).1.get k' = if k' = key then none else m.get k' :=
  (remove_spec h key).2.1 k'

end HashMap

/-! ### `HashMap` as a finite map -/

namespace MapCall

variable {V : Type}

theorem run_append (calls : List (MapCall V)) (c : MapCall V) :
    run (calls ++ [c]) = apply (run calls) c := by
  simp [run, List.foldl_append]

theorem last_put_append (k : String) (calls : List (MapCall V)) (c : MapCall V) :
    last_put k (calls ++ [c]) = track k (last_put k calls) c := by
  simp [last_put, List.foldl_append]

theorem mem_keys_of_last_put (k : String) (calls : List (MapCall V))
    (h : (last_put k calls).isSome = true) : k ∈ calls.map key := by
  induction calls using List.reverseRecOn with
  | nil => simp [last_put] at h
  | append_singleton calls c ih =>
    rw [last_put_append] at h
    rw [List.map_append, List.mem_append]
    cases c with
    | put k' v =>
      by_cases hk : k' = k
      · right; simp [key, hk]
      · simp only [track, if_neg hk] at h
        exact Or.inl (ih h)
    | remove k' =>
      by_cases hk : k' = k
      · simp [track, hk] at h
      · simp only [track, if_neg hk] at h
        exact Or.inl (ih h)

theorem mem_present_iff (k : String) (calls : List (MapCall V)) :
    k ∈ ((calls.map key).toFinset).filter (fun k => (last_put k calls).isSome = true)
      ↔ (last_put k calls).isSome = true := by
  rw [Finset.mem_filter, List.mem_toFinset]
  exact ⟨fun h => h.2, fun h => ⟨mem_keys_of_last_put k calls h, h⟩⟩

theorem present_count_put (calls : List (MapCall V)) (k : String) (v : V) :
    present_count (calls ++ [put k v])
      = if (last_put k calls).isSome then present_count calls else present_count calls + 1 := by
  have hset : ((((calls ++ [put k v]).map key).toFinset).filter
        (fun k' => (last_put k' (calls ++ [put k v])).isSome = true))
      = insert k (((calls.map key).toFinset).filter
        (fun k' => (last_put k' calls).isSome = true)) := by
    ext a
    rw [mem_present_iff, Finset.mem_insert, mem_present_iff, last_put_append]
    by_cases ha : k = a
    · simp [track, ha]
    · simp [track, ha, Ne.symm ha]
  unfold present_count
  rw [hset]
  by_cases hp : (last_put k calls).isSome = true
  · rw [if_pos hp, Finset.insert_eq_of_mem ((mem_present_iff k calls).2 hp)]
  · rw [if_neg hp, Finset.card_insert_of_not_mem (fun h => hp ((mem_present_iff k calls).1 h))]

theorem present_count_remove (calls : List (MapCall V)) (k : String) :
    present_count (calls ++ [remove k])
      = if (last_put k calls).isSome then present_count calls - 1 else present_count calls := by
  have hset : ((((calls ++ [remove k]).map key).toFinset).filter
        (fun k' => (last_put k' (calls ++ [remove k])).isSome = true))
      = (((calls.map key).toFinset).filter
        (fun k' => (last_put k' calls).isSome = true)).erase k := by
    ext a
    rw [mem_present_iff, Finset.mem_erase, mem_present_iff, last_put_append]
    by_cases ha : k = a
    · simp [track, ha]
    · simp [track, ha, Ne.symm ha]
  unfold present_count
  rw [hset]
  by_cases hp : (last_put k calls).isSome = true
  · rw [if_pos hp, Finset.card_erase_of_mem ((mem_present_iff k calls).2 hp)]
  · rw [if_neg hp, Finset.erase_eq_of_not_mem (fun h => hp ((mem_present_iff k calls).1 h))]

theorem run_spec (calls : List (MapCall V)) :
    (run calls).WF ∧ (∀ k, (run calls).get k = last_put k calls)
      ∧ (run calls).size_ = present_count calls := by
  induction calls using List.reverseRecOn with
  | nil =>
    refine ⟨HashMap.WF_empty, fun k => HashMap.get_empty k, ?_⟩
    simp [run, present_count, HashMap.empty]
  | append_singleton calls c ih =>
    obtain ⟨hw, hg, hs⟩ := ih
    rw [run_append]
    cases c with
    | put k v =>
      obtain ⟨hw', hg', hs'⟩ := HashMap.put_spec hw k v
      refine ⟨hw', ?_, ?_⟩
      · intro k'
        rw [last_put_append]
        simp only [apply, track]
        rw [hg', hg]
        by_cases hk : k' = k
        · simp [hk]
        · simp [hk, Ne.symm hk]
      · simp only [apply]
        rw [hs', present_count_put, hg, hs]
    | remove k =>
      obtain ⟨hw', hg', _, hs'⟩ := HashMap.remove_spec hw k
      refine ⟨hw', ?_, ?_⟩
      · intro k'
        rw [last_put_append]
        simp only [apply, track]
        rw [hg', hg]
        by_cases hk : k' = k
        · simp [hk]
        · simp [hk, Ne.symm hk]
      · simp only [apply]
        rw [hs', present_count_remove, hg, hs]

end MapCall

/-- C12. After any sequence of `put` and `remove` calls on a
default-constructed `HashMap`, rehashes included, `get(k)` succeeds with the
value of the most recent `put(k, v)` that no `remove(k)` follows and fails when
there is none, `remove(k)` returns true exactly when `k` is present, and
`size()` is the number of present keys. -/
theorem c12_hashmap_is_finite_map {V : Type} (calls : List (MapCall V)) (k : String) :
    (MapCall.run calls).get k = MapCall.last_put k calls
      ∧ ((MapCall.run calls).remove k).2 = (MapCall.last_put k calls).isSome
      ∧ (MapCall.run calls).size = MapCall.present_count calls := by
  obtain ⟨hw, hg, hs⟩ := MapCall.run_spec calls
  refine ⟨hg k, ?_, hs⟩
  rw [(HashMap.remove_spec hw k).2.2.1, hg]

/-! ### Documents and identifiers -/

theorem toDigitsCore_ne_nil (b fuel n : Nat) (ds : List Char)
    (h : ds ≠ [] ∨ 0 < fuel) : Nat.toDigitsCore b fuel n ds ≠ [] := by
  induction fuel generalizing n ds with
  | zero =>
    rcases h with h | h
    · simpa [Nat.toDigitsCore] using h
    · cases h
  | succ fuel ih =>
    simp only [Nat.toDigitsCore]
    split
    · simp
    · exact ih _ _ (Or.inl (by simp))

theorem gen_id_ne_empty (a : Nat) : gen_id a ≠ "" := by
  intro h
  have hd : (gen_id a).data = [] := by rw [h]
  exact toDigitsCore_ne_nil 16 _ _ [] (Or.inr (Nat.succ_pos _)) hd

namespace Json

theorem lookup_setEntry_same (key : String) (v : Json) (l : List (String × Json)) :
    lookup key (setEntry key v l) = some v := by
  induction l with
  | nil => simp [setEntry, lookup]
  | cons p l ih =>
    obtain ⟨k, w⟩ := p
    simp only [setEntry]
    split
    · simp [lookup]
    · split
      · simp [lookup]
      · rename_i hk _
        simp [lookup, hk, ih]

theorem lookup_setEntry_other (key k' : String) (v : Json) (l : List (String × Json))
    (h : k' ≠ key) : lookup k' (setEntry key v l) = lookup k' l := by
  induction l with
  | nil => simp [setEntry, lookup, Ne.symm h]
  | cons p l ih =>
    obtain ⟨k, w⟩ := p
    simp only [setEntry]
    split
    · rename_i hk
      simp [lookup, hk, Ne.symm h]
    · split
      · simp [lookup, Ne.symm h]
      · by_cases hk : k = k'
        · simp [lookup, hk]
        · simp [lookup, hk, ih]

theorem get_set_same (j : Json) (key : String) (v : Json) : (j.set key v).get key = v := by
  simp [get, set, entries, lookup_setEntry_same]

theorem contains_set_other (j : Json) (key k' : String) (v : Json) (h : k' ≠ key) :
    (j.set key v).contains k' = j.contains k' := by
  simp [contains, set, entries, lookup_setEntry_other key k' v _ h]

theorem get_set_other (j : Json) (key k' : String) (v : Json) (h : k' ≠ key) :
    (j.set key v).get k' = j.get k' := by
  simp [get, set, entries, lookup_setEntry_other key k' v _ h]

end Json

/-- C10. For a JSON object `doc`, `insert(doc)` returns the generated
identifier `id`; afterwards the store holds under `id` the document `doc` with
its `_id` entry set to the string `id` (an `_id` of the caller is replaced, the
other entries are those of `doc`), and what the store holds under any other
key is unchanged. -/
theorem c10_insert_postcondition (c : Collection) (doc : Json) (id : String)
    (hwf : c.store.WF) (hobj : doc.is_object = true) :
    (c.insert doc id).2 = some id
      ∧ (c.insert doc id).1.store.get id = some (doc.set "_id" (.str id))
      ∧ (doc.set "_id" (.str id)).get "_id" = .str id
      ∧ (∀ k, k ≠ "_id" →
          Json.lookup k (doc.set "_id" (.str id)).entries = Json.lookup k doc.entries)
      ∧ (∀ k, k ≠ id → (c.insert doc id).1.store.get k = c.store.get k) := by
  have hins : c.insert doc id
      = (⟨c.store.put id (doc.set "_id" (.str id)),
          Collection.insert_indexes (doc.set "_id" (.str id)) id c.indexes,
          Collection.insert_btrees (doc.set "_id" (.str id)) id c.btree_indexes,
          c.files⟩, some id) := by
    simp [Collection.insert, hobj]
  rw [hins]
  refine ⟨rfl, ?_, Json.get_set_same _ _ _, ?_, ?_⟩
  · simp [HashMap.get_put hwf]
  · intro k hk
    exact Json.lookup_setEntry_other _ _ _ _ hk
  · intro k hk
    simp [HashMap.get_put hwf, hk]

theorem c10_insert_postcondition_witness :
    (Collection.init no_files).store.WF
      ∧ (Json.obj [("_id", .num 7), ("v", .num 1)]).is_object = true
      ∧ ((Collection.init no_files).insert (.obj [("_id", .num 7), ("v", .num 1)]) "a").2
        = some "a"
      ∧ ((Collection.init no_files).insert (.obj [("_id", .num 7), ("v", .num 1)])
          "a").1.store.get "a"
        = some ((Json.obj [("_id", .num 7), ("v", .num 1)]).set "_id" (.str "a"))
      ∧ ((Json.obj [("_id", .num 7), ("v", .num 1)]).set "_id" (.str "a")).get "_id"
        = .str "a"
      ∧ (∀ k, k ≠ "_id" →
          Json.lookup k
              ((Json.obj [("_id", .num 7), ("v", .num 1)]).set "_id" (.str "a")).entries
            = Json.lookup k (Json.obj [("_id", .num 7), ("v", .num 1)]).entries)
      ∧ (∀ k, k ≠ "a" →
          ((Collection.init no_files).insert (.obj [("_id", .num 7), ("v", .num 1)])
              "a").1.store.get k
            = (Collection.init no_files).store.get k) :=
  ⟨HashMap.WF_empty, rfl,
    c10_insert_postcondition (Collection.init no_files)
      (.obj [("_id", .num 7), ("v", .num 1)]) "a" HashMap.WF_empty rfl⟩

/-! ### The store of a collection -/

namespace Collection

theorem save_index_store (c : Collection) (field : String) :
    (c.save_index field).store = c.store ∧ (c.save_index field).indexes = c.indexes
      ∧ (c.save_index field).btree_indexes = c.btree_indexes := by
  unfold save_index
  split <;> exact ⟨rfl, rfl, rfl⟩

theorem foldl_save_index_store (l : List (String × HashMap (List String))) (c : Collection) :
    (l.foldl (fun acc item => save_index acc item.1) c).store = c.store
      ∧ (l.foldl (fun acc item => save_index acc item.1) c).indexes = c.indexes
      ∧ (l.foldl (fun acc item => save_index acc item.1) c).btree_indexes
        = c.btree_indexes := by
  induction l generalizing c with
  | nil => exact ⟨rfl, rfl, rfl⟩
  | cons p l ih =>
    rw [List.foldl_cons]
    obtain ⟨h1, h2, h3⟩ := ih (save_index c p.1)
    obtain ⟨g1, g2, g3⟩ := save_index_store c p.1
    exact ⟨h1.trans g1, h2.trans g2, h3.trans g3⟩

theorem save_store (c : Collection) :
    c.save.store = c.store ∧ c.save.indexes = c.indexes
      ∧ c.save.btree_indexes = c.btree_indexes := by
  unfold save
  exact foldl_save_index_store _ _

theorem create_index_store (c : Collection) (field : String) :
    (c.create_index field).store = c.store := by
  unfold create_index
  simp only
  split
  · rfl
  · exact (save_index_store _ _).1

theorem insert_store (c : Collection) (doc : Json) (id : String) :
    (c.insert doc id).1.store
      = if doc.is_object then c.store.put id (doc.set "_id" (.str id)) else c.store := by
  unfold insert
  cases doc.is_object <;> rfl

theorem remove_loop_store (found : List Json) (c : Collection) (cnt : Nat)
    (h : c.store.WF) :
    (remove_loop c found cnt).1.store.WF
      ∧ ∀ k d, (remove_loop c found cnt).1.store.get k = some d → c.store.get k = some d := by
  induction found generalizing c cnt with
  | nil => exact ⟨h, fun _ _ hd => hd⟩
  | cons d rest ih =>
    unfold remove_loop
    cases hid : (d.get "_id").get_string with
    | none => exact ⟨h, fun _ _ hd => hd⟩
    | some id =>
      simp only
      split
      · obtain ⟨hw, hsub⟩ := ih
          { c with store := (c.store.remove id).1, indexes := remove_indexes d id c.indexes }
          (cnt + 1) (HashMap.WF_remove h id)
        refine ⟨hw, ?_⟩
        intro k x hx
        have := hsub k x hx
        simp only [HashMap.get_remove h] at this
        split at this
        · cases this
        · exact this
      · exact ih c cnt h

theorem remove_store (c : Collection) (query : Json) (h : c.store.WF) :
    (c.remove query).1.store.WF
      ∧ ∀ k d, (c.remove query).1.store.get k = some d → c.store.get k = some d := by
  unfold remove
  cases hf : c.find query with
  | none => exact ⟨h, fun _ _ hd => hd⟩
  | some found =>
    simp only
    have hl := remove_loop_store found c 0 h
    generalize remove_loop c found 0 = r at hl
    obtain ⟨c1, r2⟩ := r
    cases r2 with
    | none => exact hl
    | some n =>
      simp only
      split
      · rw [(save_store c1).1]; exact hl
      · exact hl

theorem StoreInv_init (P : String → Prop) (files : Files) : StoreInv P (init files) := by
  refine ⟨HashMap.WF_empty, ?_⟩
  intro id d hd
  simp only [init, HashMap.get_empty] at hd
  cases hd

theorem StoreInv_insert (P : String → Prop) (c : Collection) (doc : Json) (id : String)
    (h : StoreInv P c) (hid : P id) : StoreInv P (c.insert doc id).1 := by
  rw [StoreInv, insert_store]
  cases doc.is_object
  · exact h
  · simp only [if_true]
    refine ⟨HashMap.WF_put h.1 _ _, ?_⟩
    intro k d hd
    rw [HashMap.get_put h.1] at hd
    split at hd
    · rename_i hk
      cases hd
      rw [hk]
      exact ⟨Json.get_set_same _ _ _, hid⟩
    · exact h.2 k d hd

theorem StoreInv_remove (P : String → Prop) (c : Collection) (query : Json)
    (h : StoreInv P c) : StoreInv P (c.remove query).1 := by
  obtain ⟨hw, hsub⟩ := remove_store c query h.1
  exact ⟨hw, fun k d hd => h.2 k d (hsub k d hd)⟩

theorem StoreInv_create_index (P : String → Prop) (c : Collection) (field : String)
    (h : StoreInv P c) : StoreInv P (c.create_index field) := by
  rw [StoreInv, create_index_store]
  exact h

theorem Reached.storeInv {c : Collection} (h : Reached c) :
    StoreInv (fun id => id ≠ "") c := by
  induction h with
  | init files => exact StoreInv_init _ files
  | insert c doc a _ ih => exact StoreInv_insert _ c doc _ ih (gen_id_ne_empty a)
  | remove c query _ ih => exact StoreInv_remove _ c query ih
  | create_index c field _ ih => exact StoreInv_create_index _ c field ih

end Collection

/-- C11. In every state reached from an empty collection by calls of `insert`
and `remove` (and `create_index`), every stored document has under `_id` the
string it is stored under, which is not empty, and no two stored documents
have the same `_id`. -/
theorem c11_identifier_uniqueness (c : Collection) (h : Collection.Reached c) :
    (∀ p ∈ c.store.items, p.2.get "_id" = .str p.1 ∧ p.1 ≠ "")
      ∧ (c.store.items.map (fun p => p.2.get "_id")).Nodup := by
  obtain ⟨hw, hinv⟩ := h.storeInv
  have hall : ∀ p ∈ c.store.items, p.2.get "_id" = .str p.1 ∧ p.1 ≠ "" := by
    intro p hp
    exact hinv p.1 p.2 ((HashMap.mem_items_iff hw p.1 p.2).1 hp)
  refine ⟨hall, ?_⟩
  have hmap : c.store.items.map (fun p => p.2.get "_id")
      = (c.store.items.map Prod.fst).map Json.str := by
    rw [List.map_map]
    exact List.map_congr_left (fun p hp => (hall p hp).1)
  rw [hmap]
  exact (HashMap.items_keys_nodup hw).map (fun a b hab => by cases hab; rfl)

theorem c11_identifier_uniqueness_witness :
    Collection.Reached
        ((Collection.init no_files).insert (.obj [("v", .num 1)]) (gen_id 10)).1
      ∧ (∀ p ∈ ((Collection.init no_files).insert (.obj [("v", .num 1)])
            (gen_id 10)).1.store.items,
          p.2.get "_id" = .str p.1 ∧ p.1 ≠ "")
      ∧ (((Collection.init no_files).insert (.obj [("v", .num 1)])
          (gen_id 10)).1.store.items.map (fun p => p.2.get "_id")).Nodup :=
  ⟨Collection.Reached.insert _ _ _ (Collection.Reached.init no_files),
    c11_identifier_uniqueness _
      (Collection.Reached.insert _ _ _ (Collection.Reached.init no_files))⟩

/-! ### Loops over the items of a map that put into the map -/

namespace HashMap

variable {V : Type}

theorem foldl_put_spec (g : String × V → Option V) (l : List (String × V))
    (hl : (l.map Prod.fst).Nodup) (acc : HashMap V) (hw : acc.WF) :
    (l.foldl (put_entry g) acc).WF
      ∧ ∀ F, (l.foldl (put_entry g) acc).get F
        = match chain_get F l with
          | some x => (match g (F, x) with
            | some y => some y
            | none => acc.get F)
          | none => acc.get F := by
  induction l generalizing acc with
  | nil => exact ⟨hw, fun F => rfl⟩
  | cons p l ih =>
    obtain ⟨k, x⟩ := p
    simp only [List.map_cons, List.nodup_cons] at hl
    rw [List.foldl_cons]
    have hw1 : (put_entry g acc (k, x)).WF := by
      unfold put_entry
      cases g (k, x) with
      | none => exact hw
      | some y => exact WF_put hw k y
    obtain ⟨hwr, hgr⟩ := ih hl.2 _ hw1
    refine ⟨hwr, ?_⟩
    intro F
    rw [hgr F]
    by_cases hk : k = F
    · subst hk
      rw [chain_get_eq_none.2 hl.1]
      simp only [chain_get, if_true, put_entry]
      cases g (k, x) with
      | none => rfl
      | some y => simp [get_put hw]
    · have hacc : (put_entry g acc (k, x)).get F = acc.get F := by
        unfold put_entry
        cases g (k, x) with
        | none => rfl
        | some y => simp [get_put hw, Ne.symm hk]
      simp only [chain_get, if_neg hk, hacc]

theorem foldl_items_put_spec (g : String × V → Option V) (m : HashMap V) (hw : m.WF) :
    (m.items.foldl (put_entry g) m).WF
      ∧ ∀ F, (m.items.foldl (put_entry g) m).get F
        = (m.get F).map (fun x => (g (F, x)).getD x) := by
  obtain ⟨h1, h2⟩ := foldl_put_spec g m.items (items_keys_nodup hw) m hw
  refine ⟨h1, ?_⟩
  intro F
  rw [h2 F, chain_get_items hw]
  cases hg : m.get F with
  | none => rfl
  | some x =>
    cases hx : g (F, x) with
    | none => simp [hx, hg]
    | some y => simp [hx]

end HashMap

namespace Collection

theorem index_add_spec (idx : HashMap (List String)) (hw : idx.WF) (K id : String) :
    (index_add idx K id).WF
      ∧ ∀ K', (index_add idx K id).get K'
        = if K' = K then some ((idx.get K).getD [] ++ [id]) else idx.get K' := by
  unfold index_add
  exact ⟨HashMap.WF_put hw _ _, fun K' => by rw [HashMap.get_put hw]; rfl⟩

theorem insert_indexes_spec (doc : Json) (id : String)
    (indexes : HashMap (HashMap (List String))) (hw : indexes.WF) :
    (insert_indexes doc id indexes).WF
      ∧ ∀ F, (insert_indexes doc id indexes).get F
        = (indexes.get F).map (fun idx =>
            if doc.contains F then index_add idx (index_key_for_value (doc.get F)) id
            else idx) := by
  have hstep : (fun (acc : HashMap (HashMap (List String)))
        (item : String × HashMap (List String)) =>
        if doc.contains item.1 then
          acc.put item.1 (index_add item.2 (index_key_for_value (doc.get item.1)) id)
        else acc)
      = HashMap.put_entry (insert_index_entry doc id) := by
    funext acc item
    simp only [HashMap.put_entry, insert_index_entry]
    cases doc.contains item.1 <;> simp
  unfold insert_indexes
  rw [hstep]
  obtain ⟨h1, h2⟩ := HashMap.foldl_items_put_spec (insert_index_entry doc id) indexes hw
  refine ⟨h1, ?_⟩
  intro F
  rw [h2 F]
  cases indexes.get F with
  | none => rfl
  | some idx =>
    simp only [insert_index_entry, Option.map_some']
    cases doc.contains F <;> simp

end Collection

/-! ### Fidelity of a hash index under `insert` -/

namespace Collection

theorem faithful_add {S S' : String → Json → Prop} {F : String}
    {idx : HashMap (List String)} (hf : IndexFaithful S F idx) (hw : idx.WF)
    (id : String) (doc : Json) (hfresh : ∀ d, ¬ S id d)
    (hS : ∀ i x, S' i x ↔ (i = id ∧ x = doc) ∨ S i x) (hc : doc.contains F = true) :
    IndexFaithful S' F (index_add idx (index_key_for_value (doc.get F)) id) := by
  have hget := (index_add_spec idx hw (index_key_for_value (doc.get F)) id).2
  have hold : ∀ i ∈ (idx.get (index_key_for_value (doc.get F))).getD [],
      ∃ d, S i d ∧ d.contains F = true
        ∧ index_key_for_value (d.get F) = index_key_for_value (doc.get F) := by
    intro i hi
    cases hg : idx.get (index_key_for_value (doc.get F)) with
    | none => rw [hg] at hi; cases hi
    | some old => rw [hg] at hi; exact (hf.1 _ old hg).2.2 i hi
  have hnd : ((idx.get (index_key_for_value (doc.get F))).getD []).Nodup := by
    cases hg : idx.get (index_key_for_value (doc.get F)) with
    | none => exact List.nodup_nil
    | some old => exact (hf.1 _ old hg).2.1
  constructor
  · intro K ids h
    rw [hget] at h
    by_cases hK : K = index_key_for_value (doc.get F)
    · rw [if_pos hK] at h
      cases h
      refine ⟨by simp, ?_, ?_⟩
      · rw [List.nodup_append]
        refine ⟨hnd, List.nodup_singleton _, ?_⟩
        intro a ha hb
        rw [List.mem_singleton] at hb
        subst hb
        obtain ⟨d, hd, _⟩ := hold a ha
        exact hfresh d hd
      · intro i hi
        rw [List.mem_append, List.mem_singleton] at hi
        rcases hi with hi | hi
        · obtain ⟨d, hd, hcd, hkd⟩ := hold i hi
          exact ⟨d, (hS i d).2 (Or.inr hd), hcd, hkd.trans hK.symm⟩
        · exact ⟨doc, (hS i doc).2 (Or.inl ⟨hi, rfl⟩), hc, hK.symm⟩
    · rw [if_neg hK] at h
      obtain ⟨h1, h2, h3⟩ := hf.1 K ids h
      refine ⟨h1, h2, ?_⟩
      intro i hi
      obtain ⟨d, hd, hcd, hkd⟩ := h3 i hi
      exact ⟨d, (hS i d).2 (Or.inr hd), hcd, hkd⟩
  · intro i x hx hcx
    rw [hget]
    rcases (hS i x).1 hx with ⟨hi, hxd⟩ | hSx
    · subst hxd
      rw [if_pos rfl]
      exact ⟨_, rfl, by simp [hi]⟩
    · obtain ⟨ids0, hg0, hm0⟩ := hf.2 i x hSx hcx
      by_cases hK : index_key_for_value (x.get F) = index_key_for_value (doc.get F)
      · rw [if_pos hK]
        rw [hK] at hg0
        refine ⟨_, rfl, ?_⟩
        rw [hg0]
        exact List.mem_append_left _ hm0
      · rw [if_neg hK]
        exact ⟨ids0, hg0, hm0⟩

theorem faithful_add_skip {S S' : String → Json → Prop} {F : String}
    {idx : HashMap (List String)} (hf : IndexFaithful S F idx)
    (id : String) (doc : Json)
    (hS : ∀ i x, S' i x ↔ (i = id ∧ x = doc) ∨ S i x) (hc : doc.contains F = false) :
    IndexFaithful S' F idx := by
  constructor
  · intro K ids h
    obtain ⟨h1, h2, h3⟩ := hf.1 K ids h
    refine ⟨h1, h2, ?_⟩
    intro i hi
    obtain ⟨d, hd, hcd, hkd⟩ := h3 i hi
    exact ⟨d, (hS i d).2 (Or.inr hd), hcd, hkd⟩
  · intro i x hx hcx
    rcases (hS i x).1 hx with ⟨_, hxd⟩ | hSx
    · rw [hxd, hc] at hcx; cases hcx
    · exact hf.2 i x hSx hcx

end Collection

/-! ### Fidelity of a hash index under `remove` -/

namespace Collection

theorem resize_custom_remove_if (ids : List String) (p : String → Bool) :
    Vector.resize (custom_remove_if ids p).1 (ids.length - (custom_remove_if ids p).2)
      = ids.filter (fun x => !p x) := by
  have hlen := @List.length_eq_length_filter_add _ ids p
  have hn : ids.length - (ids.filter p).length = (ids.filter (fun x => !p x)).length := by
    omega
  simp only [custom_remove_if, Vector.resize]
  rw [hn, List.take_left, List.length_append, List.length_drop]
  have : (ids.filter (fun x => !p x)).length
      - ((ids.filter (fun x => !p x)).length
        + (ids.length - (ids.filter (fun x => !p x)).length)) = 0 := by omega
  rw [this]; simp

theorem remove_index_entry_get (d : Json) (id F : String) (idx : HashMap (List String))
    (hw : idx.WF) (hc : d.contains F = true) (ids : List String)
    (hids : idx.get (index_key_for_value (d.get F)) = some ids) (hmem : id ∈ ids) :
    ((remove_index_entry d id (F, idx)).getD idx).WF
      ∧ ∀ K, ((remove_index_entry d id (F, idx)).getD idx).get K
        = if K = index_key_for_value (d.get F) then
            (if ids.filter (fun x => !(x == id)) = [] then none
              else some (ids.filter (fun x => !(x == id))))
          else idx.get K := by
  have hpos : (custom_remove_if ids (fun current_id => current_id == id)).2 > 0 := by
    simp only [custom_remove_if]
    exact List.length_pos_of_mem (List.mem_filter.2 ⟨hmem, by simp⟩)
  have hres := resize_custom_remove_if ids (fun current_id => current_id == id)
  simp only [remove_index_entry, hc, if_true, hids, hpos, hres]
  by_cases he : ids.filter (fun x => !(x == id)) = []
  · rw [he]
    simp only [List.isEmpty_nil, if_true, Option.getD_some]
    exact ⟨HashMap.WF_remove hw _, fun K => HashMap.get_remove hw _ K⟩
  · have : (ids.filter (fun x => !(x == id))).isEmpty = false := by
      cases hl : ids.filter (fun x => !(x == id)) with
      | nil => exact absurd hl he
      | cons _ _ => rfl
    simp only [this, Bool.false_eq_true, if_false, Option.getD_some, he]
    exact ⟨HashMap.WF_put hw _ _, fun K => HashMap.get_put hw _ _ K⟩

theorem remove_indexes_spec (d : Json) (id : String)
    (indexes : HashMap (HashMap (List String))) (hw : indexes.WF) :
    (remove_indexes d id indexes).WF
      ∧ ∀ F, (remove_indexes d id indexes).get F
        = (indexes.get F).map (fun idx => (remove_index_entry d id (F, idx)).getD idx) := by
  have hstep : (fun (acc : HashMap (HashMap (List String)))
        (item : String × HashMap (List String)) =>
        if d.contains item.1 then
          let key := index_key_for_value (d.get item.1)
          match item.2.get key with
          | some ids =>
            let moved := custom_remove_if ids (fun current_id => current_id == id)
            if moved.2 > 0 then
              let ids1 := Vector.resize moved.1 (ids.length - moved.2)
              if ids1.isEmpty then acc.put item.1 (item.2.remove key).1
              else acc.put item.1 (item.2.put key ids1)
            else acc
          | none => acc
        else acc)
      = HashMap.put_entry (remove_index_entry d id) := by
    funext acc item
    simp only [HashMap.put_entry, remove_index_entry]
    split
    · split
      · split
        · split <;> rfl
        · rfl
      · rfl
    · rfl
  unfold remove_indexes
  rw [hstep]
  exact HashMap.foldl_items_put_spec (remove_index_entry d id) indexes hw

end Collection

namespace Collection

theorem faithful_remove {S S' : String → Json → Prop} {F : String}
    {idx : HashMap (List String)} (hf : IndexFaithful S F idx) (hw : idx.WF)
    (hfun : ∀ i x y, S i x → S i y → x = y) (id : String) (d : Json) (hd : S id d)
    (hS : ∀ i x, S' i x ↔ i ≠ id ∧ S i x) :
    ((remove_index_entry d id (F, idx)).getD idx).WF
      ∧ IndexFaithful S' F ((remove_index_entry d id (F, idx)).getD idx) := by
  cases hc : d.contains F with
  | false =>
    have hnone : remove_index_entry d id (F, idx) = none := by
      simp [remove_index_entry, hc]
    rw [hnone]
    refine ⟨hw, ?_, ?_⟩
    · intro K ids h
      obtain ⟨h1, h2, h3⟩ := hf.1 K ids h
      refine ⟨h1, h2, ?_⟩
      intro i hi
      obtain ⟨x, hx, hcx, hkx⟩ := h3 i hi
      refine ⟨x, (hS i x).2 ⟨?_, hx⟩, hcx, hkx⟩
      intro hii
      subst hii
      rw [hfun i x d hx hd, hc] at hcx
      cases hcx
    · intro i x hx hcx
      exact hf.2 i x ((hS i x).1 hx).2 hcx
  | true =>
    obtain ⟨ids, hids, hmem⟩ := hf.2 id d hd hc
    obtain ⟨hw', hget⟩ := remove_index_entry_get d id F idx hw hc ids hids hmem
    obtain ⟨_, hnd, hall⟩ := hf.1 _ ids hids
    refine ⟨hw', ?_, ?_⟩
    · intro K ids' h
      rw [hget] at h
      by_cases hK : K = index_key_for_value (d.get F)
      · rw [if_pos hK] at h
        by_cases he : ids.filter (fun x => !(x == id)) = []
        · rw [if_pos he] at h; cases h
        · rw [if_neg he] at h
          cases h
          refine ⟨he, hnd.filter _, ?_⟩
          intro i hi
          obtain ⟨hi1, hi2⟩ := List.mem_filter.1 hi
          obtain ⟨x, hx, hcx, hkx⟩ := hall i hi1
          refine ⟨x, (hS i x).2 ⟨?_, hx⟩, hcx, hkx.trans hK.symm⟩
          intro hii
          simp [hii] at hi2
      · rw [if_neg hK] at h
        obtain ⟨h1, h2, h3⟩ := hf.1 K ids' h
        refine ⟨h1, h2, ?_⟩
        intro i hi
        obtain ⟨x, hx, hcx, hkx⟩ := h3 i hi
        refine ⟨x, (hS i x).2 ⟨?_, hx⟩, hcx, hkx⟩
        intro hii
        subst hii
        rw [hfun i x d hx hd] at hkx
        exact hK hkx.symm
    · intro i x hx hcx
      obtain ⟨hne, hSx⟩ := (hS i x).1 hx
      obtain ⟨ids0, hg0, hm0⟩ := hf.2 i x hSx hcx
      rw [hget]
      by_cases hK : index_key_for_value (x.get F) = index_key_for_value (d.get F)
      · rw [if_pos hK]
        rw [hK, hids] at hg0
        cases hg0
        have hin : i ∈ ids.filter (fun x => !(x == id)) :=
          List.mem_filter.2 ⟨hm0, by simp [hne]⟩
        have he : ids.filter (fun x => !(x == id)) ≠ [] := List.ne_nil_of_mem hin
        rw [if_neg he]
        exact ⟨_, rfl, hin⟩
      · rw [if_neg hK]
        exact ⟨ids0, hg0, hm0⟩

end Collection

/-! ### The invariant of the hash indexes -/

namespace Collection

theorem faithful_congr {S S' : String → Json → Prop} {F : String}
    {idx : HashMap (List String)} (hf : IndexFaithful S F idx)
    (hS : ∀ i x, S' i x ↔ S i x) : IndexFaithful S' F idx := by
  have : S' = S := by
    funext i x
    exact propext (hS i x)
  rw [this]; exact hf

theorem insert_indexes_eq (c : Collection) (doc : Json) (id : String) :
    (c.insert doc id).1.indexes
      = if doc.is_object then insert_indexes (doc.set "_id" (.str id)) id c.indexes
        else c.indexes := by
  unfold insert
  cases doc.is_object <;> rfl

theorem IndexInv_insert (P : String → Prop) (c : Collection) (doc : Json) (id : String)
    (hs : StoreInv P c) (hi : IndexInv c) (hfresh : c.store.get id = none) :
    IndexInv (c.insert doc id).1 := by
  rw [IndexInv, insert_indexes_eq, insert_store]
  cases doc.is_object
  · exact hi
  · simp only [if_true]
    obtain ⟨hw, hget⟩ := insert_indexes_spec (doc.set "_id" (.str id)) id c.indexes hi.1
    refine ⟨hw, ?_⟩
    intro F idx' h
    rw [hget] at h
    cases hg : c.indexes.get F with
    | none => rw [hg] at h; cases h
    | some idx =>
      rw [hg] at h
      simp only [Option.map_some', Option.some.injEq] at h
      obtain ⟨hwi, hfi⟩ := hi.2 F idx hg
      have hS : ∀ i x, (c.store.put id (doc.set "_id" (.str id))).get i = some x
          ↔ (i = id ∧ x = doc.set "_id" (.str id)) ∨ c.store.get i = some x := by
        intro i x
        rw [HashMap.get_put hs.1]
        by_cases hii : i = id
        · subst hii
          simp only [if_true, Option.some.injEq, true_and, hfresh]
          constructor
          · intro e; exact Or.inl e.symm
          · rintro (e | e)
            · exact e.symm
            · cases e
        · simp [hii]
      cases hc : (doc.set "_id" (.str id)).contains F with
      | false =>
        rw [hc] at h
        simp only [Bool.false_eq_true, if_false] at h
        subst h
        exact ⟨hwi, faithful_add_skip hfi id _ hS hc⟩
      | true =>
        rw [hc] at h
        simp only [if_true] at h
        subst h
        refine ⟨(index_add_spec idx hwi _ id).1, ?_⟩
        refine faithful_add hfi hwi id _ ?_ hS hc
        intro d hd
        rw [hfresh] at hd; cases hd

theorem fetch_sound (store : HashMap Json) (ids : List String) (res : List Json)
    (hres : ∀ d ∈ res, ∃ k, store.get k = some d) :
    ∀ d ∈ fetch store ids res, ∃ k, store.get k = some d := by
  induction ids generalizing res with
  | nil => exact hres
  | cons id ids ih =>
    unfold fetch
    rw [List.foldl_cons]
    apply ih
    cases hg : store.get id with
    | none => exact hres
    | some x =>
      intro d hd
      simp only [Vector.push_back, List.mem_append, List.mem_singleton] at hd
      rcases hd with hd | hd
      · exact hres d hd
      · exact ⟨id, by rw [hg, hd]⟩

theorem scan_sound (store : HashMap Json) (hw : store.WF) (query : Json) (res : List Json)
    (hres : ∀ d ∈ res, ∃ k, store.get k = some d) :
    ∀ d ∈ scan store query res, ∃ k, store.get k = some d := by
  have hgen : ∀ (l : List (String × Json)), (∀ p ∈ l, store.get p.1 = some p.2) →
      ∀ res : List Json, (∀ d ∈ res, ∃ k, store.get k = some d) →
      ∀ d ∈ l.foldl (fun r p =>
          if evaluate_query p.2 query then Vector.push_back r p.2 else r) res,
        ∃ k, store.get k = some d := by
    intro l
    induction l with
    | nil => intro _ res hres; exact hres
    | cons p l ih =>
      intro hl res hres
      rw [List.foldl_cons]
      apply ih (fun q hq => hl q (List.mem_cons_of_mem _ hq))
      split
      · intro d hd
        simp only [Vector.push_back, List.mem_append, List.mem_singleton] at hd
        rcases hd with hd | hd
        · exact hres d hd
        · exact ⟨p.1, by rw [hd]; exact hl p (List.mem_cons_self _ _)⟩
      · exact hres
  exact hgen store.items (fun p hp => (HashMap.mem_items_iff hw p.1 p.2).1 hp) res hres

end Collection

namespace Collection

theorem hash_lookup_sound (store : HashMap Json) (field_index : HashMap (List String))
    (cond : Json) :
    ∀ d ∈ (hash_lookup store field_index cond).1, ∃ k, store.get k = some d := by
  have hnil : ∀ d ∈ ([] : List Json), ∃ k, store.get k = some d := by
    intro d hd; cases hd
  have hin : ∀ (vs : List Json) (res : List Json),
      (∀ d ∈ res, ∃ k, store.get k = some d) →
      ∀ d ∈ vs.foldl (fun res v =>
          match field_index.get (index_key_for_value v) with
          | some ids => fetch store ids res
          | none => res) res,
        ∃ k, store.get k = some d := by
    intro vs
    induction vs with
    | nil => intro res hres; exact hres
    | cons v vs ih =>
      intro res hres
      rw [List.foldl_cons]
      apply ih
      split
      · exact fetch_sound store _ res hres
      · exact hres
  unfold hash_lookup
  split
  · split
    · exact fetch_sound store _ [] hnil
    · exact hnil
  · split
    · split
      · exact fetch_sound store _ [] hnil
      · exact hnil
    · split
      · exact hin _ [] hnil
      · exact hnil

theorem find_hash_or_scan_sound (c : Collection) (hw : c.store.WF) (query : Json) :
    ∀ d ∈ find_hash_or_scan c query, ∃ k, c.store.get k = some d := by
  have hnil : ∀ d ∈ ([] : List Json), ∃ k, c.store.get k = some d := by
    intro d hd; cases hd
  unfold find_hash_or_scan
  have hlooked : ∀ d ∈ (match query with
      | .obj [(field, cond)] =>
        if field = "$or" then (([] : List Json), false)
        else
          match c.indexes.get field with
          | some field_index => hash_lookup c.store field_index cond
          | none => ([], false)
      | _ => ([], false)).1, ∃ k, c.store.get k = some d := by
    split
    · split
      · exact hnil
      · split
        · exact hash_lookup_sound _ _ _
        · exact hnil
    · exact hnil
  simp only
  split
  · exact scan_sound c.store hw query _ hlooked
  · exact hlooked

theorem find_sound (c : Collection) (hw : c.store.WF) (query : Json) (found : List Json)
    (h : c.find query = some found) : ∀ d ∈ found, ∃ k, c.store.get k = some d := by
  have hnil : ∀ d ∈ ([] : List Json), ∃ k, c.store.get k = some d := by
    intro d hd; cases hd
  unfold find at h
  simp only at h
  split at h
  · cases h
  · split at h
    · cases h
      exact fetch_sound c.store _ [] hnil
    · cases h
      exact find_hash_or_scan_sound c hw query

end Collection

namespace Collection

theorem remove_loop_inv (P : String → Prop) (found : List Json) (c : Collection)
    (cnt : Nat) (hs : StoreInv P c) (hi : IndexInv c)
    (hfound : ∀ d ∈ found, ∀ id, (d.get "_id").get_string = some id →
      ∀ d', c.store.get id = some d' → d' = d) :
    IndexInv (remove_loop c found cnt).1 := by
  induction found generalizing c cnt with
  | nil => exact hi
  | cons d rest ih =>
    unfold remove_loop
    cases hid : (d.get "_id").get_string with
    | none => exact hi
    | some id =>
      simp only
      have hrest : ∀ x ∈ rest, ∀ id, (x.get "_id").get_string = some id →
          ∀ d', c.store.get id = some d' → d' = x :=
        fun x hx => hfound x (List.mem_cons_of_mem _ hx)
      obtain ⟨hwr, hgr, hflag, _⟩ := HashMap.remove_spec hs.1 id
      split
      · rename_i htrue
        rw [hflag] at htrue
        cases hg : c.store.get id with
        | none => rw [hg] at htrue; cases htrue
        | some d' =>
          have hdd : d' = d := hfound d (List.mem_cons_self _ _) id hid d' hg
          subst hdd
          have hS : ∀ i x, (c.store.remove id).1.get i = some x
              ↔ i ≠ id ∧ c.store.get i = some x := by
            intro i x
            rw [hgr]
            by_cases hii : i = id
            · simp [hii]
            · simp [hii]
          apply ih
          · refine ⟨hwr, ?_⟩
            intro k x hx
            exact hs.2 k x ((hS k x).1 hx).2
          · obtain ⟨hw', hget'⟩ := remove_indexes_spec d' id c.indexes hi.1
            refine ⟨hw', ?_⟩
            intro F idx' h
            simp only at h
            rw [hget'] at h
            cases hgi : c.indexes.get F with
            | none => rw [hgi] at h; cases h
            | some idx =>
              rw [hgi] at h
              simp only [Option.map_some', Option.some.injEq] at h
              subst h
              obtain ⟨hwi, hfi⟩ := hi.2 F idx hgi
              exact faithful_remove hfi hwi
                (fun i x y hx hy => by rw [hx] at hy; exact Option.some.inj hy)
                id d' hg hS
          · intro x hx id2 hid2 y hy
            exact hrest x hx id2 hid2 y ((hS id2 y).1 hy).2
      · exact ih c cnt hs hi hrest

theorem IndexInv_remove (P : String → Prop) (c : Collection) (query : Json)
    (hs : StoreInv P c) (hi : IndexInv c) : IndexInv (c.remove query).1 := by
  unfold remove
  cases hf : c.find query with
  | none => exact hi
  | some found =>
    simp only
    have hfound : ∀ d ∈ found, ∀ id, (d.get "_id").get_string = some id →
        ∀ d', c.store.get id = some d' → d' = d := by
      intro d hd id hid d' hd'
      obtain ⟨k, hk⟩ := find_sound c hs.1 query found hf d hd
      have hkid := (hs.2 k d hk).1
      rw [hkid] at hid
      simp only [Json.get_string, Option.some.injEq] at hid
      subst hid
      rw [hk] at hd'
      exact (Option.some.inj hd').symm
    have hl := remove_loop_inv P found c 0 hs hi hfound
    generalize remove_loop c found 0 = r at hl
    obtain ⟨c1, r2⟩ := r
    cases r2 with
    | none => exact hl
    | some n =>
      simp only
      split
      · obtain ⟨e1, e2, _⟩ := save_store c1
        rw [IndexInv, e1, e2]; exact hl
      · exact hl

end Collection

/-! ### Fidelity of the hash index that `create_index` builds -/

namespace Collection

theorem faithful_empty (F : String) :
    IndexFaithful (fun i x => (i, x) ∈ ([] : List (String × Json))) F HashMap.empty := by
  constructor
  · intro K ids h
    rw [HashMap.get_empty] at h; cases h
  · intro i x hx
    cases hx

theorem build_faithful (F : String) (l pre : List (String × Json))
    (acc : HashMap (List String)) (hnd : ((pre ++ l).map Prod.fst).Nodup) (hw : acc.WF)
    (hf : IndexFaithful (fun i x => (i, x) ∈ pre) F acc) :
    (l.foldl (fun mapidx p =>
        if p.2.contains F then index_add mapidx (index_key_for_value (p.2.get F)) p.1
        else mapidx) acc).WF
      ∧ IndexFaithful (fun i x => (i, x) ∈ pre ++ l) F
        (l.foldl (fun mapidx p =>
          if p.2.contains F then index_add mapidx (index_key_for_value (p.2.get F)) p.1
          else mapidx) acc) := by
  induction l generalizing pre acc with
  | nil =>
    rw [List.append_nil]
    exact ⟨hw, hf⟩
  | cons p l ih =>
    rw [List.foldl_cons]
    have happ : pre ++ p :: l = (pre ++ [p]) ++ l := by simp
    rw [happ] at hnd ⊢
    have hS : ∀ i x, (i, x) ∈ pre ++ [p] ↔ (i = p.1 ∧ x = p.2) ∨ (i, x) ∈ pre := by
      intro i x
      rw [List.mem_append, List.mem_singleton]
      constructor
      · rintro (h | h)
        · exact Or.inr h
        · exact Or.inl ⟨by rw [← h], by rw [← h]⟩
      · rintro (⟨h1, h2⟩ | h)
        · exact Or.inr (by rw [h1, h2])
        · exact Or.inl h
    have hfresh : ∀ d, ¬ (p.1, d) ∈ pre := by
      intro d hd
      rw [List.map_append, List.map_append, List.append_assoc, List.nodup_append] at hnd
      exact hnd.2.2 (List.mem_map_of_mem Prod.fst hd) (by simp)
    cases hc : p.2.contains F with
    | false =>
      simp only [Bool.false_eq_true, if_false]
      exact ih (pre ++ [p]) acc hnd hw (faithful_add_skip hf p.1 p.2 hS hc)
    | true =>
      simp only [if_true]
      exact ih (pre ++ [p]) _ hnd (index_add_spec acc hw _ p.1).1
        (faithful_add hf hw p.1 p.2 hfresh hS hc)

theorem build_hash_index_spec (F : String) (store : HashMap Json) (hw : store.WF) :
    (build_hash_index F store.items).WF
      ∧ IndexFaithful (fun id d => store.get id = some d) F
        (build_hash_index F store.items) := by
  obtain ⟨h1, h2⟩ := build_faithful F store.items [] HashMap.empty
    (by rw [List.nil_append]; exact HashMap.items_keys_nodup hw) HashMap.WF_empty
    (faithful_empty F)
  refine ⟨h1, faithful_congr h2 ?_⟩
  intro i x
  rw [List.nil_append]
  exact (HashMap.mem_items_iff hw i x).symm

theorem create_index_indexes (c : Collection) (field : String) :
    (c.create_index field).indexes = c.indexes
      ∨ (c.create_index field).indexes
        = c.indexes.put field (build_hash_index field c.store.items) := by
  unfold create_index
  simp only
  split
  · exact Or.inl rfl
  · exact Or.inr (save_index_store _ _).2.1

theorem IndexInv_create_index (c : Collection) (field : String) (hw : c.store.WF)
    (hi : IndexInv c) : IndexInv (c.create_index field) := by
  rw [IndexInv, create_index_store]
  rcases create_index_indexes c field with h | h
  · rw [h]; exact hi
  · rw [h]
    refine ⟨HashMap.WF_put hi.1 _ _, ?_⟩
    intro F idx hidx
    rw [HashMap.get_put hi.1] at hidx
    split at hidx
    · cases hidx
      rename_i hF
      rw [hF]
      exact build_hash_index_spec field c.store hw
    · exact hi.2 F idx hidx

theorem IndexInv_init (files : Files) : IndexInv (init files) := by
  refine ⟨HashMap.WF_empty, ?_⟩
  intro F idx h
  simp only [init, HashMap.get_empty] at h
  cases h

theorem ReachedFresh.inv {c : Collection} (h : ReachedFresh c) :
    StoreInv (fun _ => True) c ∧ IndexInv c := by
  induction h with
  | init files => exact ⟨StoreInv_init _ files, IndexInv_init files⟩
  | insert c doc id _ hfresh ih =>
    exact ⟨StoreInv_insert _ c doc id ih.1 trivial, IndexInv_insert _ c doc id ih.1 ih.2 hfresh⟩
  | remove c query _ ih =>
    exact ⟨StoreInv_remove _ c query ih.1, IndexInv_remove _ c query ih.1 ih.2⟩
  | create_index c field _ ih =>
    exact ⟨StoreInv_create_index _ c field ih.1, IndexInv_create_index c field ih.1.1 ih.2⟩

end Collection

/-- C4. In every state reached from an empty collection by calls of `insert`,
`remove` and `create_index` in which no `insert` generates an identifier that
the store holds, a hash index on `F` maps each of its value-keys `K` to a list
that is not empty, holds no id twice, and holds exactly the ids of the stored
documents that contain `F` with `index_key_for_value(doc[F]) = K`; and every
stored document that contains `F` has its value-key in the index. -/
theorem c4_hash_index_fidelity (c : Collection) (h : Collection.ReachedFresh c)
    (F : String) (idx : HashMap (List String)) (hidx : c.indexes.get F = some idx) :
    (∀ K ids, idx.get K = some ids →
        ids ≠ [] ∧ ids.Nodup ∧
          ∀ id, id ∈ ids ↔ ∃ d, c.store.get id = some d ∧ d.contains F = true
            ∧ index_key_for_value (d.get F) = K)
      ∧ (∀ id d, c.store.get id = some d → d.contains F = true →
          ∃ ids, idx.get (index_key_for_value (d.get F)) = some ids ∧ id ∈ ids) := by
  obtain ⟨_, hf⟩ := h.inv.2.2 F idx hidx
  refine ⟨?_, hf.2⟩
  intro K ids hK
  obtain ⟨h1, h2, h3⟩ := hf.1 K ids hK
  refine ⟨h1, h2, ?_⟩
  intro id
  constructor
  · exact h3 id
  · rintro ⟨d, hd, hc, hk⟩
    obtain ⟨ids0, hg0, hm0⟩ := hf.2 id d hd hc
    rw [hk, hK] at hg0
    cases hg0
    exact hm0

theorem c4_hash_index_fidelity_witness :
    Collection.ReachedFresh string_indexed
      ∧ string_indexed.indexes.get "f"
        = some ((HashMap.empty : HashMap (List String)).put "s:a" ["a"])
      ∧ (∀ K ids, ((HashMap.empty : HashMap (List String)).put "s:a" ["a"]).get K = some ids →
          ids ≠ [] ∧ ids.Nodup ∧
            ∀ id, id ∈ ids ↔ ∃ d, string_indexed.store.get id = some d
              ∧ d.contains "f" = true ∧ index_key_for_value (d.get "f") = K)
      ∧ (∀ id d, string_indexed.store.get id = some d → d.contains "f" = true →
          ∃ ids, ((HashMap.empty : HashMap (List String)).put "s:a" ["a"]).get
              (index_key_for_value (d.get "f")) = some ids ∧ id ∈ ids) :=
  ⟨Collection.ReachedFresh.create_index _ _
      (Collection.ReachedFresh.insert _ _ _ (Collection.ReachedFresh.init no_files)
        (HashMap.get_empty _)),
    rfl,
    c4_hash_index_fidelity string_indexed
      (Collection.ReachedFresh.create_index _ _
        (Collection.ReachedFresh.insert _ _ _ (Collection.ReachedFresh.init no_files)
          (HashMap.get_empty _)))
      "f" _ rfl⟩

/-! ### The planner and the evaluator on composed queries -/

/-- C27, refuted at an input. With a B-tree on `v` that holds the keys 1
(id `a`) and 2·10^18 (id `b`), `find` of `{"v": {"$gt": 0}}` returns the first
document only: the ids come from `rangeSearch(0, 1e18)`, which is `a`, while
the range from 0 to +infinity is `a b`. For `{"v": {"$lt": …}}` the lower end is
`-1e18` in the same way. -/
theorem c27_one_sided_range_has_finite_end :
    large_number.find (.obj [("v", .obj [("$gt", .num 0)])])
        = some [.obj [("_id", .str "a"), ("v", .num 1)]]
      ∧ (large_number.btree_indexes.get "v").map
          (fun bt => Collection.btree_ids bt (.obj [("$gt", .num 0)]))
        = (large_number.btree_indexes.get "v").map
          (fun bt => some (bt.rangeSearch (Double.fin 0) (Double.fin (10 ^ 18)) false false))
      ∧ (large_number.btree_indexes.get "v").map
          (fun bt => bt.rangeSearch (Double.fin 0) Double.posInf false false)
        = some ["a", "b"]
      ∧ (∀ (bt : BTreeIndex) (v : Int),
          Collection.btree_ids bt (.obj [("$gt", .num v)])
            = some (bt.rangeSearch (Double.fin v) (Double.fin (10 ^ 18)) false false))
      ∧ (∀ (bt : BTreeIndex) (v : Int),
          Collection.btree_ids bt (.obj [("$lt", .num v)])
            = some (bt.rangeSearch (Double.fin (-(10 ^ 18))) (Double.fin v) false false)) := by
  refine ⟨by decide, by decide, by decide, fun _ _ => rfl, fun _ _ => rfl⟩

theorem eval_or_eq_lookup (doc : Json) (kvs : List (String × Json)) :
    eval_or doc kvs
      = match Json.lookup "$or" kvs with
        | some (.arr subs) => eval_some doc subs
        | _ => false := by
  induction kvs with
  | nil => rfl
  | cons p kvs ih =>
    obtain ⟨k, v⟩ := p
    cases v <;> simp only [eval_or, Json.lookup] <;> split <;> simp_all

theorem eval_and_eq_lookup (doc : Json) (kvs : List (String × Json)) :
    eval_and doc kvs
      = match Json.lookup "$and" kvs with
        | some (.arr subs) => eval_every doc subs
        | _ => false := by
  induction kvs with
  | nil => rfl
  | cons p kvs ih =>
    obtain ⟨k, v⟩ := p
    cases v <;> simp only [eval_and, Json.lookup] <;> split <;> simp_all

/-- C29. On a query object that has the key `$or`, `evaluate_query` gives
what it gives on the query with the `$or` entry alone, whatever the other
entries are; on a query object without `$or` that has the key `$and`, what it
gives on the query with the `$and` entry alone. So `{"$or": [{}], "a": 1}`
holds on a document without `a`. -/
theorem c29_sibling_keys_are_ignored (doc : Json) (kvs : List (String × Json)) :
    (∀ v, Json.lookup "$or" kvs = some v →
        evaluate_query doc (.obj kvs) = evaluate_query doc (.obj [("$or", v)]))
      ∧ (∀ v, Json.lookup "$or" kvs = none → Json.lookup "$and" kvs = some v →
        evaluate_query doc (.obj kvs) = evaluate_query doc (.obj [("$and", v)]))
      ∧ evaluate_query (.obj [("b", .num 2)])
          (.obj [("$or", .arr [.obj []]), ("a", .num 1)]) = true := by
  refine ⟨?_, ?_, by decide⟩
  · intro v hv
    simp only [evaluate_query, hv, Option.isSome_some, if_true, eval_or_eq_lookup,
      Json.lookup]
  · intro v hn hv
    have hne : ("$and" = "$or") = False := by decide
    simp [evaluate_query, hn, hv, eval_and_eq_lookup, eval_or_eq_lookup, Json.lookup]

/-! ### The request dispatcher -/

namespace DBServer

theorem error_response_status (text : String) :
    (error_response text).get "status" = .str "error"
      ∧ ((error_response text).get "message").is_string = true := by
  constructor <;> rfl

theorem insert_loop_error (gen : Nat → String) (docs : List Json) (coll : Collection)
    (inserted : List String) (h : docs.any (fun d => !d.is_object) = true) :
    ∃ text, (insert_loop gen coll docs inserted).2 = .error text := by
  induction docs generalizing coll inserted with
  | nil => simp at h
  | cons doc rest ih =>
    unfold insert_loop
    cases hobj : doc.is_object with
    | false => exact ⟨_, rfl⟩
    | true =>
      simp only [Bool.not_true, Bool.false_eq_true, if_false]
      have hrest : rest.any (fun d => !d.is_object) = true := by
        simpa [hobj] using h
      generalize coll.insert doc (gen inserted.length) = r
      obtain ⟨c1, o⟩ := r
      cases o with
      | none => exact ⟨_, rfl⟩
      | some id => exact ih c1 _ hrest

theorem execute_write_insert_error (coll : Collection) (gen : Nat → String) (what : String)
    (request : Json)
    (h : (!request.contains "data" || !(request.get "data").is_array
      || (request.get "data").iter_values.any (fun d => !d.is_object)) = true) :
    ∃ text, (execute_write_operation coll gen what request "insert").2
      = error_response text := by
  unfold execute_write_operation
  simp only [if_true]
  split
  · exact ⟨_, rfl⟩
  · rename_i hdata
    have hany : (request.get "data").iter_values.any (fun d => !d.is_object) = true := by
      cases h1 : (!request.contains "data" || !(request.get "data").is_array)
      · rw [h1] at h; simpa using h
      · exact absurd h1 hdata
    obtain ⟨text, ht⟩ := insert_loop_error gen _ coll [] hany
    generalize insert_loop gen coll (request.get "data").iter_values [] = r at ht
    obtain ⟨c1, e⟩ := r
    cases e with
    | error t => exact ⟨t, rfl⟩
    | ok ids => cases ht

theorem execute_write_delete_error (coll : Collection) (gen : Nat → String) (what : String)
    (request : Json) (h : request.contains "query" = false) :
    (execute_write_operation coll gen what request "delete").2
      = error_response "Delete operation requires query" := by
  unfold execute_write_operation
  have hne : ¬ ("delete" = "insert") := by decide
  simp only [if_neg hne, if_true, h, Bool.not_false]

theorem execute_read_error (coll : Collection) (what : String) (request : Json)
    (h : request.contains "query" = false) :
    execute_read_operation coll what request
      = error_response "Find operation requires query" := by
  unfold execute_read_operation
  simp only [h, Bool.not_false, if_true]

end DBServer

/-- C21, as the code has it. A bad request gets a response with the status
`error` and a message from `process_request` when `database` and `operation`,
if both are present, are strings and the collection of a non-empty database
name can be opened. (When one of them is not a string, or the files of the
collection cannot be loaded, an exception leaves `process_request`.) -/
theorem c21_bad_requests_are_rejected (s : DBServer) (gen : Nat → String) (locked : Bool)
    (what : String) (request : Json) (hbad : bad_request request = true)
    (hstr : request.contains "database" = true → request.contains "operation" = true →
      ∃ db op, request.get "database" = .str db ∧ request.get "operation" = .str op
        ∧ (db ≠ "" → (DBServer.get_collection s db).isSome = true)) :
    ∃ s' resp, DBServer.process_request s gen locked what request = some (s', resp)
      ∧ resp.get "status" = .str "error" ∧ (resp.get "message").is_string = true := by
  have herr : ∀ (s' : DBServer) (text : String) (r : Option (DBServer × Json)),
      r = some (s', DBServer.error_response text) →
      ∃ s' resp, r = some (s', resp)
        ∧ resp.get "status" = .str "error" ∧ (resp.get "message").is_string = true := by
    intro s' text r hr
    exact ⟨s', _, hr, (DBServer.error_response_status text).1,
      (DBServer.error_response_status text).2⟩
  unfold DBServer.process_request
  cases hd : request.contains "database" with
  | false =>
    simp only [Bool.not_false, Bool.true_or, if_true]
    exact herr s _ _ rfl
  | true =>
    cases ho : request.contains "operation" with
    | false =>
      simp only [Bool.not_false, Bool.or_true, if_true]
      exact herr s _ _ rfl
    | true =>
      obtain ⟨db, op, hdb, hop, hopen⟩ := hstr hd ho
      simp only [Bool.not_true, Bool.or_self, Bool.false_eq_true, if_false, hdb, hop,
        Json.get_string]
      by_cases hdbe : db = ""
      · rw [if_pos hdbe]
        exact herr s _ _ rfl
      · rw [if_neg hdbe]
        have hsome := hopen hdbe
        cases hg : DBServer.get_collection s db with
        | none => rw [hg] at hsome; cases hsome
        | some p =>
          obtain ⟨s1, coll⟩ := p
          simp only
          have hbad' : (op ≠ "insert" ∧ op ≠ "find" ∧ op ≠ "delete")
              ∨ (op = "insert" ∧ (!request.contains "data" || !(request.get "data").is_array
                || (request.get "data").iter_values.any (fun d => !d.is_object)) = true)
              ∨ ((op = "find" ∨ op = "delete") ∧ request.contains "query" = false) := by
            simp only [bad_request, hd, ho, hdb, hop, Bool.not_true, Bool.false_or,
              Bool.or_eq_true, Bool.and_eq_true, beq_iff_eq, bne_iff_ne, ne_eq,
              Json.str.injEq, hdbe, Bool.not_eq_true'] at hbad
            rcases hbad with ((h | h) | h) | h
            · exact absurd h (by simp)
            · exact Or.inl ⟨h.1.1, h.1.2, h.2⟩
            · exact Or.inr (Or.inl ⟨h.1, by simpa [Bool.or_eq_true] using h.2⟩)
            · exact Or.inr (Or.inr h)
          by_cases hw : op = "insert" ∨ op = "delete"
          · rw [if_pos hw]
            cases locked with
            | false =>
              simp only [Bool.not_false, if_true]
              exact herr s1 _ _ rfl
            | true =>
              simp only [Bool.not_true, Bool.false_eq_true, if_false]
              rcases hw with hi | hdel
              · subst hi
                have hdata : (!request.contains "data" || !(request.get "data").is_array
                    || (request.get "data").iter_values.any (fun d => !d.is_object))
                    = true := by
                  rcases hbad' with h | h | h
                  · exact absurd rfl h.1
                  · exact h.2
                  · rcases h.1 with h1 | h1 <;> exact absurd h1 (by decide)
                obtain ⟨text, ht⟩ :=
                  DBServer.execute_write_insert_error coll gen what request hdata
                exact herr _ text _ (by rw [ht])
              · subst hdel
                have hq : request.contains "query" = false := by
                  rcases hbad' with h | h | h
                  · exact absurd rfl h.2.2
                  · exact absurd h.1 (by decide)
                  · exact h.2
                exact herr _ _ _
                  (by rw [DBServer.execute_write_delete_error coll gen what request hq])
          · rw [if_neg hw]
            by_cases hf : op = "find"
            · rw [if_pos hf]
              have hq : request.contains "query" = false := by
                rcases hbad' with h | h | h
                · exact absurd hf h.2.1
                · exact absurd (Or.inl h.1) hw
                · exact h.2
              exact herr s1 _ _ (by rw [DBServer.execute_read_error coll what request hq])
            · rw [if_neg hf]
              exact herr s1 _ _ rfl

theorem c21_bad_requests_are_rejected_witness :
    bad_request (.obj [("database", .str "db"), ("operation", .str "drop")]) = true
      ∧ ∃ s' resp, DBServer.process_request DBServer.fresh gen_id true ""
            (.obj [("database", .str "db"), ("operation", .str "drop")]) = some (s', resp)
          ∧ resp.get "status" = .str "error" ∧ (resp.get "message").is_string = true :=
  ⟨by decide,
    c21_bad_requests_are_rejected DBServer.fresh gen_id true ""
      (.obj [("database", .str "db"), ("operation", .str "drop")]) (by decide)
      (fun _ _ => ⟨"db", "drop", rfl, rfl, fun _ => rfl⟩)⟩

/-- C21, the case that fails. The request `{"database": "", "operation": 5}`
has an empty database name, and `process_request` returns no response on it:
the conversion of `operation` to `std::string` throws before the name is
looked at. -/
theorem c21_non_string_operation_throws :
    bad_request (.obj [("database", .str ""), ("operation", .num 5)]) = true
      ∧ (DBServer.process_request DBServer.fresh gen_id true ""
          (.obj [("database", .str ""), ("operation", .num 5)])).isNone = true := by
  decide

namespace DBServer

theorem range_ids_shift (gen : Nat → String) (n : Nat) (inserted : List String) :
    inserted ++ ([gen inserted.length]
        ++ (List.range n).map (fun j => gen (inserted.length + 1 + j)))
      = inserted ++ (List.range (n + 1)).map (fun j => gen (inserted.length + j)) := by
  rw [List.range_succ_eq_map]
  simp only [List.map_cons, List.map_map, Nat.add_zero, List.singleton_append]
  congr 2
  apply List.map_congr_left
  intro j _
  simp only [Function.comp_apply]
  congr 1
  omega

theorem insert_loop_ok (gen : Nat → String) (docs : List Json) (coll : Collection)
    (inserted : List String) (h : ∀ d ∈ docs, d.is_object = true) :
    (insert_loop gen coll docs inserted).2
      = .ok (inserted ++ (List.range docs.length).map (fun j => gen (inserted.length + j))) := by
  induction docs generalizing coll inserted with
  | nil => simp [insert_loop]
  | cons doc rest ih =>
    have hobj : doc.is_object = true := h doc (List.mem_cons_self _ _)
    have hins : coll.insert doc (gen inserted.length)
        = (⟨coll.store.put (gen inserted.length) (doc.set "_id" (.str (gen inserted.length))),
            Collection.insert_indexes (doc.set "_id" (.str (gen inserted.length)))
              (gen inserted.length) coll.indexes,
            Collection.insert_btrees (doc.set "_id" (.str (gen inserted.length)))
              (gen inserted.length) coll.btree_indexes,
            coll.files⟩, some (gen inserted.length)) := by
      simp [Collection.insert, hobj]
    unfold insert_loop
    simp only [hobj, Bool.not_true, Bool.false_eq_true, if_false, hins]
    rw [ih _ _ (fun d hd => h d (List.mem_cons_of_mem _ hd))]
    have hlen : (Vector.push_back inserted (gen inserted.length)).length
        = inserted.length + 1 := by
      simp [Vector.push_back]
    rw [hlen, List.length_cons]
    show Except.ok ((inserted ++ [gen inserted.length]) ++ _) = _
    rw [List.append_assoc, range_ids_shift]

end DBServer

/-- C22, as the code has it. An insert request whose `data` is an array of
objects, empty or not, gets the status `success`, `data` equal to the ids
that `gen_id()` returned, in the order of the documents, and `count` equal to
the number of documents. -/
theorem c22_insert_of_objects_succeeds (coll : Collection) (gen : Nat → String)
    (what : String) (request : Json) (docs : List Json)
    (hdata : request.contains "data" = true) (harr : request.get "data" = .arr docs)
    (hobj : ∀ d ∈ docs, d.is_object = true) :
    (DBServer.execute_write_operation coll gen what request "insert").2
      = .obj [("count", .num docs.length),
          ("data", .arr ((List.range docs.length).map (fun n => Json.str (gen n)))),
          ("message", .str ("Inserted " ++ toString docs.length ++ " documents")),
          ("status", .str "success")] := by
  have hl := DBServer.insert_loop_ok gen docs coll [] hobj
  unfold DBServer.execute_write_operation
  simp only [if_true, hdata, harr, Json.is_array, Bool.not_true, Bool.or_self,
    Bool.false_eq_true, if_false, Json.iter_values]
  generalize DBServer.insert_loop gen coll docs [] = r at hl
  obtain ⟨c1, e⟩ := r
  cases e with
  | error t => cases hl
  | ok ids =>
    simp only [Except.ok.injEq] at hl
    subst hl
    simp

theorem c22_insert_of_objects_succeeds_witness :
    (Json.obj [("data", .arr [.obj [("a", .num 1)], .obj []])]).contains "data" = true
      ∧ (∀ d ∈ [Json.obj [("a", .num 1)], Json.obj []], d.is_object = true)
      ∧ (DBServer.execute_write_operation (Collection.init no_files) gen_id ""
          (.obj [("data", .arr [.obj [("a", .num 1)], .obj []])]) "insert").2
        = .obj [("count", .num ([Json.obj [("a", .num 1)], Json.obj []]).length),
            ("data", .arr ((List.range ([Json.obj [("a", .num 1)], Json.obj []]).length).map
              (fun n => Json.str (gen_id n)))),
            ("message", .str ("Inserted "
              ++ toString ([Json.obj [("a", .num 1)], Json.obj []]).length ++ " documents")),
            ("status", .str "success")] :=
  ⟨by decide, by decide,
    c22_insert_of_objects_succeeds (Collection.init no_files) gen_id ""
      (.obj [("data", .arr [.obj [("a", .num 1)], .obj []])])
      [.obj [("a", .num 1)], .obj []] (by decide) rfl (by decide)⟩

/-- C22, the case that fails. An insert request whose `data` is the empty
array is accepted: the response has the status `success`, no ids and the
count 0. -/
theorem c22_empty_data_is_accepted :
    (DBServer.process_request DBServer.fresh gen_id true ""
        (.obj [("data", .arr []), ("database", .str "db"),
          ("operation", .str "insert")])).map Prod.snd
      = some (.obj [("count", .num 0), ("data", .arr []),
          ("message", .str "Inserted 0 documents"), ("status", .str "success")]) := by
  decide

/-- C30, refuted at an input. On an empty collection the insert request with
`data = [{"a": 1}, 5]` gets the error response for the second element, and the
store holds the first document afterwards. -/
theorem c30_failed_batch_leaves_documents :
    (DBServer.execute_write_operation (Collection.init no_files) gen_id ""
        (.obj [("data", .arr [.obj [("a", .num 1)], .num 5])]) "insert").2
        = DBServer.error_response "Document must be a JSON object"
      ∧ (Collection.init no_files).store.items = []
      ∧ (DBServer.execute_write_operation (Collection.init no_files) gen_id ""
          (.obj [("data", .arr [.obj [("a", .num 1)], .num 5])]) "insert").1.store.items
        = [("0", .obj [("_id", .str "0"), ("a", .num 1)])] := by
  decide

/-! ### The order of the keys -/

namespace Double

theorem le_refl (a : Double) : a.le a = true := by
  cases a <;> simp [Double.le, Double.lt]

theorem le_trans {a b c : Double} (h1 : a.le b = true) (h2 : b.le c = true) :
    a.le c = true := by
  cases a <;> cases b <;> cases c <;> (simp_all [Double.le, Double.lt]; try omega)

theorem le_of_lt {a b : Double} (h : a.lt b = true) : a.le b = true := by
  cases a <;> cases b <;> (simp_all [Double.le, Double.lt]; try omega)

theorem lt_of_lt_of_le {a b c : Double} (h1 : a.lt b = true) (h2 : b.le c = true) :
    a.lt c = true := by
  cases a <;> cases b <;> cases c <;> (simp_all [Double.le, Double.lt]; try omega)

theorem le_of_not_lt {a b : Double} (h : a.lt b = false) : b.le a = true := by
  simp [Double.le, h]

theorem negInf_le (a : Double) : Double.negInf.le a = true := by
  cases a <;> simp [Double.le, Double.lt]

theorem le_posInf (a : Double) : a.le Double.posInf = true := by
  cases a <;> simp [Double.le, Double.lt]

end Double

namespace BTreeNode

theorem Between_le {lo hi : Double} {ks : List Double} (h : Between lo hi ks) :
    lo.le hi = true := by
  induction ks generalizing lo with
  | nil => exact h
  | cons k ks ih => exact Double.le_trans h.1 (ih h.2.2)

theorem Between_append {lo mid hi : Double} {seg rest : List Double}
    (h1 : Between lo mid seg) (hm : mid.is_fin = true) (h2 : Between mid hi rest) :
    Between lo hi (seg ++ mid :: rest) := by
  induction seg generalizing lo with
  | nil => exact ⟨h1, hm, h2⟩
  | cons k seg ih => exact ⟨h1.1, h1.2.1, ih h1.2.2⟩

theorem Between_subst {lo hi : Double} {ks : List Double} (seg : List Double) (i : Nat)
    (h : Between lo hi ks) (hi' : i ≤ ks.length)
    (hs : Between (lob lo ks i) (hib hi ks i) seg) :
    Between lo hi (ks.take i ++ seg ++ ks.drop i) := by
  induction ks generalizing lo i with
  | nil =>
    cases i with
    | zero => simpa [lob, hib] using hs
    | succ j => simp at hi'
  | cons k ks ih =>
    cases i with
    | zero =>
      simp only [lob, hib] at hs
      simpa using Between_append hs h.2.1 h.2.2
    | succ j =>
      simp only [lob, hib] at hs
      simp only [List.take_succ_cons, List.drop_succ_cons, List.cons_append]
      exact ⟨h.1, h.2.1, ih j h.2.2 (by simpa using hi') hs⟩

theorem Between_mem {lo hi : Double} {ks : List Double} (h : Between lo hi ks) :
    ∀ k ∈ ks, lo.le k = true ∧ k.le hi = true ∧ k.is_fin = true := by
  induction ks generalizing lo with
  | nil => intro k hk; cases hk
  | cons a ks ih =>
    intro k hk
    rcases List.mem_cons.1 hk with rfl | hk
    · exact ⟨h.1, Between_le h.2.2, h.2.1⟩
    · obtain ⟨h1, h2, h3⟩ := ih h.2.2 k hk
      exact ⟨Double.le_trans h.1 h1, h2, h3⟩

theorem OkCh_length {lo hi : Double} {ks : List Double} {cs : List BTreeNode}
    (h : OkCh lo hi ks cs) : cs.length = ks.length + 1 := by
  induction ks generalizing lo cs with
  | nil =>
    match cs, h with
    | [c], _ => rfl
    | [], h => simp [OkCh] at h
    | _ :: _ :: _, h => simp [OkCh] at h
  | cons k ks ih =>
    match cs, h with
    | c :: cs, h =>
      simp only [OkCh] at h
      simp [ih h.2]
    | [], h => simp [OkCh] at h

theorem OkCh_append {lo mid hi : Double} {kseg ks : List Double} {cseg cs : List BTreeNode}
    (h1 : OkCh lo mid kseg cseg) (h2 : OkCh mid hi ks cs) :
    OkCh lo hi (kseg ++ mid :: ks) (cseg ++ cs) := by
  induction kseg generalizing lo cseg with
  | nil =>
    match cseg, h1 with
    | [c], h1 =>
      simp only [OkCh] at h1
      simp only [List.nil_append, List.singleton_append, OkCh]
      exact ⟨h1, h2⟩
    | [], h1 => simp [OkCh] at h1
    | _ :: _ :: _, h1 => simp [OkCh] at h1
  | cons k kseg ih =>
    match cseg, h1 with
    | c :: cseg, h1 =>
      simp only [OkCh] at h1
      simp only [List.cons_append, OkCh]
      exact ⟨h1.1, ih h1.2⟩
    | [], h1 => simp [OkCh] at h1

end BTreeNode

namespace BTreeNode

theorem OkCh_at {lo hi : Double} {ks : List Double} {cs : List BTreeNode} (i : Nat)
    (h : OkCh lo hi ks cs) (hi' : i ≤ ks.length) :
    ∃ c, cs[i]? = some c ∧ Ok 2 (lob lo ks i) (hib hi ks i) c := by
  induction ks generalizing lo cs i with
  | nil =>
    match cs, h with
    | [c], h =>
      cases i with
      | zero => exact ⟨c, by simp, by simpa [OkCh, lob, hib] using h⟩
      | succ j => simp at hi'
    | [], h => simp [OkCh] at h
    | _ :: _ :: _, h => simp [OkCh] at h
  | cons k ks ih =>
    match cs, h with
    | c :: cs, h =>
      simp only [OkCh] at h
      cases i with
      | zero => exact ⟨c, by simp, by simpa [lob, hib] using h.1⟩
      | succ j =>
        obtain ⟨c', hc', hok⟩ := ih j h.2 (by simpa using hi')
        exact ⟨c', by simpa using hc', by simpa [lob, hib] using hok⟩
    | [], h => simp [OkCh] at h

theorem OkCh_subst {lo hi : Double} {ks : List Double} {cs : List BTreeNode}
    (kseg : List Double) (cseg : List BTreeNode) (i : Nat)
    (h : OkCh lo hi ks cs) (hi' : i ≤ ks.length)
    (hs : OkCh (lob lo ks i) (hib hi ks i) kseg cseg) :
    OkCh lo hi (ks.take i ++ kseg ++ ks.drop i) (cs.take i ++ cseg ++ cs.drop (i + 1)) := by
  induction ks generalizing lo cs i with
  | nil =>
    match cs, h with
    | [c], h =>
      cases i with
      | zero => simpa [lob, hib] using hs
      | succ j => simp at hi'
    | [], h => simp [OkCh] at h
    | _ :: _ :: _, h => simp [OkCh] at h
  | cons k ks ih =>
    match cs, h with
    | c :: cs, h =>
      simp only [OkCh] at h
      cases i with
      | zero =>
        simp only [lob, hib] at hs
        simpa using OkCh_append hs h.2
      | succ j =>
        simp only [lob, hib] at hs
        simp only [List.take_succ_cons, List.drop_succ_cons, List.cons_append, OkCh]
        exact ⟨h.1, ih j h.2 (by simpa using hi') hs⟩
    | [], h => simp [OkCh] at h

theorem height_le_heightList {c : BTreeNode} {cs : List BTreeNode} (h : c ∈ cs) :
    c.height ≤ heightList cs := by
  induction cs with
  | nil => cases h
  | cons a cs ih =>
    simp only [heightList]
    rcases List.mem_cons.1 h with rfl | h
    · omega
    · have := ih h; omega

theorem heightList_le_of_subset {as bs : List BTreeNode} (h : ∀ c ∈ as, c ∈ bs) :
    heightList as ≤ heightList bs := by
  induction as with
  | nil => simp [heightList]
  | cons a as ih =>
    simp only [heightList]
    have h1 := height_le_heightList (h a (List.mem_cons_self _ _))
    have h2 := ih (fun c hc => h c (List.mem_cons_of_mem _ hc))
    omega

end BTreeNode

namespace Vector

theorem insert_eq {α : Type} (v : List α) (pos : Nat) (x : α) (h : pos ≤ v.length) :
    Vector.insert v pos x = v.take pos ++ x :: v.drop pos := by
  simp [Vector.insert, Nat.not_lt.2 h]

theorem modify_eq_take_drop {α : Type} (f : α → α) (l : List α) (i : Nat) (c : α)
    (h : l[i]? = some c) : List.modify f i l = l.take i ++ f c :: l.drop (i + 1) := by
  induction l generalizing i with
  | nil => simp at h
  | cons a l ih =>
    cases i with
    | zero =>
      simp only [List.getElem?_cons_zero, Option.some.injEq] at h
      simp [h]
    | succ j =>
      simp only [List.getElem?_cons_succ] at h
      simp [ih j h]

theorem set_insert_eq {α : Type} (l : List α) (i : Nat) (c y z : α) (h : l[i]? = some c) :
    Vector.insert (l.set i y) (i + 1) z = l.take i ++ [y, z] ++ l.drop (i + 1) := by
  have hlt : i < l.length := by
    rcases List.getElem?_eq_some.1 h with ⟨hlt, _⟩
    exact hlt
  rw [insert_eq _ _ _ (by simp; omega)]
  induction l generalizing i with
  | nil => simp at hlt
  | cons a l ih =>
    cases i with
    | zero => simp
    | succ j =>
      simp only [List.getElem?_cons_succ] at h
      have := ih j h (by simpa using hlt)
      simp only [List.set_cons_succ, List.take_succ_cons, List.drop_succ_cons,
        List.cons_append]
      rw [this]

end Vector

namespace BTreeIndex

open BTreeNode

theorem scan_down_cons_lt (key k : Double) (ks : List Double) (h : k.lt key = true)
    (hall : ∀ x ∈ ks, k.lt x = true) : scan_down (key :: ks) k = 0 := by
  have hnil : List.dropWhile (fun key => k.lt key) ks.reverse = [] :=
    List.dropWhile_eq_nil_iff.2 (fun x hx => hall x (List.mem_reverse.1 hx))
  simp [scan_down, List.dropWhile_append, hnil, List.dropWhile, h]

theorem scan_down_cons_not_lt (key k : Double) (ks : List Double) (h : k.lt key = false) :
    scan_down (key :: ks) k = scan_down ks k + 1 := by
  simp only [scan_down, List.reverse_cons, List.dropWhile_append]
  split
  · rename_i he
    have : List.dropWhile (fun key => k.lt key) ks.reverse = [] := by
      simpa using he
    simp [this, List.dropWhile, h]
  · simp

theorem scan_down_bounds {lo hi : Double} {keys : List Double} (k : Double)
    (hb : Between lo hi keys) (h1 : lo.le k = true) (h2 : k.le hi = true) :
    scan_down keys k ≤ keys.length
      ∧ (lob lo keys (scan_down keys k)).le k = true
      ∧ k.le (hib hi keys (scan_down keys k)) = true := by
  induction keys generalizing lo with
  | nil => exact ⟨by simp [scan_down], by simpa [scan_down, lob] using h1,
      by simpa [scan_down, hib] using h2⟩
  | cons key ks ih =>
    cases hlt : k.lt key with
    | true =>
      have hall : ∀ x ∈ ks, k.lt x = true := fun x hx =>
        Double.lt_of_lt_of_le hlt (Between_mem hb.2.2 x hx).1
      rw [scan_down_cons_lt key k ks hlt hall]
      exact ⟨Nat.zero_le _, by simpa [lob] using h1, by simpa [hib] using Double.le_of_lt hlt⟩
    | false =>
      rw [scan_down_cons_not_lt key k ks hlt]
      obtain ⟨i1, i2, i3⟩ := ih hb.2.2 (Double.le_of_not_lt hlt)
      exact ⟨by simpa using i1, by simpa [lob] using i2, by simpa [hib] using i3⟩

theorem splitChild_leaf (x : BTreeNode) (i : Nat) (k0 k1 k2 k3 k4 : Double)
    (i0 i1 i2 i3 i4 : List String) :
    splitChild 3 x i (BTreeNode.mk true [k0, k1, k2, k3, k4] [i0, i1, i2, i3, i4] [])
      = BTreeNode.mk x.leaf (Vector.insert x.keys i k2) (Vector.insert x.ids i [])
          (Vector.insert (x.children.set i (BTreeNode.mk true [k0, k1] [i0, i1] [])) (i + 1)
            (BTreeNode.mk true [k3, k4] [i3, i4] [])) := by
  rfl

theorem splitChild_inner (x : BTreeNode) (i : Nat) (k0 k1 k2 k3 k4 : Double)
    (i0 i1 i2 i3 i4 : List String) (c0 c1 c2 c3 c4 c5 : BTreeNode) :
    splitChild 3 x i
        (BTreeNode.mk false [k0, k1, k2, k3, k4] [i0, i1, i2, i3, i4] [c0, c1, c2, c3, c4, c5])
      = BTreeNode.mk x.leaf (Vector.insert x.keys i k2) (Vector.insert x.ids i [])
          (Vector.insert (x.children.set i (BTreeNode.mk false [k0, k1] [i0, i1] [c0, c1, c2])) (i + 1)
            (BTreeNode.mk false [k3, k4] [i3, i4] [c3, c4, c5])) := by
  rfl

end BTreeIndex

namespace BTreeIndex

open BTreeNode

theorem Ok_iff (m : Nat) (lo hi : Double) (leaf : Bool) (keys : List Double)
    (ids : List (List String)) (children : List BTreeNode) :
    Ok m lo hi (BTreeNode.mk leaf keys ids children)
      ↔ (m ≤ keys.length ∧ keys.length ≤ 5 ∧ ids.length = keys.length ∧ Between lo hi keys
        ∧ (leaf = true → children = [])
        ∧ (leaf = false → OkCh lo hi keys children)) := by
  simp only [Ok]

theorem OkCh_three (lo hi k0 k1 : Double) (c0 c1 c2 : BTreeNode) :
    OkCh lo hi [k0, k1] [c0, c1, c2] ↔ (Ok 2 lo k0 c0 ∧ Ok 2 k0 k1 c1 ∧ Ok 2 k1 hi c2) := by
  simp only [OkCh]

theorem split_full {b b' : Double} {c : BTreeNode} (hok : Ok 2 b b' c)
    (hfull : c.keys.length = 5) :
    ∃ k2 y1 z,
      (∀ (x : BTreeNode) (i : Nat), splitChild 3 x i c
        = BTreeNode.mk x.leaf (Vector.insert x.keys i k2) (Vector.insert x.ids i [])
            (Vector.insert (x.children.set i y1) (i + 1) z))
      ∧ Ok 2 b k2 y1 ∧ Ok 2 k2 b' z
      ∧ b.le k2 = true ∧ k2.le b' = true ∧ k2.is_fin = true
      ∧ y1.keys.length = 2 ∧ z.keys.length = 2
      ∧ y1.height ≤ c.height ∧ z.height ≤ c.height := by
  obtain ⟨cl, ckeys, cids, cch⟩ := c
  simp only [BTreeNode.keys] at hfull
  obtain ⟨_, _, hids, hbt, hleaf, hinner⟩ := (Ok_iff _ _ _ _ _ _ _).1 hok
  match ckeys, hfull, cids, hids, hbt, hinner with
  | [k0, k1, k2, k3, k4], _, [i0, i1, i2, i3, i4], _, hbt, hinner =>
    simp only [Between] at hbt
    obtain ⟨h0, f0, h1, f1, h2, f2, h3, f3, h4, f4, h5⟩ := hbt
    have hb2 : b.le k2 = true := Double.le_trans h0 (Double.le_trans h1 h2)
    have h2b : k2.le b' = true := Double.le_trans h3 (Double.le_trans h4 h5)
    cases cl with
    | true =>
      have hch : cch = [] := hleaf rfl
      subst hch
      refine ⟨k2, BTreeNode.mk true [k0, k1] [i0, i1] [],
        BTreeNode.mk true [k3, k4] [i3, i4] [], ?_, ?_, ?_, hb2, h2b, f2, rfl, rfl, ?_, ?_⟩
      · intro x i; exact splitChild_leaf x i k0 k1 k2 k3 k4 i0 i1 i2 i3 i4
      · refine (Ok_iff _ _ _ _ _ _ _).2 ⟨Nat.le_refl 2, by simp, rfl, ?_, fun _ => rfl, ?_⟩
        · simp only [Between]; exact ⟨h0, f0, h1, f1, h2⟩
        · intro h; cases h
      · refine (Ok_iff _ _ _ _ _ _ _).2 ⟨Nat.le_refl 2, by simp, rfl, ?_, fun _ => rfl, ?_⟩
        · simp only [Between]; exact ⟨h3, f3, h4, f4, h5⟩
        · intro h; cases h
      · simp [BTreeNode.height, heightList]
      · simp [BTreeNode.height, heightList]
    | false =>
      have hoc := hinner rfl
      match cch, hoc with
      | [c0, c1, c2, c3, c4, c5], hoc =>
        simp only [OkCh] at hoc
        obtain ⟨o0, o1, o2, o3, o4, o5⟩ := hoc
        refine ⟨k2, BTreeNode.mk false [k0, k1] [i0, i1] [c0, c1, c2],
          BTreeNode.mk false [k3, k4] [i3, i4] [c3, c4, c5], ?_, ?_, ?_, hb2, h2b, f2,
          rfl, rfl, ?_, ?_⟩
        · intro x i
          exact splitChild_inner x i k0 k1 k2 k3 k4 i0 i1 i2 i3 i4 c0 c1 c2 c3 c4 c5
        · refine (Ok_iff _ _ _ _ _ _ _).2 ⟨Nat.le_refl 2, by simp, rfl, ?_, ?_,
            fun _ => (OkCh_three _ _ _ _ _ _ _).2 ⟨o0, o1, o2⟩⟩
          · simp only [Between]; exact ⟨h0, f0, h1, f1, h2⟩
          · intro h; cases h
        · refine (Ok_iff _ _ _ _ _ _ _).2 ⟨Nat.le_refl 2, by simp, rfl, ?_, ?_,
            fun _ => (OkCh_three _ _ _ _ _ _ _).2 ⟨o3, o4, o5⟩⟩
          · simp only [Between]; exact ⟨h3, f3, h4, f4, h5⟩
          · intro h; cases h
        · simp only [BTreeNode.height, heightList]; omega
        · simp only [BTreeNode.height, heightList]; omega

end BTreeIndex

namespace BTreeIndex

open BTreeNode

theorem insertNonFull_leaf (fuel : Nat) (keys : List Double) (ids : List (List String))
    (children : List BTreeNode) (k : Double) (id : String) :
    insertNonFull 3 (fuel + 1) (BTreeNode.mk true keys ids children) k id
      = if scan_down keys k ≥ 1 ∧ Vector.index keys (scan_down keys k - 1) = k then
          BTreeNode.mk true keys
            (ids.modify (fun l => Vector.push_back l id) (scan_down keys k - 1)) children
        else
          BTreeNode.mk true (Vector.insert keys (scan_down keys k) k)
            (Vector.insert ids (scan_down keys k) [id]) children := rfl

theorem insertNonFull_inner (fuel : Nat) (keys : List Double) (ids : List (List String))
    (children : List BTreeNode) (k : Double) (id : String) :
    insertNonFull 3 (fuel + 1) (BTreeNode.mk false keys ids children) k id
      = if (Vector.index children (scan_down keys k)).keys.length = 5 then
          BTreeNode.mk
            (splitChild 3 (BTreeNode.mk false keys ids children) (scan_down keys k)
              (Vector.index children (scan_down keys k))).leaf
            (splitChild 3 (BTreeNode.mk false keys ids children) (scan_down keys k)
              (Vector.index children (scan_down keys k))).keys
            (splitChild 3 (BTreeNode.mk false keys ids children) (scan_down keys k)
              (Vector.index children (scan_down keys k))).ids
            ((splitChild 3 (BTreeNode.mk false keys ids children) (scan_down keys k)
              (Vector.index children (scan_down keys k))).children.modify
                (fun c => insertNonFull 3 fuel c k id)
                (if (Vector.index
                    (splitChild 3 (BTreeNode.mk false keys ids children) (scan_down keys k)
                      (Vector.index children (scan_down keys k))).keys
                    (scan_down keys k)).lt k
                  then scan_down keys k + 1 else scan_down keys k))
        else
          BTreeNode.mk false keys ids
            (children.modify (fun c => insertNonFull 3 fuel c k id) (scan_down keys k)) := rfl

theorem mem_all_ids_list {c : BTreeNode} {cs : List BTreeNode} (h : c ∈ cs) (id : String)
    (hid : id ∈ all_ids c) : id ∈ all_ids_list cs := by
  induction cs with
  | nil => cases h
  | cons a cs ih =>
    simp only [all_ids_list, List.mem_append]
    rcases List.mem_cons.1 h with rfl | h
    · exact Or.inl hid
    · exact Or.inr (ih h)

theorem modify_append_length {α : Type} (f : α → α) (l1 l2 : List α) (n : Nat) :
    List.modify f (l1.length + n) (l1 ++ l2) = l1 ++ List.modify f n l2 := by
  induction l1 with
  | nil => simp
  | cons a l1 ih =>
    have : (a :: l1).length + n = (l1.length + n) + 1 := by simp; omega
    rw [this, List.cons_append, List.modify_succ_cons, ih]
    rfl

theorem index_take_cons {α : Type} [Inhabited α] (l r : List α) (i : Nat) (a : α)
    (h : i ≤ l.length) : Vector.index (l.take i ++ a :: r) i = a := by
  have hl : (l.take i).length = i := by simp [h]
  simp only [Vector.index, List.getD_eq_getElem?_getD]
  rw [List.getElem?_append_right (by omega)]
  simp [hl]

theorem index_of_getElem? {α : Type} [Inhabited α] (l : List α) (i : Nat) (c : α)
    (h : l[i]? = some c) : Vector.index l i = c := by
  simp [Vector.index, List.getD_eq_getElem?_getD, h]

end BTreeIndex

namespace BTreeIndex

open BTreeNode

theorem insertNonFull_ok_leaf (fuel : Nat) (m : Nat) (lo hi k : Double) (id : String)
    (keys : List Double) (ids : List (List String)) (children : List BTreeNode)
    (hok : Ok m lo hi (BTreeNode.mk true keys ids children)) (hlen : keys.length < 5)
    (h1 : lo.le k = true) (h2 : k.le hi = true) (hf : k.is_fin = true) :
    Ok m lo hi (insertNonFull 3 (fuel + 1) (BTreeNode.mk true keys ids children) k id)
      ∧ id ∈ all_ids (insertNonFull 3 (fuel + 1) (BTreeNode.mk true keys ids children) k id) := by
  obtain ⟨hm, h5, hids, hbt, hleaf, hinner⟩ := (Ok_iff _ _ _ _ _ _ _).1 hok
  obtain ⟨hi1, hlob, hhib⟩ := scan_down_bounds k hbt h1 h2
  rw [insertNonFull_leaf]
  by_cases hdup : scan_down keys k ≥ 1 ∧ Vector.index keys (scan_down keys k - 1) = k
  · rw [if_pos hdup]
    have hlt : scan_down keys k - 1 < ids.length := by omega
    have hget : ids[scan_down keys k - 1]? = some (ids[scan_down keys k - 1]) :=
      List.getElem?_eq_getElem hlt
    constructor
    · exact (Ok_iff _ _ _ _ _ _ _).2 ⟨hm, h5, by rw [List.length_modify]; exact hids, hbt,
        hleaf, hinner⟩
    · simp only [all_ids, List.mem_append]
      left
      rw [Vector.modify_eq_take_drop _ _ _ _ hget, List.mem_flatten]
      exact ⟨Vector.push_back ids[scan_down keys k - 1] id, by simp,
        by simp [Vector.push_back]⟩
  · rw [if_neg hdup]
    rw [Vector.insert_eq _ _ _ hi1, Vector.insert_eq _ _ _ (by rw [hids]; exact hi1)]
    constructor
    · refine (Ok_iff _ _ _ _ _ _ _).2 ⟨?_, ?_, ?_, ?_, hleaf, ?_⟩
      · simp; omega
      · simp; omega
      · simp; omega
      · have := Between_subst [k] (scan_down keys k) hbt hi1
          (by simp only [Between]; exact ⟨hlob, hf, hhib⟩)
        simpa using this
      · intro h; cases h
    · simp only [all_ids, List.mem_append]
      left
      rw [List.mem_flatten]
      exact ⟨[id], by simp, by simp⟩

end BTreeIndex

namespace BTreeIndex

open BTreeNode

theorem length_take_cons_drop {α : Type} (l : List α) (i : Nat) (a : α)
    (h : i ≤ l.length) : (l.take i ++ a :: l.drop i).length = l.length + 1 := by
  simp only [List.length_append, List.length_take, List.length_cons, List.length_drop]
  omega

theorem Ok_keys_le {m : Nat} {lo hi : Double} {x : BTreeNode} (h : Ok m lo hi x) :
    x.keys.length ≤ 5 := by
  obtain ⟨leaf, keys, ids, children⟩ := x
  exact ((Ok_iff _ _ _ _ _ _ _).1 h).2.1

theorem OkCh_two (lo hi k : Double) (a b : BTreeNode) :
    OkCh lo hi [k] [a, b] ↔ (Ok 2 lo k a ∧ Ok 2 k hi b) := by
  simp only [OkCh]

theorem OkCh_one (lo hi : Double) (a : BTreeNode) : OkCh lo hi [] [a] ↔ Ok 2 lo hi a := by
  simp only [OkCh]

theorem insertNonFull_ok_inner (fuel : Nat)
    (ih : ∀ (x : BTreeNode) (m : Nat) (lo hi k : Double) (id : String),
      Ok m lo hi x → x.keys.length < 5 → lo.le k = true → k.le hi = true →
      k.is_fin = true → x.height ≤ fuel →
      Ok m lo hi (insertNonFull 3 fuel x k id) ∧ id ∈ all_ids (insertNonFull 3 fuel x k id))
    (m : Nat) (lo hi k : Double) (id : String)
    (keys : List Double) (ids : List (List String)) (children : List BTreeNode)
    (hok : Ok m lo hi (BTreeNode.mk false keys ids children)) (hlen : keys.length < 5)
    (h1 : lo.le k = true) (h2 : k.le hi = true) (hf : k.is_fin = true)
    (hh : (BTreeNode.mk false keys ids children).height ≤ fuel + 1) :
    Ok m lo hi (insertNonFull 3 (fuel + 1) (BTreeNode.mk false keys ids children) k id)
      ∧ id ∈ all_ids
        (insertNonFull 3 (fuel + 1) (BTreeNode.mk false keys ids children) k id) := by
  obtain ⟨hm, h5, hids, hbt, hleaf, hinner⟩ := (Ok_iff _ _ _ _ _ _ _).1 hok
  have hoc := hinner rfl
  obtain ⟨hi1, hlob, hhib⟩ := scan_down_bounds k hbt h1 h2
  obtain ⟨c, hc, hcok⟩ := OkCh_at (scan_down keys k) hoc hi1
  have hidx := index_of_getElem? children _ c hc
  have hcmem : c ∈ children := List.mem_iff_getElem?.2 ⟨_, hc⟩
  have hch : c.height ≤ fuel := by
    simp only [BTreeNode.height] at hh
    have := height_le_heightList hcmem
    omega
  have hclen := OkCh_length hoc
  have hlenT : (children.take (scan_down keys k)).length = scan_down keys k := by
    simp; omega
  rw [insertNonFull_inner, hidx]
  by_cases hfull : c.keys.length = 5
  · rw [if_pos hfull]
    obtain ⟨k2, y1, z, hsplit, hy, hz, hbk, hkb, hk2f, hy2, hz2, hyh, hzh⟩ :=
      split_full hcok hfull
    rw [hsplit]
    simp only [BTreeNode.leaf, BTreeNode.keys, BTreeNode.ids, BTreeNode.children]
    simp only [Vector.insert_eq keys (scan_down keys k) k2 hi1, index_take_cons _ _ _ _ hi1,
      Vector.set_insert_eq children _ c y1 z hc,
      Vector.insert_eq ids (scan_down keys k) [] (by rw [hids]; exact hi1)]
    have hkl := length_take_cons_drop keys (scan_down keys k) k2 hi1
    have hil := length_take_cons_drop ids (scan_down keys k) [] (by rw [hids]; exact hi1)
    have hkeys : Between lo hi
        (keys.take (scan_down keys k) ++ k2 :: keys.drop (scan_down keys k)) := by
      have := Between_subst [k2] (scan_down keys k) hbt hi1
        (by simp only [Between]; exact ⟨hbk, hk2f, hkb⟩)
      simpa using this
    by_cases hlt : k2.lt k = true
    · rw [if_pos hlt]
      obtain ⟨hz', hidz⟩ := ih z 2 k2 _ k id hz (by omega) (Double.le_of_lt hlt) hhib hf
        (by omega)
      have hmod : List.modify (fun c => insertNonFull 3 fuel c k id) (scan_down keys k + 1)
          (children.take (scan_down keys k) ++ [y1, z]
            ++ children.drop (scan_down keys k + 1))
          = children.take (scan_down keys k) ++ [y1, insertNonFull 3 fuel z k id]
            ++ children.drop (scan_down keys k + 1) := by
        have := modify_append_length (fun c => insertNonFull 3 fuel c k id)
          (children.take (scan_down keys k))
          ([y1, z] ++ children.drop (scan_down keys k + 1)) 1
        rw [hlenT] at this
        simpa [List.append_assoc] using this
      rw [hmod]
      constructor
      · refine (Ok_iff _ _ _ _ _ _ _).2 ⟨by omega, by omega, by omega,
          hkeys, (fun h => by cases h), fun _ => ?_⟩
        have := OkCh_subst [k2] [y1, insertNonFull 3 fuel z k id] (scan_down keys k) hoc hi1
          ((OkCh_two _ _ _ _ _).2 ⟨hy, hz'⟩)
        simpa using this
      · simp only [all_ids, List.mem_append]
        right
        exact mem_all_ids_list (by simp) id hidz
    · rw [if_neg hlt]
      have hlt' : k2.lt k = false := by
        cases hx : k2.lt k
        · rfl
        · exact absurd hx hlt
      obtain ⟨hy', hidy⟩ := ih y1 2 _ k2 k id hy (by omega) hlob (Double.le_of_not_lt hlt') hf
        (by omega)
      have hmod : List.modify (fun c => insertNonFull 3 fuel c k id) (scan_down keys k)
          (children.take (scan_down keys k) ++ [y1, z]
            ++ children.drop (scan_down keys k + 1))
          = children.take (scan_down keys k) ++ [insertNonFull 3 fuel y1 k id, z]
            ++ children.drop (scan_down keys k + 1) := by
        have := modify_append_length (fun c => insertNonFull 3 fuel c k id)
          (children.take (scan_down keys k))
          ([y1, z] ++ children.drop (scan_down keys k + 1)) 0
        rw [hlenT] at this
        simpa [List.append_assoc] using this
      rw [hmod]
      constructor
      · refine (Ok_iff _ _ _ _ _ _ _).2 ⟨by omega, by omega, by omega,
          hkeys, (fun h => by cases h), fun _ => ?_⟩
        have := OkCh_subst [k2] [insertNonFull 3 fuel y1 k id, z] (scan_down keys k) hoc hi1
          ((OkCh_two _ _ _ _ _).2 ⟨hy', hz⟩)
        simpa using this
      · simp only [all_ids, List.mem_append]
        right
        exact mem_all_ids_list (by simp) id hidy
  · rw [if_neg hfull]
    rw [Vector.modify_eq_take_drop _ _ _ _ hc]
    have hc5 := Ok_keys_le hcok
    obtain ⟨hc', hidc⟩ := ih c 2 _ _ k id hcok (by omega) hlob hhib hf hch
    constructor
    · refine (Ok_iff _ _ _ _ _ _ _).2 ⟨hm, h5, hids, hbt, (fun h => by cases h), fun _ => ?_⟩
      have := OkCh_subst [] [insertNonFull 3 fuel c k id] (scan_down keys k) hoc hi1
        ((OkCh_one _ _ _).2 hc')
      simpa using this
    · simp only [all_ids, List.mem_append]
      right
      exact mem_all_ids_list (by simp) id hidc

end BTreeIndex

namespace BTreeIndex

open BTreeNode

theorem insertNonFull_ok (fuel : Nat) :
    ∀ (x : BTreeNode) (m : Nat) (lo hi k : Double) (id : String),
      Ok m lo hi x → x.keys.length < 5 → lo.le k = true → k.le hi = true →
      k.is_fin = true → x.height ≤ fuel →
      Ok m lo hi (insertNonFull 3 fuel x k id)
        ∧ id ∈ all_ids (insertNonFull 3 fuel x k id) := by
  induction fuel with
  | zero =>
    intro x m lo hi k id _ _ _ _ _ hh
    obtain ⟨leaf, keys, ids, children⟩ := x
    simp [BTreeNode.height] at hh
  | succ fuel ih =>
    intro x m lo hi k id hok hlen h1 h2 hf hh
    obtain ⟨leaf, keys, ids, children⟩ := x
    cases leaf with
    | true => exact insertNonFull_ok_leaf fuel m lo hi k id keys ids children hok hlen h1 h2 hf
    | false =>
      exact insertNonFull_ok_inner fuel ih m lo hi k id keys ids children hok hlen h1 h2 hf hh

theorem Ok_min {m m' : Nat} {lo hi : Double} {x : BTreeNode} (h : Ok m lo hi x)
    (hm : m' ≤ x.keys.length) : Ok m' lo hi x := by
  obtain ⟨leaf, keys, ids, children⟩ := x
  obtain ⟨_, h5, hids, hbt, hleaf, hinner⟩ := (Ok_iff _ _ _ _ _ _ _).1 h
  exact (Ok_iff _ _ _ _ _ _ _).2 ⟨hm, h5, hids, hbt, hleaf, hinner⟩

theorem insert_ok (bt : BTreeIndex) (key : Double) (id : String) (ht : bt.t = 3)
    (hok : Ok 0 Double.negInf Double.posInf bt.root) (hf : key.is_fin = true) :
    (bt.insert key id).t = 3
      ∧ Ok 0 Double.negInf Double.posInf (bt.insert key id).root
      ∧ id ∈ all_ids (bt.insert key id).root := by
  obtain ⟨t, root⟩ := bt
  simp only at ht hok
  subst ht
  refine ⟨rfl, ?_⟩
  simp only [insert]
  by_cases hfull : root.keys.length = 2 * 3 - 1
  · rw [if_pos hfull]
    obtain ⟨k2, y1, z, hsplit, hy, hz, hbk, hkb, hk2f, hy2, hz2, hyh, hzh⟩ :=
      split_full (Ok_min hok (by omega)) hfull
    rw [hsplit]
    have hroot1 : Ok 0 Double.negInf Double.posInf
        (BTreeNode.mk false [k2] [[]] [y1, z]) := by
      refine (Ok_iff _ _ _ _ _ _ _).2 ⟨Nat.zero_le _, by simp, rfl, ?_,
        (fun h => by cases h), fun _ => (OkCh_two _ _ _ _ _).2 ⟨hy, hz⟩⟩
      simp only [Between]
      exact ⟨hbk, hk2f, hkb⟩
    exact insertNonFull_ok _ _ 0 _ _ key id hroot1 (by simp [BTreeNode.keys, Vector.insert])
      (Double.negInf_le _) (Double.le_posInf _) hf (Nat.le_refl _)
  · rw [if_neg hfull]
    have := Ok_keys_le hok
    exact insertNonFull_ok _ _ 0 _ _ key id hok (by omega)
      (Double.negInf_le _) (Double.le_posInf _) hf (Nat.le_refl _)

theorem foldl_insert_ok (calls : List (Int × String)) (bt : BTreeIndex) (ht : bt.t = 3)
    (hok : Ok 0 Double.negInf Double.posInf bt.root) :
    (calls.foldl (fun bt p => bt.insert (Double.fin p.1) p.2) bt).t = 3
      ∧ Ok 0 Double.negInf Double.posInf
        (calls.foldl (fun bt p => bt.insert (Double.fin p.1) p.2) bt).root := by
  induction calls generalizing bt with
  | nil => exact ⟨ht, hok⟩
  | cons p calls ih =>
    rw [List.foldl_cons]
    obtain ⟨h1, h2, _⟩ := insert_ok bt (Double.fin p.1) p.2 ht hok rfl
    exact ih _ h1 h2

theorem build_ok (calls : List (Int × String)) :
    (build calls).t = 3 ∧ Ok 0 Double.negInf Double.posInf (build calls).root := by
  refine foldl_insert_ok calls BTreeIndex.new rfl ?_
  refine (Ok_iff _ _ _ _ _ _ _).2 ⟨Nat.le_refl _, by simp, rfl, ?_, fun _ => rfl,
    (fun h => by cases h)⟩
  simp only [Between]
  rfl

end BTreeIndex

namespace BTreeIndex

open BTreeNode

theorem Between_chain {lo hi : Double} {ks : List Double} (h : Between lo hi ks) :
    List.Chain' (fun a b => Double.le a b = true) ks := by
  induction ks generalizing lo with
  | nil => exact List.chain'_nil
  | cons a rest ih =>
    cases rest with
    | nil => exact List.chain'_singleton a
    | cons b r => exact List.chain'_cons.2 ⟨h.2.2.1, ih h.2.2⟩

theorem nodes_eq (x : BTreeNode) : nodes x = x :: nodes_list x.children := by
  cases x; rfl

theorem Ok_well_shaped {m : Nat} {lo hi : Double} {x : BTreeNode} (h : Ok m lo hi x) :
    well_shaped 3 x ∧ m ≤ x.keys.length := by
  obtain ⟨leaf, keys, ids, children⟩ := x
  obtain ⟨hm, h5, hids, hbt, hleaf, hinner⟩ := (Ok_iff _ _ _ _ _ _ _).1 h
  exact ⟨⟨h5, hids, fun hl => OkCh_length (hinner hl), Between_chain hbt⟩, hm⟩

mutual
theorem Ok_nodes : ∀ (x : BTreeNode) (m : Nat) (lo hi : Double), Ok m lo hi x →
    ∀ n ∈ nodes_list x.children, well_shaped 3 n ∧ 2 ≤ n.keys.length
  | BTreeNode.mk leaf keys ids children, m, lo, hi, h => by
    obtain ⟨_, _, _, _, hleaf, hinner⟩ := (Ok_iff _ _ _ _ _ _ _).1 h
    cases leaf with
    | true =>
      rw [BTreeNode.children, hleaf rfl]
      intro n hn
      simp [nodes_list] at hn
    | false => exact OkCh_nodes children keys lo hi (hinner rfl)
theorem OkCh_nodes : ∀ (cs : List BTreeNode) (ks : List Double) (lo hi : Double),
    OkCh lo hi ks cs → ∀ n ∈ nodes_list cs, well_shaped 3 n ∧ 2 ≤ n.keys.length
  | [], _, _, _, _ => by
    intro n hn
    simp [nodes_list] at hn
  | c :: cs, [], lo, hi, h => by
    match cs, h with
    | [], h =>
      have hc := (OkCh_one _ _ _).1 h
      intro n hn
      simp only [nodes_list, List.append_nil, nodes_eq, List.mem_cons] at hn
      rcases hn with rfl | hn
      · exact Ok_well_shaped hc
      · exact Ok_nodes c 2 lo hi hc n hn
    | _ :: _, h => simp [OkCh] at h
  | c :: cs, k :: ks, lo, hi, h => by
    simp only [OkCh] at h
    intro n hn
    simp only [nodes_list, nodes_eq, List.mem_append, List.mem_cons] at hn
    rcases hn with (rfl | hn) | hn
    · exact Ok_well_shaped h.1
    · exact Ok_nodes c 2 lo k h.1 n hn
    · exact OkCh_nodes cs ks k hi h.2 n hn
end

end BTreeIndex

/-- C24. After any sequence of inserts (of finite keys) into a fresh
`BTreeIndex`, the minimum degree `t` is 3, every node holds at most `2t - 1`
keys, as many id lists as keys and, unless it is a leaf, one child more than
keys, the keys of every node ascend, and every node but the root holds at
least `t - 1` keys. Every further insert reaches a leaf: its id is in the
tree afterwards. -/
theorem c24_btree_structure (calls : List (Int × String)) :
    (BTreeIndex.build calls).t = 3
      ∧ (∀ n ∈ (BTreeIndex.build calls).root.nodes,
          BTreeNode.well_shaped (BTreeIndex.build calls).t n)
      ∧ (∀ n ∈ BTreeNode.nodes_list (BTreeIndex.build calls).root.children,
          (BTreeIndex.build calls).t - 1 ≤ n.keys.length)
      ∧ (∀ (key : Int) (id : String),
          id ∈ ((BTreeIndex.build calls).insert (Double.fin key) id).root.all_ids) := by
  obtain ⟨ht, hok⟩ := BTreeIndex.build_ok calls
  refine ⟨ht, ?_, ?_, fun key id => (BTreeIndex.insert_ok _ (Double.fin key) id ht hok rfl).2.2⟩
  · rw [ht]
    intro n hn
    rw [BTreeIndex.nodes_eq, List.mem_cons] at hn
    rcases hn with rfl | hn
    · exact (BTreeIndex.Ok_well_shaped hok).1
    · exact (BTreeIndex.Ok_nodes _ _ _ _ hok n hn).1
  · rw [ht]
    intro n hn
    exact (BTreeIndex.Ok_nodes _ _ _ _ hok n hn).2

namespace BTreeIndex

open BTreeNode

theorem OkCh_le : ∀ (ks : List Double) (cs : List BTreeNode) (lo hi : Double),
    OkCh lo hi ks cs → lo.le hi = true
  | [], [c], lo, hi, h => by
    obtain ⟨leaf, keys, ids, children⟩ := c
    exact Between_le ((Ok_iff _ _ _ _ _ _ _).1 ((OkCh_one _ _ _).1 h)).2.2.2.1
  | [], [], _, _, h => by simp [OkCh] at h
  | [], _ :: _ :: _, _, _, h => by simp [OkCh] at h
  | k :: ks, c :: cs, lo, hi, h => by
    simp only [OkCh] at h
    obtain ⟨leaf, keys, ids, children⟩ := c
    exact Double.le_trans (Between_le ((Ok_iff _ _ _ _ _ _ _).1 h.1).2.2.2.1)
      (OkCh_le ks cs k hi h.2)
  | _ :: _, [], _, _, h => by simp [OkCh] at h

mutual
theorem Ok_all_keys : ∀ (x : BTreeNode) (m : Nat) (lo hi : Double), Ok m lo hi x →
    ∀ key ∈ all_keys x, lo.le key = true ∧ key.le hi = true
  | BTreeNode.mk leaf keys ids children, m, lo, hi, h => by
    obtain ⟨_, _, _, hbt, hleaf, hinner⟩ := (Ok_iff _ _ _ _ _ _ _).1 h
    intro key hk
    simp only [all_keys, List.mem_append] at hk
    rcases hk with hk | hk
    · exact ⟨(Between_mem hbt key hk).1, (Between_mem hbt key hk).2.1⟩
    · cases leaf with
      | true =>
        rw [hleaf rfl] at hk
        simp [all_keys_list] at hk
      | false => exact OkCh_all_keys children keys lo hi (hinner rfl) key hk
theorem OkCh_all_keys : ∀ (cs : List BTreeNode) (ks : List Double) (lo hi : Double),
    OkCh lo hi ks cs → ∀ key ∈ all_keys_list cs, lo.le key = true ∧ key.le hi = true
  | [], _, _, _, _ => by
    intro key hk
    simp [all_keys_list] at hk
  | c :: cs, [], lo, hi, h => by
    match cs, h with
    | [], h =>
      intro key hk
      simp only [all_keys_list, List.append_nil] at hk
      exact Ok_all_keys c 2 lo hi ((OkCh_one _ _ _).1 h) key hk
    | _ :: _, h => simp [OkCh] at h
  | c :: cs, k :: ks, lo, hi, h => by
    simp only [OkCh] at h
    have hlk : lo.le k = true := by
      obtain ⟨leaf, keys, ids, children⟩ := c
      exact Between_le ((Ok_iff _ _ _ _ _ _ _).1 h.1).2.2.2.1
    have hkh : k.le hi = true := OkCh_le ks cs k hi h.2
    intro key hk
    simp only [all_keys_list, List.mem_append] at hk
    rcases hk with hk | hk
    · obtain ⟨a, b⟩ := Ok_all_keys c 2 lo k h.1 key hk
      exact ⟨a, Double.le_trans b hkh⟩
    · obtain ⟨a, b⟩ := OkCh_all_keys cs ks k hi h.2 key hk
      exact ⟨Double.le_trans hlk a, b⟩
end

mutual
theorem Ok_nodes_ok : ∀ (x : BTreeNode) (m : Nat) (lo hi : Double), Ok m lo hi x →
    ∀ n ∈ nodes x, ∃ m' lo' hi', Ok m' lo' hi' n
  | BTreeNode.mk leaf keys ids children, m, lo, hi, h => by
    obtain ⟨_, _, _, _, hleaf, hinner⟩ := (Ok_iff _ _ _ _ _ _ _).1 h
    intro n hn
    simp only [nodes, List.mem_cons] at hn
    rcases hn with rfl | hn
    · exact ⟨m, lo, hi, h⟩
    · cases leaf with
      | true =>
        rw [hleaf rfl] at hn
        simp [nodes_list] at hn
      | false => exact OkCh_nodes_ok children keys lo hi (hinner rfl) n hn
theorem OkCh_nodes_ok : ∀ (cs : List BTreeNode) (ks : List Double) (lo hi : Double),
    OkCh lo hi ks cs → ∀ n ∈ nodes_list cs, ∃ m' lo' hi', Ok m' lo' hi' n
  | [], _, _, _, _ => by
    intro n hn
    simp [nodes_list] at hn
  | c :: cs, [], lo, hi, h => by
    match cs, h with
    | [], h =>
      intro n hn
      simp only [nodes_list, List.append_nil] at hn
      exact Ok_nodes_ok c 2 lo hi ((OkCh_one _ _ _).1 h) n hn
    | _ :: _, h => simp [OkCh] at h
  | c :: cs, k :: ks, lo, hi, h => by
    simp only [OkCh] at h
    intro n hn
    simp only [nodes_list, List.mem_append] at hn
    rcases hn with hn | hn
    · exact Ok_nodes_ok c 2 lo k h.1 n hn
    · exact OkCh_nodes_ok cs ks k hi h.2 n hn
end

theorem hib_eq_index (hi : Double) (ks : List Double) (i : Nat) (h : i < ks.length) :
    hib hi ks i = Vector.index ks i := by
  induction ks generalizing i with
  | nil => simp at h
  | cons k ks ih =>
    cases i with
    | zero => simp [hib, Vector.index]
    | succ j =>
      have := ih j (by simpa using h)
      simpa [hib, Vector.index] using this

theorem lob_succ_eq_index (lo : Double) (ks : List Double) (i : Nat) (h : i < ks.length) :
    lob lo ks (i + 1) = Vector.index ks i := by
  induction ks generalizing lo i with
  | nil => simp at h
  | cons k ks ih =>
    cases i with
    | zero => simp [lob, Vector.index]
    | succ j =>
      have := ih k j (by simpa using h)
      simpa [lob, Vector.index] using this

end BTreeIndex

namespace BTreeIndex

open BTreeNode

theorem Between_pairwise {lo hi : Double} {ks : List Double} (h : Between lo hi ks) :
    List.Pairwise (fun a b => Double.le a b = true) ks := by
  induction ks generalizing lo with
  | nil => exact List.Pairwise.nil
  | cons a rest ih =>
    exact List.Pairwise.cons (fun b hb => (Between_mem h.2.2 b hb).1) (ih h.2.2)

mutual
theorem Ok_inorder : ∀ (x : BTreeNode) (m : Nat) (lo hi : Double), Ok m lo hi x →
    List.Pairwise (fun a b => Double.le a b = true) (inorder_keys x)
      ∧ ∀ key ∈ inorder_keys x, lo.le key = true ∧ key.le hi = true
  | BTreeNode.mk leaf keys ids children, m, lo, hi, h => by
    obtain ⟨_, _, _, hbt, hleaf, hinner⟩ := (Ok_iff _ _ _ _ _ _ _).1 h
    cases leaf with
    | true =>
      simp only [inorder_keys, if_true]
      exact ⟨Between_pairwise hbt,
        fun key hk => ⟨(Between_mem hbt key hk).1, (Between_mem hbt key hk).2.1⟩⟩
    | false =>
      simp only [inorder_keys, Bool.false_eq_true, if_false]
      exact OkCh_inorder children keys lo hi (hinner rfl)
theorem OkCh_inorder : ∀ (cs : List BTreeNode) (ks : List Double) (lo hi : Double),
    OkCh lo hi ks cs →
    List.Pairwise (fun a b => Double.le a b = true) (inorder_loop cs ks)
      ∧ ∀ key ∈ inorder_loop cs ks, lo.le key = true ∧ key.le hi = true
  | [], ks, _, _, h => by
    cases ks <;> simp [OkCh] at h
  | c :: cs, [], lo, hi, h => by
    match cs, h with
    | [], h =>
      simp only [inorder_loop]
      exact Ok_inorder c 2 lo hi ((OkCh_one _ _ _).1 h)
    | _ :: _, h => simp [OkCh] at h
  | c :: cs, k :: ks, lo, hi, h => by
    simp only [OkCh] at h
    have hlk : lo.le k = true := by
      obtain ⟨leaf, keys, ids, children⟩ := c
      exact Between_le ((Ok_iff _ _ _ _ _ _ _).1 h.1).2.2.2.1
    have hkh : k.le hi = true := OkCh_le ks cs k hi h.2
    obtain ⟨p1, b1⟩ := Ok_inorder c 2 lo k h.1
    obtain ⟨p2, b2⟩ := OkCh_inorder cs ks k hi h.2
    simp only [inorder_loop]
    refine ⟨List.pairwise_append.2 ⟨p1, List.Pairwise.cons (fun b hb => (b2 b hb).1) p2, ?_⟩, ?_⟩
    · intro a ha b hb
      rcases List.mem_cons.1 hb with rfl | hb
      · exact (b1 a ha).2
      · exact Double.le_trans (b1 a ha).2 (b2 b hb).1
    · intro key hk
      rcases List.mem_append.1 hk with hk | hk
      · exact ⟨(b1 key hk).1, Double.le_trans (b1 key hk).2 hkh⟩
      · rcases List.mem_cons.1 hk with rfl | hk
        · exact ⟨hlk, hkh⟩
        · exact ⟨Double.le_trans hlk (b2 key hk).1, (b2 key hk).2⟩
end

theorem Ok_child_order {m : Nat} {lo hi : Double} {n : BTreeNode} (h : Ok m lo hi n)
    (hleaf : n.leaf = false) (i : Nat) (hi' : i < n.keys.length) :
    (∀ key ∈ all_keys (Vector.index n.children i),
        key.le (Vector.index n.keys i) = true)
      ∧ (∀ key ∈ all_keys (Vector.index n.children (i + 1)),
        (Vector.index n.keys i).le key = true) := by
  obtain ⟨leaf, keys, ids, children⟩ := n
  simp only [BTreeNode.leaf] at hleaf
  simp only [BTreeNode.keys] at hi'
  simp only [BTreeNode.keys, BTreeNode.children]
  have hch := ((Ok_iff _ _ _ _ _ _ _).1 h).2.2.2.2.2 hleaf
  obtain ⟨c0, hc0, hok0⟩ := OkCh_at i hch (Nat.le_of_lt hi')
  obtain ⟨c1, hc1, hok1⟩ := OkCh_at (i + 1) hch hi'
  have e0 : Vector.index children i = c0 := by simp [Vector.index, hc0]
  have e1 : Vector.index children (i + 1) = c1 := by simp [Vector.index, hc1]
  rw [e0, e1, ← hib_eq_index hi keys i hi']
  refine ⟨fun key hk => (Ok_all_keys c0 2 _ _ hok0 key hk).2, fun key hk => ?_⟩
  have := (Ok_all_keys c1 2 _ _ hok1 key hk).1
  rw [lob_succ_eq_index lo keys i hi', ← hib_eq_index hi keys i hi'] at this
  exact this

end BTreeIndex

/-- C26. After any sequence of inserts into a fresh `BTreeIndex`, in every
node that is not a leaf and for every key position `i`, every key stored in
the subtree `children[i]` is at most `keys[i]` and every key stored in the
subtree `children[i + 1]` is at least `keys[i]`; the walk of the tree in order
(child, key, child, …) meets the keys in non-decreasing order. After the six
inserts of the keys 1 to 6 the root is not a leaf and the walk is 1, …, 6. -/
theorem c26_search_tree_order (calls : List (Int × String)) :
    (∀ n ∈ (BTreeIndex.build calls).root.nodes, n.leaf = false →
        ∀ i, i < n.keys.length →
          (∀ key ∈ (Vector.index n.children i).all_keys,
              key.le (Vector.index n.keys i) = true)
            ∧ (∀ key ∈ (Vector.index n.children (i + 1)).all_keys,
              (Vector.index n.keys i).le key = true))
      ∧ List.Pairwise (fun a b => Double.le a b = true)
          (BTreeIndex.build calls).root.inorder_keys
      ∧ (BTreeIndex.build six_inserts).root.leaf = false
      ∧ (BTreeIndex.build six_inserts).root.inorder_keys
          = [.fin 1, .fin 2, .fin 3, .fin 4, .fin 5, .fin 6] := by
  obtain ⟨_, hok⟩ := BTreeIndex.build_ok calls
  refine ⟨?_, (BTreeIndex.Ok_inorder _ _ _ _ hok).1, by decide, by decide⟩
  intro n hn hleaf i hi
  obtain ⟨m', lo', hi', hn'⟩ := BTreeIndex.Ok_nodes_ok _ _ _ _ hok n hn
  exact BTreeIndex.Ok_child_order hn' hleaf i hi

theorem convert_all_doubles (keys : List Double) (h : ∀ k ∈ keys, k.is_fin = true) :
    convert_all Json.get_double (keys.map json_of_double) = some keys := by
  induction keys with
  | nil => rfl
  | cons k ks ih =>
    have hk := h k (List.mem_cons_self k ks)
    have ih' := ih (fun a ha => h a (List.mem_cons_of_mem k ha))
    cases k with
    | fin v =>
      simp only [List.map, convert_all, json_of_double, Json.get_double, ih']
    | negInf => simp [Double.is_fin] at hk
    | posInf => simp [Double.is_fin] at hk

theorem convert_all_strings (l : List String) :
    convert_all Json.get_string (l.map Json.str) = some l := by
  induction l with
  | nil => rfl
  | cons s l ih => simp only [List.map, convert_all, Json.get_string, ih]

theorem convert_all_id_lists (ids : List (List String)) :
    convert_all json_to_string_vector (ids.map json_of_strings) = some ids := by
  induction ids with
  | nil => rfl
  | cons l ids ih =>
    simp only [List.map, convert_all, json_to_string_vector, json_of_strings, Json.iter_values,
      convert_all_strings, ih]

namespace BTreeIndex

open BTreeNode

theorem to_json_node_leaf (keys : List Double) (ids : List (List String))
    (children : List BTreeNode) :
    to_json_node (BTreeNode.mk true keys ids children)
      = .obj [("ids", .arr (ids.map json_of_strings)),
          ("keys", .arr (keys.map json_of_double)), ("leaf", .bool true)] := by
  rw [to_json_node]
  rfl

theorem to_json_node_inner (keys : List Double) (ids : List (List String))
    (children : List BTreeNode) :
    to_json_node (BTreeNode.mk false keys ids children)
      = .obj [("children", .arr (to_json_nodes children)),
          ("ids", .arr (ids.map json_of_strings)),
          ("keys", .arr (keys.map json_of_double)), ("leaf", .bool false)] := by
  rw [to_json_node]
  rfl

end BTreeIndex
namespace BTreeIndex

open BTreeNode

theorem load_node_leaf (keys : List Double) (ids : List (List String))
    (hk : ∀ k ∈ keys, k.is_fin = true) :
    load_node (.obj [("ids", .arr (ids.map json_of_strings)),
        ("keys", .arr (keys.map json_of_double)), ("leaf", .bool true)])
      = some (BTreeNode.mk true keys ids []) := by
  simp [load_node, Json.lookup, Json.get_bool, json_to_vector_double, Json.iter_values,
    convert_all_doubles keys hk, convert_all_id_lists]

theorem load_node_inner (keys : List Double) (ids : List (List String)) (js : List Json)
    (children : List BTreeNode) (hk : ∀ k ∈ keys, k.is_fin = true)
    (hc : load_nodes js = some children) :
    load_node (.obj [("children", .arr js), ("ids", .arr (ids.map json_of_strings)),
        ("keys", .arr (keys.map json_of_double)), ("leaf", .bool false)])
      = some (BTreeNode.mk false keys ids children) := by
  simp [load_node, load_children, Json.lookup, Json.get_bool, json_to_vector_double,
    Json.iter_values, convert_all_doubles keys hk, convert_all_id_lists, hc]

mutual
theorem load_to_json_node : ∀ (x : BTreeNode) (m : Nat) (lo hi : Double), Ok m lo hi x →
    load_node (to_json_node x) = some x
  | BTreeNode.mk leaf keys ids children, m, lo, hi, h => by
    obtain ⟨_, _, _, hbt, hleaf, hinner⟩ := (Ok_iff _ _ _ _ _ _ _).1 h
    have hk : ∀ k ∈ keys, k.is_fin = true := fun k hk => (Between_mem hbt k hk).2.2
    cases leaf with
    | true =>
      rw [to_json_node_leaf, load_node_leaf keys ids hk, hleaf rfl]
    | false =>
      rw [to_json_node_inner]
      exact load_node_inner keys ids _ children hk
        (load_to_json_nodes children keys lo hi (hinner rfl))
theorem load_to_json_nodes : ∀ (cs : List BTreeNode) (ks : List Double) (lo hi : Double),
    OkCh lo hi ks cs → load_nodes (to_json_nodes cs) = some cs
  | [], _, _, _, _ => by simp [to_json_nodes, load_nodes]
  | c :: cs, [], lo, hi, h => by
    match cs, h with
    | [], h =>
      simp only [to_json_nodes, load_nodes,
        load_to_json_node c 2 lo hi ((OkCh_one _ _ _).1 h)]
    | _ :: _, h => simp [OkCh] at h
  | c :: cs, k :: ks, lo, hi, h => by
    simp only [OkCh] at h
    simp only [to_json_nodes, load_nodes, load_to_json_node c 2 lo k h.1,
      load_to_json_nodes cs ks k hi h.2]
end

end BTreeIndex

/-- C28. For every tree `T` built by a sequence of inserts, `from_json` on a
fresh `BTreeIndex` given `T.to_json()` yields the tree `T` itself: the same
leaf flags, keys, id lists and children in every node, hence the same
answers from `search` and `rangeSearch` for all arguments. -/
theorem c28_btree_json_round_trip (calls : List (Int × String)) :
    BTreeIndex.from_json (BTreeIndex.to_json (BTreeIndex.build calls))
        = some (BTreeIndex.build calls)
      ∧ ∀ loaded, BTreeIndex.from_json (BTreeIndex.to_json (BTreeIndex.build calls))
            = some loaded →
          (∀ k, loaded.search k = (BTreeIndex.build calls).search k)
            ∧ ∀ low high il ih, loaded.rangeSearch low high il ih
                = (BTreeIndex.build calls).rangeSearch low high il ih := by
  obtain ⟨ht, hok⟩ := BTreeIndex.build_ok calls
  have h : BTreeIndex.from_json (BTreeIndex.to_json (BTreeIndex.build calls))
      = some (BTreeIndex.build calls) := by
    simp only [BTreeIndex.from_json, BTreeIndex.to_json,
      BTreeIndex.load_to_json_node _ _ _ _ hok, Option.map_some']
    rw [← ht]
  refine ⟨h, fun loaded hl => ?_⟩
  rw [h] at hl
  cases hl
  exact ⟨fun _ => rfl, fun _ _ _ _ => rfl⟩

theorem Vector.length_resize {α : Type} [Inhabited α] (v : List α) (n : Nat) :
    (Vector.resize v n).length = n := by
  simp only [Vector.resize, List.length_append, List.length_take, List.length_replicate]
  omega

theorem Vector.index_checked_resize {α : Type} [Inhabited α] (v : List α) (n : Nat) :
    Vector.index_checked (Vector.resize v n) n = none := by
  simp only [Vector.index_checked]
  exact List.getElem?_eq_none (Nat.le_of_eq (Vector.length_resize v n))

theorem BTreeIndex.splitChild_checked_none (t : Nat) (x : BTreeNode) (i : Nat)
    (y : BTreeNode) : BTreeIndex.splitChild_checked t x i y = none := by
  unfold BTreeIndex.splitChild_checked
  split
  · simp only [Vector.index_checked_resize]
  · rfl

/-- C25, refuted. Every call of `splitChild` reads outside a vector: after
`y->keys.resize(t - 1)` and `y->ids.resize(t - 1)` it reads `y->keys[t - 1]`
and `y->ids[t - 1]`, an index equal to the size. The sixth insert of the keys
1 to 6 into a fresh tree finds the root with `2t - 1` keys and makes that
call. -/
theorem c25_split_reads_past_the_size :
    (∀ (x : BTreeNode) (i : Nat) (y : BTreeNode),
        BTreeIndex.splitChild_checked 3 x i y = none)
      ∧ (BTreeIndex.build five_inserts).root.keys.length
          = 2 * (BTreeIndex.build five_inserts).t - 1
      ∧ (Vector.resize (BTreeIndex.build five_inserts).root.keys 2).length = 2
      ∧ Vector.index_checked (Vector.resize (BTreeIndex.build five_inserts).root.keys 2) 2
          = none
      ∧ BTreeIndex.insert_checked (BTreeIndex.build five_inserts) (.fin 6) "f" = none := by
  refine ⟨fun x i y => BTreeIndex.splitChild_checked_none 3 x i y, by decide, by decide,
    by decide, ?_⟩
  have h : (BTreeIndex.build five_inserts).root.keys.length
      = 2 * (BTreeIndex.build five_inserts).t - 1 := by decide
  simp only [BTreeIndex.insert_checked, h, if_true, BTreeIndex.splitChild_checked_none,
    Option.map_none']

/-- C23, refuted at an input. Two clients send their first insert into the
same database at the same time. Both threads find no mutex in `db_mutexes`,
both allocate one and register it, each locks the mutex it allocated, and
both are inside `execute_write_operation` together; a writer and a reader
meet inside in the same way. One thread after the other, the second finds
the mutex of the first and has to wait. -/
theorem c23_two_writers_inside_together :
    (Gate.run "d" Gate.two_writers [0, 1, 0, 1, 0, 1]).inside_count = (2, 0)
      ∧ ((Gate.run "d" Gate.two_writers [0, 1, 0, 1, 0, 1]).clients.map Client.pc)
          = [.inside 0, .inside 1]
      ∧ (Gate.run "d" Gate.writer_and_reader [0, 1, 0, 1, 0, 1]).inside_count = (1, 1)
      ∧ (Gate.run "d" Gate.two_writers [0, 0, 0, 1, 1, 1]).inside_count = (1, 0)
      ∧ ((Gate.run "d" Gate.two_writers [0, 0, 0, 1, 1, 1]).clients.map Client.pc)
          = [.inside 0, .holds 0] := by
  decide

end Dbms
